import Mathlib

/-!
# Graphite: hetero-homo family engine

A shallow embedding of `VCFHeteroHomo.cpp` (segregation classifier, bias
validity test, pairwise distance) and of `kluskal.cpp` (union-find and
Kruskal minimum spanning tree), with the properties proved about them.

Conventions of the embedding.

* `VCFRecord::get_int_gt` is declared outside the files at hand.  A record is
  therefore represented by the values `get_int_gt` takes on it: one integer for
  the maternal sample (index 0), one for the paternal sample (index 1) and one
  for each progeny sample (indices 2, 3, ...).
* C++ `int` is embedded as `Int` and `size_t` as `Nat`; no counter of the
  embedded code can exceed the length of a vector it scans.
* C++ `double` is embedded as `ℝ` (exact real arithmetic), `log` as `Real.log`.
* A read or write outside a vector, or a lookup of an absent key followed by a
  dereference, has no defined behaviour in C++; the embedding returns `none`
  there.
-/

namespace Graphite

/-! ## VCFHeteroHomoRecord -/

/-- The segregation hypotheses, `VCFHeteroHomoRecord::SEGTYPE`. -/
inductive SEGTYPE where
  | HomoHetero
  | HeteroHetero
  | HeteroHomo
  | None
  deriving DecidableEq, Repr

/-- A family-view record as seen through `get_int_gt`: `mat_int_gt` is
`get_int_gt(0)`, `pat_int_gt` is `get_int_gt(1)` and `progeny_gts` lists
`get_int_gt(i)` for `i = 2, ..., samples.size() - 1`. -/
structure VCFHeteroHomoRecord where
  mat_int_gt : Int
  pat_int_gt : Int
  progeny_gts : List Int
  deriving DecidableEq, Repr

/-- The unsmoothed emission table `pss_` of `make_probability_table`. -/
noncomputable def pss_ : Fin 3 → Fin 3 → ℝ :=
  ![![0.5, 0.5, 0.0], ![0.25, 0.5, 0.25], ![0.0, 0.5, 0.5]]

/-- The constant `p_miss` of `make_probability_table`. -/
noncomputable def p_miss : ℝ := 0.01

/-- Embedding of `VCFHeteroHomoRecord::make_probability_table`. -/
noncomputable def make_probability_table : Fin 3 → Fin 3 → ℝ :=
  fun i j => (pss_ i j + p_miss) / (1.0 + 3 * p_miss)

/-- One iteration of the loop of `count_numbers`: `if(int_gt >= 0) ns[int_gt] += 1`
on the three-element vector `ns`.  An index above 2 writes past the end of
the vector. -/
def count_step (ns : Nat × Nat × Nat) (int_gt : Int) : Option (Nat × Nat × Nat) :=
  if int_gt ≥ 0 then
    if int_gt = 0 then some (ns.1 + 1, ns.2.1, ns.2.2)
    else if int_gt = 1 then some (ns.1, ns.2.1 + 1, ns.2.2)
    else if int_gt = 2 then some (ns.1, ns.2.1, ns.2.2 + 1)
    else none
  else some ns

/-- The loop of `count_numbers` over the progeny samples, from the state `ns`. -/
def count_loop : List Int → Nat × Nat × Nat → Option (Nat × Nat × Nat)
  | [], ns => some ns
  | g :: gs, ns =>
    match count_step ns g with
    | some ns1 => count_loop gs ns1
    | none => none

/-- Embedding of `VCFHeteroHomoRecord::count_numbers`. -/
def count_numbers (r : VCFHeteroHomoRecord) : Option (Nat × Nat × Nat) :=
  count_loop r.progeny_gts (0, 0, 0)

/-- Embedding of `VCFHeteroHomoRecord::log_likelihood`: for each `i` the inner
loop adds `ns[j] * log(pss[i][j])` to `lls[i]` for `j = 0, 1, 2`, starting
from `0.0`. -/
noncomputable def log_likelihood (pss : Fin 3 → Fin 3 → ℝ) (ns : Nat × Nat × Nat) :
    Fin 3 → ℝ :=
  fun i => ((0.0 + (ns.1 : ℝ) * Real.log (pss i 0)) + (ns.2.1 : ℝ) * Real.log (pss i 1))
    + (ns.2.2 : ℝ) * Real.log (pss i 2)

/-- Embedding of `std::max_element` on a three-element range: the position of
the first greatest element (the candidate is replaced only by a strictly
greater one). -/
noncomputable def max_element (lls : Fin 3 → ℝ) : Fin 3 :=
  let m1 : Fin 3 := if lls 0 < lls 1 then 1 else 0
  if lls m1 < lls 2 then 2 else m1

/-- Embedding of `VCFHeteroHomoRecord::segregation_type`. -/
noncomputable def segregation_type (r : VCFHeteroHomoRecord) : Option SEGTYPE :=
  let pss := make_probability_table
  match count_numbers r with
  | none => none
  | some ns =>
    let lls := log_likelihood pss ns
    if ns.1 + ns.2.1 = 0 ∨ ns.1 + ns.2.2 = 0 ∨ ns.2.1 + ns.2.2 = 0 then
      some SEGTYPE.None
    else
      let max_iter := max_element lls
      if lls 0 = lls max_iter then some SEGTYPE.HomoHetero
      else if lls 1 = lls max_iter then some SEGTYPE.HeteroHetero
      else some SEGTYPE.HeteroHomo

/-- Embedding of `VCFHeteroHomoRecord::is_Mendelian_segregation`. -/
noncomputable def is_Mendelian_segregation (r : VCFHeteroHomoRecord) : Option Bool :=
  match segregation_type r with
  | none => none
  | some seg_type =>
    if seg_type = SEGTYPE.None then some false
    else
      let gt_m := r.mat_int_gt
      let gt_p := r.pat_int_gt
      if gt_m = -1 ∨ gt_p = -1 then some false
      else
        match seg_type with
        | SEGTYPE.HomoHetero => some (decide (gt_m + gt_p = 1))
        | SEGTYPE.HeteroHetero => some (decide (gt_m = 1 ∧ gt_p = 1))
        | _ => some (decide (gt_m + gt_p = 3))

/-- Embedding of `VCFHeteroHomoRecord::is_hetero_and_homo`. -/
noncomputable def is_hetero_and_homo (r : VCFHeteroHomoRecord) (is_mat : Bool) : Option Bool :=
  match is_Mendelian_segregation r with
  | none => none
  | some false => some false
  | some true =>
    let gt_m := r.mat_int_gt
    let gt_p := r.pat_int_gt
    if is_mat then some (decide (gt_m = 1 ∧ (gt_p = 0 ∨ gt_p = 2)))
    else some (decide ((gt_m = 0 ∨ gt_m = 2) ∧ gt_p = 1))

/-- Embedding of `VCFHeteroHomoRecord::genotype_from_hetero_parent`; the
argument `gt_` is `get_int_gt(i)`.  C++ integer division truncates toward
zero. -/
def genotype_from_hetero_parent (gt_ : Int) (homo_gt : Int) : Int :=
  let gt := gt_ - Int.tdiv homo_gt 2
  if gt = 0 ∨ gt = 1 then gt else -1

/-- Embedding of `VCFHeteroHomoRecord::genotypes_from_hetero_parent`. -/
def genotypes_from_hetero_parent (r : VCFHeteroHomoRecord) (is_mat_hetero : Bool) : List Int :=
  let homo_gt := if is_mat_hetero then r.pat_int_gt else r.mat_int_gt
  r.progeny_gts.map (fun gt_ => genotype_from_hetero_parent gt_ homo_gt)

/-- The counting loop of `is_valid_segregation` from the state `(N, n0)`. -/
def valid_count_loop : List Int → Int × Int → Int × Int
  | [], st => st
  | p :: ps, (N, n0) =>
    let N1 := if p ≠ -1 then N + 1 else N
    let n1 := if p = 0 then n0 + 1 else n0
    valid_count_loop ps (N1, n1)

/-- Embedding of `VCFHeteroHomoRecord::is_valid_segregation`.  The bias table
`BiasProbability::compute_max_bias` is declared elsewhere and is a parameter;
`CM` stands for the type of the map position. -/
def is_valid_segregation {CM : Type} (compute_max_bias : Int → CM → Int)
    (r : VCFHeteroHomoRecord) (is_mat : Bool) (cM : CM) : Bool :=
  let gts := genotypes_from_hetero_parent r is_mat
  let st := valid_count_loop gts (0, 0)
  let N := st.1
  let n0 := st.2
  let bias := min n0 (N - n0)
  decide (bias ≥ compute_max_bias N cM)

/-! ## VCFHeteroHomo::distance -/

/-- The loop of `VCFHeteroHomo::distance` from the counters `counter1`,
`counter2`.  The loop runs over `gts1`; reading `gts2[i]` past the end of
`gts2` is undefined. -/
def distance_loop : List Int → List Int → Int → Int → Int → Option (Int × Bool)
  | [], _, max_dist, counter1, counter2 =>
    some (min counter1 counter2, decide (counter1 > max_dist))
  | _ :: _, [], _, _, _ => none
  | g1 :: gts1, g2 :: gts2, max_dist, counter1, counter2 =>
    let c1 := if g1 ≠ g2 then counter1 + 1 else counter1
    let c2 := if g1 + g2 ≠ 1 then counter2 + 1 else counter2
    if c1 > max_dist ∧ c2 > max_dist then some (max_dist + 1, false)
    else distance_loop gts1 gts2 max_dist c1 c2

/-- Embedding of `VCFHeteroHomo::distance`. -/
def distance (gts1 gts2 : List Int) (max_dist : Int) : Option (Int × Bool) :=
  distance_loop gts1 gts2 max_dist 0 0

/-! ## Kluskal -/

/-- A `std::map<size_t, β>` that is only consulted by key (`find`, `insert`,
`operator[]`): the partial function from keys to mapped values. -/
abbrev KeyMap (β : Type) := Nat → Option β

/-- Embedding of `m.insert(pair(k, v))`: an existing entry is kept. -/
def KeyMap.insert {β : Type} (m : KeyMap β) (k : Nat) (v : β) : KeyMap β :=
  fun x => if x = k then (match m k with
    | some old => some old
    | none => some v) else m x

/-- Embedding of `m[k] = v`. -/
def KeyMap.assign {β : Type} (m : KeyMap β) (k : Nat) (v : β) : KeyMap β :=
  fun x => if x = k then some v else m x

/-- Reading `m[k]` of a `std::map<size_t,int>`: an absent key is created with
the value 0. -/
def KeyMap.at (m : KeyMap Int) (k : Nat) : Int :=
  match m k with
  | some v => v
  | none => 0

/-- Embedding of `Kluskal::UnionFind`: the maps `parents` and `heights`. -/
structure UnionFind where
  parents : KeyMap Nat
  heights : KeyMap Int

/-- Embedding of `UnionFind::UnionFind(nodes)`. -/
def UnionFind.init (nodes : List Nat) : UnionFind :=
  nodes.foldl
    (fun t p => { parents := t.parents.insert p p, heights := t.heights.insert p 1 })
    { parents := fun _ => none, heights := fun _ => none }

/-- Embedding of `UnionFind::root`: the `while(true)` loop, run for at most
`fuel` iterations.  `none` when the fuel is used up, or when `find` misses
(the end iterator would be dereferenced). -/
def UnionFind.root (t : UnionFind) : Nat → Nat → Option Nat
  | 0, _ => none
  | fuel + 1, v =>
    match t.parents v with
    | none => none
    | some p => if p = v then some p else UnionFind.root t fuel p

/-- Embedding of `UnionFind::join`.  `r1` and `r2` are C++ references
(`const size_t&`) to the mapped values of the roots' own entries of
`parents`, as `root` returns `p->second` by reference.  After
`parents[r1] = r2` the reference `r1` therefore reads the value just stored,
and it is that value which indexes `heights` in the following statement
(likewise for `r2` in the other branch); `h1` and `h2` are copies taken
before. -/
def UnionFind.join (t : UnionFind) (fuel : Nat) (v1 v2 : Nat) : Option UnionFind :=
  match UnionFind.root t fuel v1, UnionFind.root t fuel v2 with
  | some r1, some r2 =>
    let h1 := t.heights.at r1
    let h2 := t.heights.at r2
    if h1 ≤ h2 then
      let parents1 := t.parents.assign r1 r2
      let r1_now := match parents1 r1 with
        | some x => x
        | none => r1
      some { parents := parents1,
             heights := t.heights.assign r2 (max (t.heights.at r2) (t.heights.at r1_now + 1)) }
    else
      let parents1 := t.parents.assign r2 r1
      let r2_now := match parents1 r2 with
        | some x => x
        | none => r2
      some { parents := parents1,
             heights := t.heights.assign r1 (max (t.heights.at r1) (t.heights.at r2_now + 1)) }
  | _, _ => none

/-- Embedding of `Kluskal::GRAPH`, a
`std::map<size_t, vector<pair<size_t,int>>>`, as the list of its entries in
iteration order (ascending keys). -/
abbrev GRAPH := List (Nat × List (Nat × Int))

/-- An edge `tuple<size_t,size_t,int>`: `(v1, v2, w)`. -/
abbrev Edge := Nat × Nat × Int

/-- Embedding of `new_graph[v].push_back(e)`: the entry of `v` is created
empty when absent, at its place in key order. -/
def GRAPH.push_back : GRAPH → Nat → Nat × Int → GRAPH
  | [], v, e => [(v, [e])]
  | (k, vec) :: rest, v, e =>
    if v < k then (v, [e]) :: (k, vec) :: rest
    else if v = k then (k, vec ++ [e]) :: rest
    else (k, vec) :: GRAPH.push_back rest v e

/-- The first loop of `Kluskal`: the keys of the graph. -/
def nodes_of (graph : GRAPH) : List Nat :=
  graph.map (fun p => p.1)

/-- The second loop of `Kluskal`: for every entry `(v1, vec)` in key order and
every `(v2, w)` of `vec` in order, the edge `(v1, v2, w)` is kept when
`v1 < v2`. -/
def collect_edges (graph : GRAPH) : List Edge :=
  graph.flatMap (fun p =>
    (p.2.filter (fun q => decide (p.1 < q.1))).map (fun q => (p.1, q.1, q.2)))

/-- Insertion of `a` into a list sorted by weight, before the first element
`b` with `get<2>(a) < get<2>(b)`, that is, after every element whose weight
is not greater. -/
def insert_by_weight (a : Edge) : List Edge → List Edge
  | [] => [a]
  | b :: l => if a.2.2 < b.2.2 then a :: b :: l else b :: insert_by_weight a l

/-- Embedding of `std::stable_sort` with the comparator
`get<2>(a) < get<2>(b)`: ascending weights, edges of equal weight in their
original order.  The result of a stable sort is determined by this; it is
computed here by inserting the elements one after the other. -/
def stable_sort (edges : List Edge) : List Edge :=
  edges.foldl (fun sorted a => insert_by_weight a sorted) []

/-- The third loop of `Kluskal`, from the state `(tree, new_graph, counter)`;
`n` is `nodes.size()`.  `counter == nodes.size() - 1` is a comparison of
`size_t` values; `counter` is at least 1 there, so truncated subtraction
agrees with the wrap-around at `nodes.size() = 0`. -/
def kluskal_loop (fuel n : Nat) : List Edge → UnionFind → GRAPH → Nat → Option GRAPH
  | [], _, new_graph, _ => some new_graph
  | (v1, v2, w) :: rest, tree, new_graph, counter =>
    match UnionFind.root tree fuel v1, UnionFind.root tree fuel v2 with
    | some r1, some r2 =>
      if r1 ≠ r2 then
        match UnionFind.join tree fuel v1 v2 with
        | none => none
        | some tree1 =>
          let g1 := GRAPH.push_back new_graph v1 (v2, w)
          let g2 := GRAPH.push_back g1 v2 (v1, w)
          if counter + 1 = n - 1 then some g2
          else kluskal_loop fuel n rest tree1 g2 (counter + 1)
      else kluskal_loop fuel n rest tree new_graph counter
    | _, _ => none

/-- Embedding of `Kluskal::Kluskal`; every call of `root` runs for at most
`fuel` iterations. -/
def Kluskal (fuel : Nat) (graph : GRAPH) : Option GRAPH :=
  let nodes := nodes_of graph
  let tree := UnionFind.init nodes
  let edges := stable_sort (collect_edges graph)
  kluskal_loop fuel nodes.length edges tree [] 0

/-! ## Specification-level notions for the classifier and the distance -/

/-- The number of progeny whose integer genotype is `g`. -/
def progeny_count (r : VCFHeteroHomoRecord) (g : Int) : Nat :=
  r.progeny_gts.count g

/-- Every progeny integer genotype is at most 2 (missing, 0, 1 or 2), so that
`count_numbers` stays inside its three-element vector. -/
def InRange (r : VCFHeteroHomoRecord) : Prop :=
  ∀ g ∈ r.progeny_gts, g ≤ 2

instance (r : VCFHeteroHomoRecord) : Decidable (InRange r) := by
  unfold InRange; infer_instance

/-- The emission matrix `P[s][g]` as the specification tabulates it. -/
noncomputable def emission : Fin 3 → Fin 3 → ℝ :=
  ![![0.5, 0.5, 0], ![0.25, 0.5, 0.25], ![0, 0.5, 0.5]]

/-- The specification's `L[s] = Σ_g n_g · log((P[s][g] + 0.01) / 1.03)`. -/
noncomputable def L_spec (n : Fin 3 → Nat) (s : Fin 3) : ℝ :=
  ∑ g : Fin 3, (n g : ℝ) * Real.log ((emission s g + 0.01) / 1.03)

/-- The progeny count triple `(n0, n1, n2)` of a record. -/
def count_triple (r : VCFHeteroHomoRecord) : Fin 3 → Nat :=
  ![progeny_count r 0, progeny_count r 1, progeny_count r 2]

/-- The hypotheses in scan order: HomoHetero, HeteroHetero, HeteroHomo. -/
def seg_of : Fin 3 → SEGTYPE :=
  ![SEGTYPE.HomoHetero, SEGTYPE.HeteroHetero, SEGTYPE.HeteroHomo]

/-- The parents match the segregation type (the specification's Mendelian check). -/
def parents_match : SEGTYPE → Int → Int → Prop
  | SEGTYPE.HomoHetero, mat, pat => mat + pat = 1
  | SEGTYPE.HeteroHetero, mat, pat => mat = 1 ∧ pat = 1
  | SEGTYPE.HeteroHomo, mat, pat => mat + pat = 3
  | SEGTYPE.None, _, _ => False

/-- The allele inherited from the heterozygous parent, in the specification's
words: `g - h/2` when that value is 0 or 1, missing (-1) otherwise. -/
def inherited_allele (h g : Int) : Int :=
  if g - Int.tdiv h 2 = 0 then 0 else if g - Int.tdiv h 2 = 1 then 1 else -1

/-- The dosage of the homozygous side: paternal if `is_mat`, maternal otherwise. -/
def homo_side (r : VCFHeteroHomoRecord) (is_mat : Bool) : Int :=
  if is_mat then r.pat_int_gt else r.mat_int_gt

/-- The number of progeny with a non-missing inherited allele. -/
def inherited_N (r : VCFHeteroHomoRecord) (is_mat : Bool) : Nat :=
  r.progeny_gts.countP (fun g => decide (inherited_allele (homo_side r is_mat) g ≠ -1))

/-- The number of progeny whose inherited allele is 0. -/
def inherited_n0 (r : VCFHeteroHomoRecord) (is_mat : Bool) : Nat :=
  r.progeny_gts.countP (fun g => decide (inherited_allele (homo_side r is_mat) g = 0))

/-- The Hamming distance `d_same = #{i : a_i ≠ b_i}`. -/
def d_same (a b : List Int) : Nat :=
  (List.zip a b).countP (fun p => decide (p.1 ≠ p.2))

/-- The flipped Hamming distance `d_flip = #{i : a_i + b_i ≠ 1}`. -/
def d_flip (a b : List Int) : Nat :=
  (List.zip a b).countP (fun p => decide (p.1 + p.2 ≠ 1))

/-! ## Specification-level notions for the spanning tree -/

/-- Every adjacency entry of the graph as an edge `(v1, v2, w)`: `(v2, w)` is
listed under `v1`. -/
def all_edges (graph : GRAPH) : List Edge :=
  graph.flatMap (fun p => p.2.map (fun q => (p.1, q.1, q.2)))

/-- The nodes `u` and `v` are joined by a walk along edges of `T`, each taken
in either direction. -/
def Reach (T : List Edge) : Nat → Nat → Prop :=
  Relation.EqvGen (fun a b => ∃ w, (a, b, w) ∈ T)

/-- A well-formed adjacency mapping: keys strictly ascending (a `std::map`),
every neighbour is itself a key, and every edge is listed under both of its
endpoints. -/
def WellFormedGraph (graph : GRAPH) : Prop :=
  (nodes_of graph).Pairwise (fun a b => a < b)
  ∧ (∀ e ∈ all_edges graph, e.2.1 ∈ nodes_of graph)
  ∧ (∀ e ∈ all_edges graph, (e.2.1, e.1, e.2.2) ∈ all_edges graph)

instance (graph : GRAPH) : Decidable (WellFormedGraph graph) := by
  unfold WellFormedGraph; infer_instance

/-- A connected graph: any two keys are joined by a walk. -/
def ConnectedGraph (graph : GRAPH) : Prop :=
  ∀ u ∈ nodes_of graph, ∀ v ∈ nodes_of graph, Reach (all_edges graph) u v

/-- No cycle: no edge has its endpoints joined by the other edges, that is,
however `T` is arranged as an edge `e` followed by the other edges `U`, the
edges `U` do not join the endpoints of `e`. -/
def Acyclic (T : List Edge) : Prop :=
  ∀ (e : Edge) (U : List Edge), List.Perm T (e :: U) → ¬ Reach U e.1 e.2.1

/-- The total weight of a list of edges. -/
def total_weight (T : List Edge) : Int :=
  (T.map (fun e => e.2.2)).sum

/-- A spanning tree of the graph: edges of the graph with their weights,
without cycle, joining all the keys. -/
def IsSpanningTree (graph : GRAPH) (T : List Edge) : Prop :=
  (∀ e ∈ T, e ∈ all_edges graph) ∧ Acyclic T
  ∧ (∀ u ∈ nodes_of graph, ∀ v ∈ nodes_of graph, Reach T u v)

/-- A forest built edge by edge: every edge joins two nodes that the edges
after it in the list leave apart. -/
def ForestList : List Edge → Prop
  | [] => True
  | e :: T => ¬ Reach T e.1 e.2.1 ∧ ForestList T

/-- The vector `δ_a - δ_b` attached to an edge `(a, b, w)`. -/
noncomputable def edge_vec (e : Edge) : Nat →₀ ℚ :=
  Finsupp.single e.1 1 - Finsupp.single e.2.1 1

/-- The greedy scan in relational form: `GreedyScan n es T K` holds when
scanning the edges `es` with the edges `T` already taken (latest first) ends
with the edges `K` taken; an edge is taken when its endpoints are not joined
by `T`, and the scan stops once `n - 1` edges are taken. -/
inductive GreedyScan (n : Nat) : List Edge → List Edge → List Edge → Prop
  | done (T : List Edge) : GreedyScan n [] T T
  | skip (e : Edge) (es T K : List Edge) :
      Reach T e.1 e.2.1 → GreedyScan n es T K → GreedyScan n (e :: es) T K
  | stop (e : Edge) (es T : List Edge) :
      ¬ Reach T e.1 e.2.1 → T.length + 1 = n - 1 → GreedyScan n (e :: es) T (e :: T)
  | take (e : Edge) (es T K : List Edge) :
      ¬ Reach T e.1 e.2.1 → T.length + 1 ≠ n - 1 → GreedyScan n es (e :: T) K →
      GreedyScan n (e :: es) T K

/-- The representative of `x` in the union-find: its root, or `x` itself when
`x` is not a member. -/
def UnionFind.rep (t : UnionFind) (fuel : Nat) (x : Nat) : Nat :=
  match UnionFind.root t fuel x with
  | some r => r
  | none => x

/-- The state of the union-find over the nodes `V` after the edges `T` have
been joined, all heights lying between 1 and `H`: the keys of `parents` are
the nodes, parents are nodes, heights strictly increase from a node to its
parent, and two nodes have the same root exactly when `T` joins them. -/
structure UFInv (t : UnionFind) (V : List Nat) (T : List Edge) (H : Nat) : Prop where
  dom : ∀ v ∈ V, ∃ p, t.parents v = some p
  absent : ∀ v, v ∉ V → t.parents v = none
  closed : ∀ v p, t.parents v = some p → p ∈ V
  bounds : ∀ v ∈ V, 1 ≤ t.heights.at v ∧ t.heights.at v ≤ (H : Int)
  climb : ∀ v p, t.parents v = some p → p ≠ v → t.heights.at v < t.heights.at p
  comp : ∀ u v, Reach T u v ↔ UnionFind.rep t H u = UnionFind.rep t H v

/-- The effect of `join` on two distinct roots: `c` becomes a child of `p`,
and the height of `p` grows by one. -/
def UnionFind.link (t : UnionFind) (c p : Nat) : UnionFind :=
  { parents := t.parents.assign c p, heights := t.heights.assign p (t.heights.at p + 1) }

/-- The two `push_back` calls of the loop of `Kluskal` for a selected edge. -/
def push_edge (g : GRAPH) (e : Edge) : GRAPH :=
  GRAPH.push_back (GRAPH.push_back g e.1 (e.2.1, e.2.2)) e.2.1 (e.1, e.2.2)

/-- The triangle of scenario S5, all weights 1. -/
def triangle : GRAPH :=
  [(1, [(2, 1), (3, 1)]), (2, [(1, 1), (3, 1)]), (3, [(1, 1), (2, 1)])]

/-- The graph with the single node 1 and no edge. -/
def single_node : GRAPH := [(1, [])]

/-! ## Specification-level notions for the union-find -/

/-- The states of the union-find over `nodes` that are reachable from the
constructor by calls of `join` on member nodes (a call counts when it
returns, whatever the number of iterations `root` was allowed). -/
inductive ReachableUF (nodes : List Nat) : UnionFind → Prop
  | init : ReachableUF nodes (UnionFind.init nodes)
  | join (t t2 : UnionFind) (fuel v1 v2 : Nat) :
      ReachableUF nodes t → v1 ∈ nodes → v2 ∈ nodes →
      UnionFind.join t fuel v1 v2 = some t2 → ReachableUF nodes t2

/-- The node reached from `v` by following the parent pointer `k` times. -/
def UnionFind.ancestor (t : UnionFind) : Nat → Nat → Option Nat
  | 0, v => some v
  | k + 1, v =>
    match t.parents v with
    | none => none
    | some p => UnionFind.ancestor t k p

/-! ## The reference greedy scan -/

/-- A label for the component of `x` under the edges `T`: nodes carry their
own name at first, and every edge `(a, b, w)` in turn renames the component
of `a` to the label of `b`. -/
def component_label : List Edge → Nat → Nat
  | [], x => x
  | e :: T, x =>
    if component_label T x = component_label T e.1 then component_label T e.2.1
    else component_label T x

/-- The nodes `u` and `v` are connected by the edges `T`. -/
def connected_by (T : List Edge) (u v : Nat) : Bool :=
  decide (component_label T u = component_label T v)

/-- The edges with `v1 < v2`, by ascending node key and then in
adjacency-list order. -/
def reference_edges (graph : GRAPH) : List Edge :=
  (all_edges graph).filter (fun e => decide (e.1 < e.2.1))

/-- The reference greedy scan over the remaining edges, `taken` being the
edges taken so far in the order they were taken: the scan stops once `n - 1`
edges are taken, and an edge is taken exactly when its endpoints are not
already connected by the edges taken before. -/
def reference_scan (n : Nat) : List Edge → List Edge → List Edge
  | [], taken => taken
  | e :: es, taken =>
    if taken.length = n - 1 then taken
    else if connected_by taken e.1 e.2.1 then reference_scan n es taken
    else reference_scan n es (taken ++ [e])

/-- The edges chosen by the reference: the edges with `v1 < v2` are listed,
stably sorted by ascending weight, and scanned greedily. -/
def reference_selection (graph : GRAPH) : List Edge :=
  reference_scan (nodes_of graph).length
    (List.insertionSort (fun a b => a.2.2 ≤ b.2.2) (reference_edges graph)) []

/-! ## VCFHeteroHomo: record objects and chromosome splitting -/

/-- What a `VCFHeteroHomoRecord(v, samples)` holds: the cells `v`, namely the
nine fixed columns (kept together as one value `properties`) followed by one
genotype cell per sample (`gts`), and the sample names. -/
structure FamilyRecord (P : Type) where
  properties : P
  gts : List String
  samples : List String
  deriving DecidableEq, Repr

/-- An address of a record object. -/
abbrev RecordPtr := Nat

/-- The store of `VCFHeteroHomoRecord` objects: the object at address `a` is
`cells[a]`, and `new` places an object at the next address. -/
structure RecordStore (P : Type) where
  cells : List (FamilyRecord P)
  deriving DecidableEq, Repr

/-- Dereferencing a record pointer; `none` when no object lives there. -/
def RecordStore.read {P : Type} (store : RecordStore P) (p : RecordPtr) :
    Option (FamilyRecord P) :=
  store.cells[p]?

/-- Embedding of `VCFHeteroHomoRecord::copy`:
`new VCFHeteroHomoRecord(this->v, this->samples)`. -/
def RecordStore.copy {P : Type} (store : RecordStore P) (p : RecordPtr) :
    Option (RecordStore P × RecordPtr) :=
  match store.read p with
  | none => none
  | some r =>
    some ({ cells := store.cells ++ [{ properties := r.properties, gts := r.gts,
                                       samples := r.samples }] },
          store.cells.length)

/-- Embedding of a `VCFHeteroHomo` object: header, sample names, the sequence
`records` and the genetic map.  `R` is the type of the entries of `records`
and `M` the type of maps (`Map` is declared elsewhere).  The records of the
base class `VCFFamily`, built by `to_VCFFamilyRecord`, are objects of another
class and are left out. -/
structure VCFHeteroHomo (R M : Type) where
  header : List (List String)
  samples : List String
  records : List R
  genetic_map : M
  deriving DecidableEq, Repr

/-- The loop of `VCFHeteroHomo::divide_into_chromosomes` followed by its last
`push_back`, from the state `(store, vcfs, iter_map, prev_chr, rs)`;
`iter_map` is the position of the iterator in `chr_maps`, and dereferencing it
past the end is undefined.  `chrom` stands for `VCFRecord::chrom`, which is
declared elsewhere. -/
def divide_loop {P M : Type} (chrom : P → String) (header : List (List String))
    (samples : List String) (chr_maps : List M) :
    List RecordPtr → RecordStore P → List (VCFHeteroHomo RecordPtr M) → Nat → String →
    List RecordPtr → Option (RecordStore P × List (VCFHeteroHomo RecordPtr M))
  | [], store, vcfs, iter_map, _, rs =>
    match chr_maps[iter_map]? with
    | none => none
    | some m =>
      some (store, vcfs ++ [{ header := header, samples := samples, records := rs,
                              genetic_map := m }])
  | p :: ps, store, vcfs, iter_map, prev_chr, rs =>
    match store.read p with
    | none => none
    | some r =>
      let chr := chrom r.properties
      let flushed : Option (List (VCFHeteroHomo RecordPtr M) × Nat × List RecordPtr) :=
        if chr ≠ prev_chr ∧ rs ≠ [] then
          match chr_maps[iter_map]? with
          | none => none
          | some m =>
            some (vcfs ++ [{ header := header, samples := samples, records := rs,
                             genetic_map := m }], iter_map + 1, [])
        else some (vcfs, iter_map, rs)
      match flushed with
      | none => none
      | some (vcfs1, iter1, rs1) =>
        let prev1 := if chr ≠ prev_chr then chr else prev_chr
        match store.copy p with
        | none => none
        | some (store1, q) =>
          divide_loop chrom header samples chr_maps ps store1 vcfs1 iter1 prev1 (rs1 ++ [q])

/-- Embedding of `VCFHeteroHomo::divide_into_chromosomes`; `chr_maps` is the
result of `genetic_map.divide_into_chromosomes()`, declared elsewhere. -/
def divide_into_chromosomes {P M : Type} (chrom : P → String) (chr_maps : List M)
    (store : RecordStore P) (vcf : VCFHeteroHomo RecordPtr M) :
    Option (RecordStore P × List (VCFHeteroHomo RecordPtr M)) :=
  divide_loop chrom vcf.header vcf.samples chr_maps vcf.records store [] 0 "" []

/-! ## Specification-level notions for the chromosome splitting -/

/-- The chromosome identifiers of the records of a sequence of pointers. -/
def record_chroms {P : Type} (chrom : P → String) (store : RecordStore P)
    (ps : List RecordPtr) : List String :=
  ps.filterMap (fun p => (store.read p).map (fun r => chrom r.properties))

/-- The number of chromosome runs: maximal stretches of consecutive records
with the same chromosome identifier. -/
def chromosome_runs : List String → Nat
  | [] => 0
  | [_] => 1
  | c :: d :: cs => (if c = d then 0 else 1) + chromosome_runs (d :: cs)

/-- Records grouped by chromosome: when the chromosome of a record occurs
again later, the very next record is on it, so that the records of one
chromosome are consecutive. -/
def Grouped : List String → Prop
  | [] => True
  | c :: cs => (c ∈ cs → cs.head? = some c) ∧ Grouped cs

instance (cs : List String) : Decidable (Grouped cs) := by
  induction cs with
  | nil => exact isTrue trivial
  | cons c cs ih => unfold Grouped; infer_instance

/-- The distinct identifiers of a list in order of first occurrence. -/
def first_occurrences : List String → List String
  | [] => []
  | c :: cs => c :: (first_occurrences cs).filter (fun d => decide (d ≠ c))

/-- The runs of a sequence, as the splitting loop builds them from the
state `(prev, rs)`: a proof device for the loop. -/
def split_runs {α : Type} (key : α → String) : List α → String → List α → List (List α)
  | [], _, rs => [rs]
  | x :: xs, prev, rs =>
    if key x ≠ prev ∧ rs.length ≠ 0 then rs :: split_runs key xs (key x) [x]
    else split_runs key xs (key x) (rs ++ [x])

/-- The record sequences of a list of VCFs, each pointer dereferenced in
`store`. -/
def records_view {P M : Type} (store : RecordStore P)
    (vcfs : List (VCFHeteroHomo RecordPtr M)) : List (List (Option (FamilyRecord P))) :=
  vcfs.map (fun v => v.records.map store.read)

/-- The records of the sequence `ps` that lie on chromosome `c`,
dereferenced in `store`. -/
def records_on {P : Type} (chrom : P → String) (store : RecordStore P)
    (ps : List RecordPtr) (c : String) : List (Option (FamilyRecord P)) :=
  (ps.map store.read).filter
    (fun r => decide (r.map (fun x => chrom x.properties) = some c))

/-- The store of scenario S6: five records on chr1 followed by three on chr2
(the fixed columns are reduced to the chromosome identifier). -/
def scenario_store : RecordStore String :=
  { cells := List.replicate 5 { properties := "chr1", gts := [], samples := [] }
      ++ List.replicate 3 { properties := "chr2", gts := [], samples := [] } }

/-- The hetero-homo VCF of scenario S6 over `scenario_store`; maps are named
by numbers. -/
def scenario_vcf : VCFHeteroHomo RecordPtr Nat :=
  { header := [], samples := [], records := [0, 1, 2, 3, 4, 5, 6, 7], genetic_map := 0 }

/-- A record of the source VCF as `create_vcfs` reads it: the nine fixed
columns (kept abstract, copied by `copy_properties`) and the genotype columns
returned by `gts()`. -/
structure VCFRecord (P : Type) where
  properties : P
  gts : List String
  deriving DecidableEq, Repr

/-- The pair (maternal sample, paternal sample) naming a family. -/
abbrev Parents := String × String

/-- The inner loop of `create_vcfs` over the columns of one family: it fills
`v[i+9] = w[*p-9]` and `samples[i] = orig_samples[*p-9]`.  A column below 9
(the unsigned subtraction wraps) or past the end reads outside the vectors. -/
def project_columns (orig_samples w : List String) :
    List Nat → Option (List String × List String)
  | [] => some ([], [])
  | c :: cs =>
    if c < 9 then none
    else
      match w[c - 9]?, orig_samples[c - 9]?, project_columns orig_samples w cs with
      | some g, some s, some (gts, samples) => some (g :: gts, s :: samples)
      | _, _, _ => none

/-- The family-view record `new VCFHeteroHomoRecord(v, samples)` that
`create_vcfs` builds from a source record and the columns of one family. -/
def project {P : Type} (orig_samples : List String) (record : VCFRecord P)
    (columns : List Nat) : Option (FamilyRecord P) :=
  match project_columns orig_samples record.gts columns with
  | some (gts, samples) => some { properties := record.properties, gts := gts, samples := samples }
  | none => none

/-- The integer view of a family-view record: `get_int_gt(0)`, `get_int_gt(1)`
and `get_int_gt(i)` for `i = 2, ..., samples.size() - 1`.  The parser
`get_int_gt` of the base record class is a parameter. -/
def int_view {P : Type} (get_int_gt : FamilyRecord P → Nat → Int) (r : FamilyRecord P) :
    VCFHeteroHomoRecord :=
  { mat_int_gt := get_int_gt r 0
    pat_int_gt := get_int_gt r 1
    progeny_gts := (List.range (r.samples.length - 2)).map (fun i => get_int_gt r (i + 2)) }

/-- The statement `selected_records[key].push_back(r)` on the map
`selected_records`, a finite map seen as a function on keys. -/
def push_record {R : Type} (sel : Parents × Bool → Option (List R)) (key : Parents × Bool)
    (r : R) : Parents × Bool → Option (List R) :=
  fun k => if k = key then some ((sel k).getD [] ++ [r]) else sel k

/-- The body of the loop of `create_vcfs` over the families, for one record
and the columns of one family. -/
noncomputable def family_step {P : Type} (get_int_gt : FamilyRecord P → Nat → Int)
    (orig_samples : List String) (record : VCFRecord P)
    (sel : Parents × Bool → Option (List (FamilyRecord P))) (columns : List Nat) :
    Option (Parents × Bool → Option (List (FamilyRecord P))) :=
  if columns.length < 10 then some sel
  else
    match project orig_samples record columns with
    | none => none
    | some new_record =>
      match new_record.samples with
      | mat :: pat :: _ =>
        match is_hetero_and_homo (int_view get_int_gt new_record) true with
        | none => none
        | some b1 =>
          let sel1 := if b1 then push_record sel ((mat, pat), true) new_record else sel
          match is_hetero_and_homo (int_view get_int_gt new_record) false with
          | none => none
          | some b2 =>
            some (if b2 then push_record sel1 ((mat, pat), false) new_record else sel1)
      | _ => none

/-- The loop of `create_vcfs` over `family_columns` for one record. -/
noncomputable def families_loop {P : Type} (get_int_gt : FamilyRecord P → Nat → Int)
    (orig_samples : List String) (record : VCFRecord P) :
    List (List Nat) → (Parents × Bool → Option (List (FamilyRecord P))) →
      Option (Parents × Bool → Option (List (FamilyRecord P)))
  | [], sel => some sel
  | columns :: rest, sel =>
    match family_step get_int_gt orig_samples record sel columns with
    | none => none
    | some sel1 => families_loop get_int_gt orig_samples record rest sel1

/-- The `while(true)` loop of `create_vcfs` over the records that
`orig_vcf->next()` yields; in debug mode it stops at the first record whose
position has first component 2.  `record_position` is a parameter. -/
noncomputable def stream_loop {P : Type} (get_int_gt : FamilyRecord P → Nat → Int)
    (record_position : VCFRecord P → Int × Int) (orig_samples : List String)
    (family_columns : List (List Nat)) (debug : Bool) :
    List (VCFRecord P) → (Parents × Bool → Option (List (FamilyRecord P))) →
      Option (Parents × Bool → Option (List (FamilyRecord P)))
  | [], sel => some sel
  | record :: rest, sel =>
    if debug = true ∧ (record_position record).1 = 2 then some sel
    else
      match families_loop get_int_gt orig_samples record family_columns sel with
      | none => none
      | some sel1 =>
        stream_loop get_int_gt record_position orig_samples family_columns debug rest sel1

/-- Embedding of `VCFHeteroHomo::create_vcfs`.  The stream is the list of
records that `next()` yields, `family_columns` is the result of
`collect_family_columns` and `select_header` is a parameter.  A bucket exists
only after a `push_back`, so `records[0]` exists for every key of
`selected_records`.  The call `copy_chrs` sets the chromosome list of the new
VCF, which the embedding does not carry. -/
noncomputable def create_vcfs {P M : Type} (get_int_gt : FamilyRecord P → Nat → Int)
    (record_position : VCFRecord P → Int × Int)
    (select_header : FamilyRecord P → List (List String))
    (stream : List (VCFRecord P)) (orig_samples : List String)
    (family_columns : List (List Nat)) (geno_map : M) (debug : Bool) :
    Option (Parents × Bool → Option (VCFHeteroHomo (FamilyRecord P) M)) :=
  match stream_loop get_int_gt record_position orig_samples family_columns debug stream
      (fun _ => none) with
  | none => none
  | some selected_records =>
    some (fun key =>
      match selected_records key with
      | some (r0 :: rs) =>
        some { header := select_header r0, samples := r0.samples, records := r0 :: rs,
               genetic_map := geno_map }
      | _ => none)

/-- The parents `Parents(samples[0], samples[1])` of a family-view record. -/
def parents_of {P : Type} (r : FamilyRecord P) : Option Parents :=
  match r.samples with
  | mat :: pat :: _ => some (mat, pat)
  | _ => none

/-- The records that one source record and the columns of one family add to
the bucket `key`: the projection, when the family has ten or more columns, its
parents are those of the key and `is_hetero_and_homo` holds for the role of
the key; nothing otherwise. -/
noncomputable def selected {P : Type} (get_int_gt : FamilyRecord P → Nat → Int)
    (orig_samples : List String) (key : Parents × Bool) (record : VCFRecord P)
    (columns : List Nat) : List (FamilyRecord P) :=
  if columns.length < 10 then []
  else
    match project orig_samples record columns with
    | none => []
    | some nr =>
      if parents_of nr = some key.1 ∧ is_hetero_and_homo (int_view get_int_gt nr) key.2 = some true
      then [nr] else []

/-- The records of the stream that `create_vcfs` reads: all of them, or in
debug mode those before the first record whose position has first
component 2. -/
def processed {P : Type} (record_position : VCFRecord P → Int × Int) (debug : Bool)
    (stream : List (VCFRecord P)) : List (VCFRecord P) :=
  stream.takeWhile (fun record => !(debug && decide ((record_position record).1 = 2)))

/-- The parents of the family with the given columns, read in the sample list
of the source VCF. -/
def family_parents (orig_samples : List String) (columns : List Nat) : Option Parents :=
  match columns with
  | m :: p :: _ =>
    match orig_samples[m - 9]?, orig_samples[p - 9]? with
    | some a, some b => some (a, b)
    | _, _ => none
  | _ => none

/-- No two registered families of ten or more columns have the same parents. -/
def DistinctFamilies (orig_samples : List String) (family_columns : List (List Nat)) : Prop :=
  (family_columns.filter (fun c => decide (10 ≤ c.length))).Pairwise
    (fun c d => family_parents orig_samples c ≠ family_parents orig_samples d)

/-- The inputs on which `create_vcfs` reads inside its vectors: for every
record that is read and every family of ten or more columns the projection
exists and its progeny genotypes are at most 2. -/
def ValidInput {P : Type} (get_int_gt : FamilyRecord P → Nat → Int)
    (record_position : VCFRecord P → Int × Int) (orig_samples : List String)
    (family_columns : List (List Nat)) (debug : Bool) (stream : List (VCFRecord P)) : Prop :=
  ∀ record ∈ processed record_position debug stream, ∀ columns ∈ family_columns,
    10 ≤ columns.length →
      ∃ nr, project orig_samples record columns = some nr ∧ InRange (int_view get_int_gt nr)

/-- A genotype parser for the examples: the sum of the two alleles of
`0/0`, `0/1` and `1/1`, and -1 otherwise. -/
def example_int_gt {P : Type} (r : FamilyRecord P) (i : Nat) : Int :=
  match r.gts[i]? with
  | some "0/0" => 0
  | some "0/1" => 1
  | some "1/1" => 2
  | _ => -1

/-- The map `sel` holds exactly the lists `L`: a key is present when its list
is not empty, and then it holds that list. -/
def BucketsAre {R : Type} (sel : Parents × Bool → Option (List R))
    (L : Parents × Bool → List R) : Prop :=
  ∀ k, sel k = if (L k).length = 0 then none else some (L k)

/-- The sample list of a source VCF with one family of two progeny. -/
def small_samples : List String := ["mat", "pat", "p1", "p2"]

/-- A source record over `small_samples`; the fixed columns are reduced to
chromosome and position. -/
def small_record : VCFRecord (String × Int) :=
  { properties := ("chr1", 100), gts := ["0/0", "0/1", "0/0", "0/1"] }

/-- The projection of `small_record` onto the columns 9 to 12. -/
def small_projection : FamilyRecord (String × Int) :=
  { properties := ("chr1", 100), gts := ["0/0", "0/1", "0/0", "0/1"],
    samples := ["mat", "pat", "p1", "p2"] }

/-- The sample list of a source VCF with one family of eight progeny. -/
def large_samples : List String :=
  ["mat", "pat", "p1", "p2", "p3", "p4", "p5", "p6", "p7", "p8"]

/-- The columns of the family of `large_samples`. -/
def large_columns : List Nat := [9, 10, 11, 12, 13, 14, 15, 16, 17, 18]

/-- A source record over `large_samples` at the given position of chr1. -/
def large_record (pos : Int) : VCFRecord (String × Int) :=
  { properties := ("chr1", pos),
    gts := ["0/0", "0/1", "0/0", "0/1", "0/0", "0/1", "0/0", "0/1", "0/0", "0/1"] }

/-- The projection of `large_record pos` onto `large_columns`. -/
def large_projection (pos : Int) : FamilyRecord (String × Int) :=
  { properties := ("chr1", pos),
    gts := ["0/0", "0/1", "0/0", "0/1", "0/0", "0/1", "0/0", "0/1", "0/0", "0/1"],
    samples := large_samples }

/-- The list of fixed columns is ascending by position within each
chromosome. -/
def SortedWithinChromosome {P : Type} (chrom : P → String) (pos : P → Int) (l : List P) :
    Prop :=
  l.Pairwise (fun a b => chrom a = chrom b → pos a ≤ pos b)

/-! # Theorems -/

/-! ## Segregation classifier -/

theorem count_loop_eq (gs : List Int) (h : ∀ g ∈ gs, g ≤ 2) (a b c : Nat) :
    count_loop gs (a, b, c) = some (a + gs.count 0, b + gs.count 1, c + gs.count 2) := by
  induction gs generalizing a b c with
  | nil => simp [count_loop]
  | cons g gs ih =>
    have hg : g ≤ 2 := h g (List.mem_cons_self _ _)
    have ht : ∀ x ∈ gs, x ≤ 2 := fun x hx => h x (List.mem_cons_of_mem _ hx)
    by_cases h0 : g = 0
    · subst h0
      simp [count_loop, count_step, ih ht, List.count_cons]
      omega
    by_cases h1 : g = 1
    · subst h1
      simp [count_loop, count_step, ih ht, List.count_cons]
      omega
    by_cases h2 : g = 2
    · subst h2
      simp [count_loop, count_step, ih ht, List.count_cons]
      omega
    · have hneg : ¬ (g ≥ 0) := by omega
      have e0 : ¬ (0 : Int) = g := fun e => h0 e.symm
      have e1 : ¬ (1 : Int) = g := fun e => h1 e.symm
      have e2 : ¬ (2 : Int) = g := fun e => h2 e.symm
      simp [count_loop, count_step, hneg, ih ht, List.count_cons, h0, h1, h2]

theorem count_numbers_eq (r : VCFHeteroHomoRecord) (h : InRange r) :
    count_numbers r = some (progeny_count r 0, progeny_count r 1, progeny_count r 2) := by
  have := count_loop_eq r.progeny_gts h 0 0 0
  simpa [count_numbers, progeny_count] using this

theorem log_likelihood_eq (n0 n1 n2 : Nat) (s : Fin 3) :
    log_likelihood make_probability_table (n0, n1, n2) s = L_spec ![n0, n1, n2] s := by
  have e : (1.0 : ℝ) + 3 * 0.01 = 1.03 := by norm_num
  have z : (0.0 : ℝ) = 0 := by norm_num
  fin_cases s <;>
    simp only [log_likelihood, make_probability_table, L_spec, Fin.sum_univ_three, pss_,
      emission, p_miss, e, z, Matrix.cons_val_zero, Matrix.cons_val_one, Matrix.head_cons,
      Matrix.cons_val_two, Matrix.tail_cons, zero_add, Fin.zero_eta, Fin.mk_one,
      Fin.reduceFinMk]

theorem segregation_type_of_counts (r : VCFHeteroHomoRecord) (h : InRange r) :
    segregation_type r =
      (let n := count_triple r
       if n 0 + n 1 = 0 ∨ n 0 + n 2 = 0 ∨ n 1 + n 2 = 0 then some SEGTYPE.None
       else
         let m := max_element (L_spec n)
         if L_spec n 0 = L_spec n m then some SEGTYPE.HomoHetero
         else if L_spec n 1 = L_spec n m then some SEGTYPE.HeteroHetero
         else some SEGTYPE.HeteroHomo) := by
  have hl : log_likelihood make_probability_table
      (progeny_count r 0, progeny_count r 1, progeny_count r 2) = L_spec (count_triple r) := by
    funext s
    exact log_likelihood_eq _ _ _ s
  simp only [segregation_type, count_numbers_eq r h, hl]
  rfl

theorem first_argmax_scan (l : Fin 3 → ℝ) :
    ∃ s : Fin 3,
      (if l 0 = l (max_element l) then some SEGTYPE.HomoHetero
       else if l 1 = l (max_element l) then some SEGTYPE.HeteroHetero
       else some SEGTYPE.HeteroHomo) = some (seg_of s)
      ∧ (∀ t, l t ≤ l s) ∧ (∀ t, t < s → l t < l s) := by
  unfold max_element
  by_cases h01 : l 0 < l 1
  · by_cases h12 : l 1 < l 2
    · refine ⟨2, ?_, ?_, ?_⟩
      · have a : l 0 ≠ l 2 := by intro e; linarith
        have b : l 1 ≠ l 2 := by intro e; linarith
        simp [h01, h12, a, b, seg_of]
      · intro t; fin_cases t <;> simp <;> linarith
      · intro t ht; fin_cases t <;> simp at ht ⊢ <;> linarith
    · refine ⟨1, ?_, ?_, ?_⟩
      · have a : l 0 ≠ l 1 := by intro e; linarith
        simp [h01, h12, a, seg_of]
      · intro t; fin_cases t <;> simp <;> linarith
      · intro t ht
        fin_cases t
        · simp only [Fin.zero_eta]; exact h01
        · simp at ht
        · simp only [Fin.reduceFinMk, Fin.isValue] at ht; omega
  · by_cases h02 : l 0 < l 2
    · by_cases e12 : l 1 = l 2
      · refine ⟨1, ?_, ?_, ?_⟩
        · have a : l 0 ≠ l 2 := by intro e; linarith
          simp [h01, h02, a, e12, seg_of]
        · intro t; fin_cases t <;> simp <;> linarith
        · intro t ht
          have h10 : l 0 < l 1 := by rw [e12]; exact h02
          fin_cases t
          · simp only [Fin.zero_eta]; exact h10
          · simp at ht
          · simp only [Fin.reduceFinMk, Fin.isValue] at ht; omega
      · refine ⟨2, ?_, ?_, ?_⟩
        · have a : l 0 ≠ l 2 := by intro e; linarith
          simp [h01, h02, a, e12, seg_of]
        · intro t; fin_cases t <;> simp <;> linarith
        · intro t ht
          have : l 1 < l 2 := lt_of_le_of_ne (by linarith) e12
          fin_cases t <;> simp at ht ⊢ <;> linarith
    · refine ⟨0, ?_, ?_, ?_⟩
      · simp [h01, h02, seg_of]
      · intro t; fin_cases t <;> simp <;> linarith
      · intro t ht; fin_cases t <;> simp at ht

/-- C1: on a record whose progeny counts are not degenerate, `segregation_type`
returns the first hypothesis, in the order HomoHetero, HeteroHetero, HeteroHomo,
that maximises `L[s]` in exact real arithmetic; the result is the same for
every record with the same count triple. -/
theorem segregation_type_first_argmax (r : VCFHeteroHomoRecord) (h : InRange r)
    (hnd : ¬ (progeny_count r 0 + progeny_count r 1 = 0
      ∨ progeny_count r 0 + progeny_count r 2 = 0
      ∨ progeny_count r 1 + progeny_count r 2 = 0)) :
    (∃ s : Fin 3, segregation_type r = some (seg_of s)
      ∧ (∀ t, L_spec (count_triple r) t ≤ L_spec (count_triple r) s)
      ∧ (∀ t, t < s → L_spec (count_triple r) t < L_spec (count_triple r) s))
    ∧ (∀ r2 : VCFHeteroHomoRecord, InRange r2 → count_triple r2 = count_triple r →
        segregation_type r2 = segregation_type r) := by
  constructor
  · obtain ⟨s, hs, hmax, hfirst⟩ := first_argmax_scan (L_spec (count_triple r))
    refine ⟨s, ?_, hmax, hfirst⟩
    rw [segregation_type_of_counts r h, ← hs]
    have hnd2 : ¬ (count_triple r 0 + count_triple r 1 = 0
        ∨ count_triple r 0 + count_triple r 2 = 0
        ∨ count_triple r 1 + count_triple r 2 = 0) := hnd
    simp only [hnd2, if_false]
  · intro r2 h2 e
    rw [segregation_type_of_counts r h, segregation_type_of_counts r2 h2, e]

/-- Witness for C1: a record with progeny genotypes 0, 1, 1, 2. -/
theorem segregation_type_first_argmax_witness :
    InRange ⟨1, 1, [0, 1, 1, 2]⟩
    ∧ ¬ (progeny_count ⟨1, 1, [0, 1, 1, 2]⟩ 0 + progeny_count ⟨1, 1, [0, 1, 1, 2]⟩ 1 = 0
      ∨ progeny_count ⟨1, 1, [0, 1, 1, 2]⟩ 0 + progeny_count ⟨1, 1, [0, 1, 1, 2]⟩ 2 = 0
      ∨ progeny_count ⟨1, 1, [0, 1, 1, 2]⟩ 1 + progeny_count ⟨1, 1, [0, 1, 1, 2]⟩ 2 = 0)
    ∧ ((∃ s : Fin 3, segregation_type ⟨1, 1, [0, 1, 1, 2]⟩ = some (seg_of s)
        ∧ (∀ t, L_spec (count_triple ⟨1, 1, [0, 1, 1, 2]⟩) t
            ≤ L_spec (count_triple ⟨1, 1, [0, 1, 1, 2]⟩) s)
        ∧ (∀ t, t < s → L_spec (count_triple ⟨1, 1, [0, 1, 1, 2]⟩) t
            < L_spec (count_triple ⟨1, 1, [0, 1, 1, 2]⟩) s))
      ∧ (∀ r2 : VCFHeteroHomoRecord, InRange r2 →
          count_triple r2 = count_triple ⟨1, 1, [0, 1, 1, 2]⟩ →
          segregation_type r2 = segregation_type ⟨1, 1, [0, 1, 1, 2]⟩)) :=
  ⟨by decide, by decide,
    segregation_type_first_argmax ⟨1, 1, [0, 1, 1, 2]⟩ (by decide) (by decide)⟩

/-- C2: `segregation_type` returns None exactly when at least two of the
progeny counts n0, n1, n2 are zero; a record with five progeny of genotype 0
and no other called progeny gives None. -/
theorem segregation_type_none_iff (r : VCFHeteroHomoRecord) (h : InRange r) :
    (segregation_type r = some SEGTYPE.None ↔
      ((progeny_count r 0 = 0 ∧ progeny_count r 1 = 0)
        ∨ (progeny_count r 0 = 0 ∧ progeny_count r 2 = 0)
        ∨ (progeny_count r 1 = 0 ∧ progeny_count r 2 = 0)))
    ∧ (progeny_count r 0 = 5 ∧ progeny_count r 1 = 0 ∧ progeny_count r 2 = 0 →
        segregation_type r = some SEGTYPE.None) := by
  have key : segregation_type r = some SEGTYPE.None ↔
      ((progeny_count r 0 = 0 ∧ progeny_count r 1 = 0)
        ∨ (progeny_count r 0 = 0 ∧ progeny_count r 2 = 0)
        ∨ (progeny_count r 1 = 0 ∧ progeny_count r 2 = 0)) := by
    rw [segregation_type_of_counts r h]
    have e0 : count_triple r 0 = progeny_count r 0 := rfl
    have e1 : count_triple r 1 = progeny_count r 1 := rfl
    have e2 : count_triple r 2 = progeny_count r 2 := rfl
    simp only [e0, e1, e2]
    by_cases hd : progeny_count r 0 + progeny_count r 1 = 0
        ∨ progeny_count r 0 + progeny_count r 2 = 0
        ∨ progeny_count r 1 + progeny_count r 2 = 0
    · simp only [hd, if_true, true_iff]
      omega
    · simp only [hd, if_false]
      constructor
      · intro hs
        split_ifs at hs <;> simp at hs
      · intro hz
        omega
  refine ⟨key, ?_⟩
  intro hc
  rw [key]
  omega

/-- Witness for C2: five progeny of genotype 0 and one missing call give None. -/
theorem segregation_type_none_iff_witness :
    InRange ⟨0, 1, [0, 0, -1, 0, 0, 0]⟩
    ∧ segregation_type ⟨0, 1, [0, 0, -1, 0, 0, 0]⟩ = some SEGTYPE.None :=
  ⟨by decide,
    (segregation_type_none_iff ⟨0, 1, [0, 0, -1, 0, 0, 0]⟩ (by decide)).2 (by decide)⟩

theorem segregation_type_defined (r : VCFHeteroHomoRecord) (h : InRange r) :
    ∃ s, segregation_type r = some s := by
  rw [segregation_type_of_counts r h]
  simp only []
  split_ifs <;> exact ⟨_, rfl⟩

theorem is_Mendelian_segregation_defined (r : VCFHeteroHomoRecord) (h : InRange r) :
    ∃ m, is_Mendelian_segregation r = some m := by
  obtain ⟨s, hs⟩ := segregation_type_defined r h
  unfold is_Mendelian_segregation
  rw [hs]
  simp only []
  split_ifs
  · exact ⟨_, rfl⟩
  · exact ⟨_, rfl⟩
  · cases s <;> exact ⟨_, rfl⟩

/-- C3: `is_Mendelian_segregation` returns true exactly when the segregation
type is not None, neither parental integer genotype is -1 and the parents
match the type; in particular a true result implies a type other than None. -/
theorem is_Mendelian_segregation_iff (r : VCFHeteroHomoRecord) (h : InRange r) :
    ∃ s b, segregation_type r = some s ∧ is_Mendelian_segregation r = some b
      ∧ (b = true ↔ (s ≠ SEGTYPE.None ∧ r.mat_int_gt ≠ -1 ∧ r.pat_int_gt ≠ -1
          ∧ parents_match s r.mat_int_gt r.pat_int_gt))
      ∧ (b = true → s ≠ SEGTYPE.None) := by
  obtain ⟨s, hs⟩ := segregation_type_defined r h
  have main : ∃ b, is_Mendelian_segregation r = some b
      ∧ (b = true ↔ (s ≠ SEGTYPE.None ∧ r.mat_int_gt ≠ -1 ∧ r.pat_int_gt ≠ -1
          ∧ parents_match s r.mat_int_gt r.pat_int_gt)) := by
    unfold is_Mendelian_segregation
    rw [hs]
    by_cases hn : s = SEGTYPE.None
    · exact ⟨false, by simp [hn], by simp [hn]⟩
    · by_cases hp : r.mat_int_gt = -1 ∨ r.pat_int_gt = -1
      · refine ⟨false, by simp [hn, hp], ?_⟩
        constructor
        · intro hf; exact absurd hf (by simp)
        · rintro ⟨_, h1, h2, _⟩
          rcases hp with hp | hp
          · exact absurd hp h1
          · exact absurd hp h2
      · have hp1 : r.mat_int_gt ≠ -1 := fun e => hp (Or.inl e)
        have hp2 : r.pat_int_gt ≠ -1 := fun e => hp (Or.inr e)
        cases s with
        | None => exact absurd rfl hn
        | HomoHetero =>
          exact ⟨decide (r.mat_int_gt + r.pat_int_gt = 1), by simp [hp],
            by simp [parents_match, hp1, hp2]⟩
        | HeteroHetero =>
          exact ⟨decide (r.mat_int_gt = 1 ∧ r.pat_int_gt = 1), by simp [hp],
            by simp [parents_match, hp1, hp2]⟩
        | HeteroHomo =>
          exact ⟨decide (r.mat_int_gt + r.pat_int_gt = 3), by simp [hp],
            by simp [parents_match, hp1, hp2]⟩
  obtain ⟨b, hb, hiff⟩ := main
  exact ⟨s, b, hs, hb, hiff, fun hbt => (hiff.1 hbt).1⟩

/-- Witness for C3: progeny 0, 1, 0, 1 with parents 0 and 1. -/
theorem is_Mendelian_segregation_iff_witness :
    InRange ⟨0, 1, [0, 1, 0, 1]⟩
    ∧ ∃ s b, segregation_type ⟨0, 1, [0, 1, 0, 1]⟩ = some s
      ∧ is_Mendelian_segregation ⟨0, 1, [0, 1, 0, 1]⟩ = some b
      ∧ (b = true ↔ (s ≠ SEGTYPE.None ∧ (0 : Int) ≠ -1 ∧ (1 : Int) ≠ -1
          ∧ parents_match s 0 1))
      ∧ (b = true → s ≠ SEGTYPE.None) :=
  ⟨by decide, is_Mendelian_segregation_iff ⟨0, 1, [0, 1, 0, 1]⟩ (by decide)⟩

/-- C4: `is_hetero_and_homo(is_mat)` returns true exactly when
`is_Mendelian_segregation` is true and, for `is_mat`, mat = 1 and pat is 0 or
2, otherwise mat is 0 or 2 and pat = 1. -/
theorem is_hetero_and_homo_iff (r : VCFHeteroHomoRecord) (is_mat : Bool) (h : InRange r) :
    ∃ b m, is_hetero_and_homo r is_mat = some b ∧ is_Mendelian_segregation r = some m
      ∧ (b = true ↔ (m = true
          ∧ (if is_mat = true then r.mat_int_gt = 1 ∧ (r.pat_int_gt = 0 ∨ r.pat_int_gt = 2)
             else (r.mat_int_gt = 0 ∨ r.mat_int_gt = 2) ∧ r.pat_int_gt = 1))) := by
  obtain ⟨m, hm⟩ := is_Mendelian_segregation_defined r h
  unfold is_hetero_and_homo
  rw [hm]
  cases m with
  | false => exact ⟨false, false, rfl, rfl, by simp⟩
  | true =>
    cases is_mat with
    | true =>
      exact ⟨decide (r.mat_int_gt = 1 ∧ (r.pat_int_gt = 0 ∨ r.pat_int_gt = 2)), true,
        by simp, rfl, by simp⟩
    | false =>
      exact ⟨decide ((r.mat_int_gt = 0 ∨ r.mat_int_gt = 2) ∧ r.pat_int_gt = 1), true,
        by simp, rfl, by simp⟩

/-- Witness for C4: progeny 0, 1, 0, 1 with parents 0 and 1, paternal role. -/
theorem is_hetero_and_homo_iff_witness :
    InRange ⟨0, 1, [0, 1, 0, 1]⟩
    ∧ ∃ b m, is_hetero_and_homo ⟨0, 1, [0, 1, 0, 1]⟩ false = some b
      ∧ is_Mendelian_segregation ⟨0, 1, [0, 1, 0, 1]⟩ = some m
      ∧ (b = true ↔ (m = true
          ∧ (if false = true then (0 : Int) = 1 ∧ ((1 : Int) = 0 ∨ (1 : Int) = 2)
             else ((0 : Int) = 0 ∨ (0 : Int) = 2) ∧ (1 : Int) = 1))) :=
  ⟨by decide, is_hetero_and_homo_iff ⟨0, 1, [0, 1, 0, 1]⟩ false (by decide)⟩

/-! ## Bias-based validity -/

theorem genotype_from_hetero_parent_eq (g h : Int) :
    genotype_from_hetero_parent g h = inherited_allele h g := by
  unfold genotype_from_hetero_parent inherited_allele
  by_cases h0 : g - Int.tdiv h 2 = 0
  · simp [h0]
  · by_cases h1 : g - Int.tdiv h 2 = 1
    · simp [h1]
    · simp [h0, h1]

theorem valid_count_loop_eq (ps : List Int) (N n0 : Int) :
    valid_count_loop ps (N, n0) =
      (N + (ps.countP (fun p => decide (p ≠ -1)) : Nat),
       n0 + (ps.countP (fun p => decide (p = 0)) : Nat)) := by
  induction ps generalizing N n0 with
  | nil => simp [valid_count_loop]
  | cons p ps ih =>
    simp only [valid_count_loop, ih, List.countP_cons]
    by_cases h1 : p = -1
    · have h0 : p ≠ 0 := by omega
      simp [h1]
    · by_cases h0 : p = 0
      · simp [h0]; constructor <;> ring
      · simp [h1, h0]; ring

theorem valid_counts_eq (r : VCFHeteroHomoRecord) (is_mat : Bool) :
    valid_count_loop (genotypes_from_hetero_parent r is_mat) (0, 0) =
      ((inherited_N r is_mat : Int), (inherited_n0 r is_mat : Int)) := by
  rw [valid_count_loop_eq]
  have hg : genotypes_from_hetero_parent r is_mat =
      r.progeny_gts.map (inherited_allele (homo_side r is_mat)) := by
    unfold genotypes_from_hetero_parent homo_side
    apply List.map_congr_left
    intro g _
    exact genotype_from_hetero_parent_eq g _
  rw [hg, List.countP_map, List.countP_map]
  simp only [inherited_N, inherited_n0, zero_add]
  rfl

/-- C5: `is_valid_segregation(is_mat, cM)` is true exactly when
`min(n0, N - n0) >= max_bias(N, cM)`, with `N` the number of progeny with a
non-missing inherited allele and `n0` the number whose inherited allele is 0,
for an arbitrary bias table; with `N = 100` and `n0 = 80` the result is false
whenever `max_bias(100, cM) > 20`. -/
theorem is_valid_segregation_iff {CM : Type} (max_bias : Int → CM → Int)
    (r : VCFHeteroHomoRecord) (is_mat : Bool) (cM : CM) :
    (is_valid_segregation max_bias r is_mat cM = true ↔
      min (inherited_n0 r is_mat : Int) ((inherited_N r is_mat : Int) - inherited_n0 r is_mat)
        ≥ max_bias (inherited_N r is_mat) cM)
    ∧ (inherited_N r is_mat = 100 ∧ inherited_n0 r is_mat = 80 ∧ max_bias 100 cM > 20 →
        is_valid_segregation max_bias r is_mat cM = false) := by
  have key : is_valid_segregation max_bias r is_mat cM = true ↔
      min (inherited_n0 r is_mat : Int) ((inherited_N r is_mat : Int) - inherited_n0 r is_mat)
        ≥ max_bias (inherited_N r is_mat) cM := by
    unfold is_valid_segregation
    simp only [valid_counts_eq, decide_eq_true_eq]
  refine ⟨key, ?_⟩
  rintro ⟨hN, hn, hb⟩
  rw [← Bool.not_eq_true, key, hN, hn]
  have e : min ((80 : Nat) : Int) (((100 : Nat) : Int) - ((80 : Nat) : Int)) = 20 := by decide
  rw [e]
  simp only [Nat.cast_ofNat]
  omega

/-- Witness for C5: 80 progeny inheriting allele 0 and 20 inheriting allele 1
are rejected by a bias table that demands 21. -/
theorem is_valid_segregation_iff_witness :
    is_valid_segregation (fun (_ : Int) (_ : Unit) => (21 : Int))
      ⟨1, 0, List.replicate 80 0 ++ List.replicate 20 1⟩ true () = false :=
  (is_valid_segregation_iff (fun (_ : Int) (_ : Unit) => (21 : Int))
    ⟨1, 0, List.replicate 80 0 ++ List.replicate 20 1⟩ true ()).2
    ⟨by simp [inherited_N, inherited_allele, homo_side, List.countP_replicate],
     by simp [inherited_n0, inherited_allele, homo_side, List.countP_replicate],
     by decide⟩

/-! ## Pairwise distance -/

theorem distance_loop_eq (a b : List Int) (hlen : a.length = b.length) (m c1 c2 : Int)
    (hc : ¬ (c1 > m ∧ c2 > m)) :
    distance_loop a b m c1 c2 =
      some (if c1 + (d_same a b : Int) > m ∧ c2 + (d_flip a b : Int) > m then (m + 1, false)
            else (min (c1 + (d_same a b : Int)) (c2 + (d_flip a b : Int)),
                  decide (c1 + (d_same a b : Int) > m))) := by
  induction a generalizing b c1 c2 with
  | nil =>
    cases b with
    | nil => simp [distance_loop, d_same, d_flip, hc]
    | cons y ys => simp at hlen
  | cons x xs ih =>
    cases b with
    | nil => simp at hlen
    | cons y ys =>
      have hl : xs.length = ys.length := by simpa using hlen
      have hs0 : (0 : Int) ≤ (d_same xs ys : Int) := Int.ofNat_nonneg _
      have hf0 : (0 : Int) ≤ (d_flip xs ys : Int) := Int.ofNat_nonneg _
      have es : (d_same (x :: xs) (y :: ys) : Int)
          = (if x ≠ y then 1 else 0) + (d_same xs ys : Int) := by
        unfold d_same
        simp only [List.zip_cons_cons, List.countP_cons]
        by_cases hxy : x = y <;> simp [hxy]; ring
      have ef : (d_flip (x :: xs) (y :: ys) : Int)
          = (if x + y ≠ 1 then 1 else 0) + (d_flip xs ys : Int) := by
        unfold d_flip
        simp only [List.zip_cons_cons, List.countP_cons]
        by_cases hxy : x + y = 1 <;> simp [hxy]; ring
      rw [es, ef]
      simp only [distance_loop]
      by_cases hstop : (if x ≠ y then c1 + 1 else c1) > m ∧ (if x + y ≠ 1 then c2 + 1 else c2) > m
      · rw [if_pos hstop]
        have hh : c1 + ((if x ≠ y then 1 else 0) + (d_same xs ys : Int)) > m
            ∧ c2 + ((if x + y ≠ 1 then 1 else 0) + (d_flip xs ys : Int)) > m := by
          obtain ⟨h1, h2⟩ := hstop
          constructor
          · split_ifs at h1 ⊢ <;> omega
          · split_ifs at h2 ⊢ <;> omega
        rw [if_pos hh]
      · rw [if_neg hstop, ih ys hl _ _ hstop]
        have e1 : (if x ≠ y then c1 + 1 else c1) + (d_same xs ys : Int)
            = c1 + ((if x ≠ y then 1 else 0) + (d_same xs ys : Int)) := by
          split_ifs <;> ring
        have e2 : (if x + y ≠ 1 then c2 + 1 else c2) + (d_flip xs ys : Int)
            = c2 + ((if x + y ≠ 1 then 1 else 0) + (d_flip xs ys : Int)) := by
          split_ifs <;> ring
        rw [e1, e2]

/-- C6: for vectors of equal length and `max_dist >= 0`, `distance` returns
`(max_dist + 1, false)` when both `d_same` and `d_flip` exceed `max_dist`, and
`(min(d_same, d_flip), d_same > max_dist)` otherwise; in particular
`distance([0,0,0,0,0], [1,1,1,0,0], 1) = (2, false)`. -/
theorem distance_spec (a b : List Int) (max_dist : Int) (hlen : a.length = b.length)
    (hm : 0 ≤ max_dist) :
    distance a b max_dist =
      some (if (d_same a b : Int) > max_dist ∧ (d_flip a b : Int) > max_dist
            then (max_dist + 1, false)
            else (min (d_same a b : Int) (d_flip a b : Int),
                  decide ((d_same a b : Int) > max_dist)))
    ∧ distance [0, 0, 0, 0, 0] [1, 1, 1, 0, 0] 1 = some (2, false) := by
  refine ⟨?_, by decide⟩
  unfold distance
  rw [distance_loop_eq a b hlen max_dist 0 0 (by omega)]
  simp only [zero_add]

/-- Witness for C6: the vectors `[0,1,0,0]`, `[0,1,1,1]` with cutoff 3. -/
theorem distance_spec_witness :
    [(0 : Int), 1, 0, 0].length = [(0 : Int), 1, 1, 1].length ∧ (0 : Int) ≤ 3
    ∧ distance [0, 1, 0, 0] [0, 1, 1, 1] 3 = some (2, false) :=
  ⟨by decide, by decide,
    ((distance_spec [0, 1, 0, 0] [0, 1, 1, 1] 3 (by decide) (by decide)).1).trans (by decide)⟩

theorem distance_loop_isSome (a b : List Int) (hlen : a.length = b.length) (m c1 c2 : Int) :
    ∃ p, distance_loop a b m c1 c2 = some p := by
  induction a generalizing b c1 c2 with
  | nil => exact ⟨_, rfl⟩
  | cons x xs ih =>
    cases b with
    | nil => simp at hlen
    | cons y ys =>
      have hl : xs.length = ys.length := by simpa using hlen
      simp only [distance_loop]
      split_ifs <;> first | exact ⟨_, rfl⟩ | exact ih ys hl _ _

theorem distance_loop_comm (a b : List Int) (hlen : a.length = b.length) (m c1 c2 : Int) :
    distance_loop a b m c1 c2 = distance_loop b a m c1 c2 := by
  induction a generalizing b c1 c2 with
  | nil =>
    cases b with
    | nil => rfl
    | cons y ys => simp at hlen
  | cons x xs ih =>
    cases b with
    | nil => simp at hlen
    | cons y ys =>
      have hl : xs.length = ys.length := by simpa using hlen
      simp only [distance_loop, ih ys hl, ne_comm (a := x) (b := y), add_comm x y]

/-- C7: for vectors of equal length and every cutoff `K`, `distance(a, b, K)`
and `distance(b, a, K)` return the same pair, hence the same first component. -/
theorem distance_symm (a b : List Int) (K : Int) (hlen : a.length = b.length) :
    distance a b K = distance b a K
    ∧ (distance a b K).map Prod.fst = (distance b a K).map Prod.fst
    ∧ ∃ p, distance a b K = some p := by
  have h := distance_loop_comm a b hlen K 0 0
  exact ⟨h, by unfold distance; rw [h], distance_loop_isSome a b hlen K 0 0⟩

/-- Witness for C7: the vectors `[0,1,0,0]`, `[1,1,1,0]` with cutoff 1. -/
theorem distance_symm_witness :
    [(0 : Int), 1, 0, 0].length = [(1 : Int), 1, 1, 0].length
    ∧ distance [0, 1, 0, 0] [1, 1, 1, 0] 1 = distance [1, 1, 1, 0] [0, 1, 0, 0] 1 :=
  ⟨by decide, (distance_symm [0, 1, 0, 0] [1, 1, 1, 0] 1 (by decide)).1⟩


/-! ## Walks -/

theorem Reach.refl (T : List Edge) (a : Nat) : Reach T a a :=
  Relation.EqvGen.refl a

theorem Reach.symm {T : List Edge} {a b : Nat} (h : Reach T a b) : Reach T b a :=
  Relation.EqvGen.symm a b h

theorem Reach.trans {T : List Edge} {a b c : Nat} (h1 : Reach T a b) (h2 : Reach T b c) :
    Reach T a c :=
  Relation.EqvGen.trans a b c h1 h2

theorem Reach.edge {T : List Edge} {a b : Nat} {w : Int} (h : (a, b, w) ∈ T) : Reach T a b :=
  Relation.EqvGen.rel a b ⟨w, h⟩

theorem Reach.mono {T U : List Edge} (hsub : ∀ e ∈ T, e ∈ U) {a b : Nat} (h : Reach T a b) :
    Reach U a b := by
  induction h with
  | rel x y hxy => obtain ⟨w, hw⟩ := hxy; exact Reach.edge (hsub _ hw)
  | refl x => exact Reach.refl U x
  | symm x y _ ih => exact ih.symm
  | trans x y z _ _ ih1 ih2 => exact ih1.trans ih2

/-- A walk inside `T` can be replayed in `U` as soon as every edge of `T` has
its endpoints joined in `U`. -/
theorem Reach.lift {T U : List Edge} (hsub : ∀ e ∈ T, Reach U e.1 e.2.1) {a b : Nat}
    (h : Reach T a b) : Reach U a b := by
  induction h with
  | rel x y hxy => obtain ⟨w, hw⟩ := hxy; exact hsub _ hw
  | refl x => exact Reach.refl U x
  | symm x y _ ih => exact ih.symm
  | trans x y z _ _ ih1 ih2 => exact ih1.trans ih2

/-- A walk between distinct nodes starts and ends at endpoints of edges. -/
theorem Reach.endpoints {T : List Edge} {a b : Nat} (h : Reach T a b) :
    a = b ∨ ((∃ e ∈ T, a = e.1 ∨ a = e.2.1) ∧ (∃ e ∈ T, b = e.1 ∨ b = e.2.1)) := by
  induction h with
  | rel x y hxy =>
    obtain ⟨w, hw⟩ := hxy
    exact Or.inr ⟨⟨_, hw, Or.inl rfl⟩, ⟨_, hw, Or.inr rfl⟩⟩
  | refl x => exact Or.inl rfl
  | symm x y _ ih =>
    rcases ih with e | ⟨h1, h2⟩
    · exact Or.inl e.symm
    · exact Or.inr ⟨h2, h1⟩
  | trans x y z _ _ ih1 ih2 =>
    rcases ih1 with e1 | ⟨h1, h2⟩
    · subst e1; exact ih2
    · rcases ih2 with e2 | ⟨h3, h4⟩
      · subst e2; exact Or.inr ⟨h1, h2⟩
      · exact Or.inr ⟨h1, h4⟩

/-! ## The rank of a forest -/

theorem reach_mem_span {T : List Edge} {a b : Nat} (h : Reach T a b) :
    (Finsupp.single a 1 - Finsupp.single b 1 : Nat →₀ ℚ)
      ∈ Submodule.span ℚ {x | ∃ e ∈ T, x = edge_vec e} := by
  induction h with
  | rel x y hxy =>
    obtain ⟨w, hw⟩ := hxy
    exact Submodule.subset_span ⟨(x, y, w), hw, rfl⟩
  | refl x => simp
  | symm x y _ ih =>
    have := Submodule.neg_mem _ ih
    simpa using this
  | trans x y z _ _ ih1 ih2 =>
    have := Submodule.add_mem _ ih1 ih2
    simpa using this

/-- An edge whose endpoints are not joined by `T` is independent of the edges
of `T`: the sum of the coordinates over the component of one endpoint vanishes
on every edge of `T` and not on this one. -/
theorem edge_vec_not_mem_span {T : List Edge} {a b : Nat} (h : ¬ Reach T a b) :
    (Finsupp.single a 1 - Finsupp.single b 1 : Nat →₀ ℚ)
      ∉ Submodule.span ℚ {x | ∃ e ∈ T, x = edge_vec e} := by
  classical
  intro hmem
  let φ : (Nat →₀ ℚ) →ₗ[ℚ] ℚ :=
    Finsupp.linearCombination ℚ (fun x : Nat => if Reach T a x then (1 : ℚ) else 0)
  have hker : Submodule.span ℚ {x | ∃ e ∈ T, x = edge_vec e} ≤ LinearMap.ker φ := by
    rw [Submodule.span_le]
    rintro x ⟨e, he, rfl⟩
    have hiff : Reach T a e.1 ↔ Reach T a e.2.1 :=
      ⟨fun h1 => h1.trans (Reach.edge (w := e.2.2) he),
       fun h1 => h1.trans (Reach.edge (w := e.2.2) he).symm⟩
    simp only [SetLike.mem_coe, LinearMap.mem_ker, edge_vec, map_sub, φ,
      Finsupp.linearCombination_single, one_smul]
    by_cases h1 : Reach T a e.1
    · simp [h1, hiff.1 h1]
    · have h2 : ¬ Reach T a e.2.1 := fun h2 => h1 (hiff.2 h2)
      simp [h1, h2]
  have h0 := hker hmem
  simp only [LinearMap.mem_ker, map_sub, φ, Finsupp.linearCombination_single, one_smul,
    Reach.refl T a, if_true, h, if_false] at h0
  norm_num at h0

theorem forestList_linearIndependent (T : List Edge) (h : ForestList T) :
    LinearIndependent ℚ (fun i : Fin T.length => edge_vec (T.get i)) := by
  induction T with
  | nil =>
    haveI : IsEmpty (Fin ([] : List Edge).length) := Fin.isEmpty
    exact linearIndependent_empty_type
  | cons e T ih =>
    obtain ⟨hne, hT⟩ := h
    have hfam : (fun i : Fin (e :: T).length => edge_vec ((e :: T).get i))
        = Fin.cons (edge_vec e) (fun i : Fin T.length => edge_vec (T.get i)) := by
      funext i
      refine Fin.cases ?_ (fun j => ?_) i
      · rfl
      · rfl
    rw [hfam]
    refine LinearIndependent.fin_cons (ih hT) ?_
    have hrange : Set.range (fun i : Fin T.length => edge_vec (T.get i))
        = {x | ∃ e ∈ T, x = edge_vec e} := by
      ext x
      constructor
      · rintro ⟨i, rfl⟩
        exact ⟨T.get i, List.get_mem _ _ _, rfl⟩
      · rintro ⟨e, he, rfl⟩
        obtain ⟨i, hi⟩ := List.get_of_mem he
        exact ⟨i, by rw [← hi]⟩
    rw [hrange]
    exact edge_vec_not_mem_span hne

/-- The rank lemma: a forest whose edges all have their endpoints joined in
`K` has at most as many edges as `K`. -/
theorem forest_length_le (F K : List Edge) (hF : ForestList F)
    (hsub : ∀ e ∈ F, Reach K e.1 e.2.1) : F.length ≤ K.length := by
  classical
  have hli := forestList_linearIndependent F hF
  have hspan : Set.range (fun i : Fin F.length => edge_vec (F.get i))
      ≤ Submodule.span ℚ ((K.map edge_vec).toFinset : Set (Nat →₀ ℚ)) := by
    rintro x ⟨i, rfl⟩
    have hin := reach_mem_span (hsub (F.get i) (List.get_mem _ _ _))
    have hset : {x | ∃ e ∈ K, x = edge_vec e} = ((K.map edge_vec).toFinset : Set (Nat →₀ ℚ)) := by
      ext y
      simp only [Set.mem_setOf_eq, List.coe_toFinset, List.mem_map]
      constructor
      · rintro ⟨e, he, rfl⟩; exact ⟨e, he, rfl⟩
      · rintro ⟨e, he, rfl⟩; exact ⟨e, he, rfl⟩
    rw [← hset]
    exact hin
  have hcard := linearIndependent_le_span_aux' _ hli _ hspan
  simp only [Fintype.card_fin, Finset.coe_sort_coe, Fintype.card_coe] at hcard
  calc F.length ≤ (K.map edge_vec).toFinset.card := hcard
    _ ≤ (K.map edge_vec).length := List.toFinset_card_le _
    _ = K.length := List.length_map _ _

theorem forestList_filter (p : Edge → Bool) (T : List Edge) (h : ForestList T) :
    ForestList (T.filter p) := by
  induction T with
  | nil => exact h
  | cons e T ih =>
    obtain ⟨hne, hT⟩ := h
    by_cases hp : p e = true
    · rw [List.filter_cons_of_pos hp]
      exact ⟨fun hr => hne (Reach.mono (fun x hx => List.mem_of_mem_filter hx) hr), ih hT⟩
    · rw [List.filter_cons_of_neg hp]
      exact ih hT

theorem forestList_of_acyclic (T : List Edge) (h : Acyclic T) : ForestList T := by
  induction T with
  | nil => trivial
  | cons e T ih =>
    refine ⟨h e T (List.Perm.refl _), ih ?_⟩
    intro f U hp hr
    refine h f (e :: U) ((List.Perm.cons e hp).trans (List.Perm.swap f e U)) ?_
    exact Reach.mono (fun x hx => List.mem_cons_of_mem _ hx) hr

/-- A forest built edge by edge has no cycle: were the endpoints of an edge
joined by the others, the forest would fit in a list one edge shorter. -/
theorem acyclic_of_forestList (T : List Edge) (h : ForestList T) : Acyclic T := by
  intro e U hp hr
  have hle := forest_length_le T U h (by
    intro f hf
    rcases List.mem_cons.1 (hp.mem_iff.1 hf) with rfl | hfU
    · exact hr
    · exact Reach.edge (w := f.2.2) hfU)
  have := hp.length_eq
  simp only [List.length_cons] at this
  omega

/-! ## Comparing total weights through threshold counts -/

theorem sum_ite_le_Ico (L M a : Int) (hL : L ≤ a) (hM : a ≤ M) :
    (∑ t ∈ Finset.Ico L M, (if a ≤ t then (1 : Int) else 0)) = M - a := by
  rw [Finset.sum_ite, Finset.sum_const_zero, add_zero, Finset.sum_const, nsmul_eq_mul, mul_one]
  have : (Finset.Ico L M).filter (fun t => a ≤ t) = Finset.Ico a M := by
    ext t
    simp only [Finset.mem_filter, Finset.mem_Ico]
    omega
  rw [this, Int.card_Ico]
  omega

theorem sum_eq_length_mul_sub (A : List Int) (L M : Int) (h : ∀ a ∈ A, L ≤ a ∧ a ≤ M) :
    A.sum = A.length * M
      - ∑ t ∈ Finset.Ico L M, (A.countP (fun a => decide (a ≤ t)) : Int) := by
  induction A with
  | nil => simp
  | cons a A ih =>
    have ha := h a (List.mem_cons_self _ _)
    have hA := ih (fun x hx => h x (List.mem_cons_of_mem _ hx))
    have hsplit : (∑ t ∈ Finset.Ico L M, ((a :: A).countP (fun a => decide (a ≤ t)) : Int))
        = (∑ t ∈ Finset.Ico L M, (A.countP (fun a => decide (a ≤ t)) : Int))
          + ∑ t ∈ Finset.Ico L M, (if a ≤ t then (1 : Int) else 0) := by
      rw [← Finset.sum_add_distrib]
      apply Finset.sum_congr rfl
      intro t _
      rw [List.countP_cons]
      by_cases hat : a ≤ t <;> simp [hat]
    rw [hsplit, sum_ite_le_Ico L M a ha.1 ha.2, List.sum_cons, hA]
    simp only [List.length_cons, Nat.cast_add, Nat.cast_one]
    ring

theorem exists_bounds (A : List Int) : ∃ L M : Int, ∀ a ∈ A, L ≤ a ∧ a ≤ M := by
  induction A with
  | nil => exact ⟨0, 0, by simp⟩
  | cons a A ih =>
    obtain ⟨L, M, h⟩ := ih
    refine ⟨min L a, max M a, ?_⟩
    intro x hx
    rcases List.mem_cons.1 hx with rfl | hx
    · exact ⟨min_le_right _ _, le_max_right _ _⟩
    · exact ⟨le_trans (min_le_left _ _) (h x hx).1, le_trans (h x hx).2 (le_max_left _ _)⟩

/-- Two lists of weights of equal length: if below every threshold the first
has at least as many elements as the second, its sum is not greater. -/
theorem sum_le_of_count_le (A B : List Int) (hlen : A.length = B.length)
    (hcount : ∀ t : Int, B.countP (fun b => decide (b ≤ t)) ≤ A.countP (fun a => decide (a ≤ t))) :
    A.sum ≤ B.sum := by
  obtain ⟨L, M, h⟩ := exists_bounds (A ++ B)
  have hA : ∀ a ∈ A, L ≤ a ∧ a ≤ M := fun a ha => h a (List.mem_append_left _ ha)
  have hB : ∀ b ∈ B, L ≤ b ∧ b ≤ M := fun b hb => h b (List.mem_append_right _ hb)
  rw [sum_eq_length_mul_sub A L M hA, sum_eq_length_mul_sub B L M hB, hlen]
  have : (∑ t ∈ Finset.Ico L M, (B.countP (fun b => decide (b ≤ t)) : Int))
      ≤ ∑ t ∈ Finset.Ico L M, (A.countP (fun a => decide (a ≤ t)) : Int) := by
    apply Finset.sum_le_sum
    intro t _
    exact_mod_cast hcount t
  omega

/-! ## Forests on a given set of nodes -/

theorem forest_length_le_nodes (V : List Nat) (F : List Edge) (hF : ForestList F)
    (hend : ∀ e ∈ F, e.1 ∈ V ∧ e.2.1 ∈ V) : F.length ≤ V.length - 1 := by
  cases V with
  | nil =>
    cases F with
    | nil => simp
    | cons e F => exact absurd (hend e (List.mem_cons_self _ _)).1 (List.not_mem_nil _)
  | cons c xs =>
    have hstar : ∀ a ∈ c :: xs, Reach (xs.map (fun x => ((c, x, 0) : Edge))) c a := by
      intro a ha
      rcases List.mem_cons.1 ha with rfl | ha
      · exact Reach.refl _ _
      · exact Reach.edge (w := 0) (List.mem_map.2 ⟨a, ha, rfl⟩)
    have := forest_length_le F (xs.map (fun x => ((c, x, 0) : Edge))) hF (fun e he =>
      (hstar _ (hend e he).1).symm.trans (hstar _ (hend e he).2))
    simpa using this

/-- A forest with one edge less than there are nodes joins all the nodes. -/
theorem forest_full_spanning (V : List Nat) (K : List Edge) (hK : ForestList K)
    (hend : ∀ e ∈ K, e.1 ∈ V ∧ e.2.1 ∈ V) (hlen : K.length + 1 = V.length) :
    ∀ a ∈ V, ∀ b ∈ V, Reach K a b := by
  intro a ha b hb
  by_contra hr
  have hF : ForestList (((a, b, 0) : Edge) :: K) := ⟨hr, hK⟩
  have := forest_length_le_nodes V _ hF (by
    intro e he
    rcases List.mem_cons.1 he with rfl | he
    · exact ⟨ha, hb⟩
    · exact hend e he)
  simp only [List.length_cons] at this
  omega

/-! ## The greedy scan -/

theorem greedyScan_invariant (V : List Nat) (es T K : List Edge)
    (hscan : GreedyScan V.length es T K)
    (hes : ∀ e ∈ es, e.1 ∈ V ∧ e.2.1 ∈ V) (hT : ∀ e ∈ T, e.1 ∈ V ∧ e.2.1 ∈ V)
    (hsorted : es.Pairwise (fun e f => e.2.2 ≤ f.2.2))
    (hle : ∀ e ∈ T, ∀ f ∈ es, e.2.2 ≤ f.2.2) (hF : ForestList T) :
    (∃ new, K = new ++ T ∧ ∀ e ∈ new, e ∈ es) ∧ ForestList K
    ∧ (∀ e ∈ es, Reach (K.filter (fun k => decide (k.2.2 ≤ e.2.2))) e.1 e.2.1) := by
  induction hscan with
  | done T => exact ⟨⟨[], rfl, by simp⟩, hF, by simp⟩
  | skip e es T K hr _ ih =>
    have hsorted2 := (List.pairwise_cons.1 hsorted)
    obtain ⟨⟨new, hK, hnew⟩, hFK, hspan⟩ := ih
      (fun x hx => hes x (List.mem_cons_of_mem _ hx)) hT hsorted2.2
      (fun x hx f hf => hle x hx f (List.mem_cons_of_mem _ hf)) hF
    refine ⟨⟨new, hK, fun x hx => List.mem_cons_of_mem _ (hnew x hx)⟩, hFK, ?_⟩
    intro f hf
    rcases List.mem_cons.1 hf with rfl | hf
    · refine Reach.mono ?_ hr
      intro x hx
      refine List.mem_filter.2 ⟨?_, ?_⟩
      · rw [hK]; exact List.mem_append_right _ hx
      · simpa using hle x hx f (List.mem_cons_self _ _)
    · exact hspan f hf
  | stop e es T hr hlen =>
    have hsorted2 := (List.pairwise_cons.1 hsorted)
    have hFK : ForestList (e :: T) := ⟨hr, hF⟩
    have hend : ∀ x ∈ e :: T, x.1 ∈ V ∧ x.2.1 ∈ V := by
      intro x hx
      rcases List.mem_cons.1 hx with rfl | hx
      · exact hes x (List.mem_cons_self _ _)
      · exact hT x hx
    have hfull := forest_full_spanning V (e :: T) hFK hend (by
      simp only [List.length_cons]; omega)
    refine ⟨⟨[e], rfl, by simp⟩, hFK, ?_⟩
    intro f hf
    have hall : (e :: T).filter (fun k => decide (k.2.2 ≤ f.2.2)) = e :: T := by
      rw [List.filter_eq_self]
      intro x hx
      rcases List.mem_cons.1 hx with rfl | hx
      · rcases List.mem_cons.1 hf with rfl | hf
        · simp
        · simpa using hsorted2.1 f hf
      · simpa using hle x hx f hf
    rw [hall]
    exact hfull _ (hes f hf).1 _ (hes f hf).2
  | take e es T K hr _ _ ih =>
    have hsorted2 := (List.pairwise_cons.1 hsorted)
    obtain ⟨⟨new, hK, hnew⟩, hFK, hspan⟩ := ih
      (fun x hx => hes x (List.mem_cons_of_mem _ hx))
      (by
        intro x hx
        rcases List.mem_cons.1 hx with rfl | hx
        · exact hes x (List.mem_cons_self _ _)
        · exact hT x hx)
      hsorted2.2
      (by
        intro x hx f hf
        rcases List.mem_cons.1 hx with rfl | hx
        · exact hsorted2.1 f hf
        · exact hle x hx f (List.mem_cons_of_mem _ hf))
      ⟨hr, hF⟩
    refine ⟨⟨new ++ [e], by rw [hK]; simp, ?_⟩, hFK, ?_⟩
    · intro x hx
      rcases List.mem_append.1 hx with hx | hx
      · exact List.mem_cons_of_mem _ (hnew x hx)
      · rw [List.mem_singleton.1 hx]; exact List.mem_cons_self _ _
    · intro f hf
      rcases List.mem_cons.1 hf with rfl | hf
      · refine Reach.edge (w := f.2.2) (List.mem_filter.2 ⟨?_, by simp⟩)
        rw [hK]
        exact List.mem_append_right _ (List.mem_cons_self _ _)
      · exact hspan f hf

/-- The edges taken by the greedy scan of a list sorted by weight weigh no
more than any forest `F` that joins all the nodes and whose edges are, up to
orientation, edges of the list. -/
theorem greedyScan_minimum (V : List Nat) (E K F : List Edge)
    (hscan : GreedyScan V.length E [] K)
    (hE : ∀ e ∈ E, e.1 ∈ V ∧ e.2.1 ∈ V)
    (hsorted : E.Pairwise (fun e f => e.2.2 ≤ f.2.2))
    (hF : ForestList F)
    (hFE : ∀ e ∈ F, e ∈ E ∨ (e.2.1, e.1, e.2.2) ∈ E)
    (hspanF : ∀ u ∈ V, ∀ v ∈ V, Reach F u v) :
    total_weight K ≤ total_weight F := by
  obtain ⟨⟨new, hK, hnew⟩, hFK, hspan⟩ :=
    greedyScan_invariant V E [] K hscan hE (by simp) hsorted (by simp) trivial
  have hKE : ∀ e ∈ K, e ∈ E := by
    intro e he
    rw [hK, List.append_nil] at he
    exact hnew e he
  have hjoin : ∀ e ∈ F, ∀ t : Int, e.2.2 ≤ t →
      Reach (K.filter (fun k => decide (k.2.2 ≤ t))) e.1 e.2.1 := by
    intro e he t het
    have hmono : ∀ f : Edge, f.2.2 = e.2.2 →
        ∀ x ∈ K.filter (fun k => decide (k.2.2 ≤ f.2.2)),
          x ∈ K.filter (fun k => decide (k.2.2 ≤ t)) := by
      intro f hf x hx
      rw [List.mem_filter] at hx ⊢
      refine ⟨hx.1, ?_⟩
      have := hx.2
      simp only [decide_eq_true_eq] at this ⊢
      omega
    rcases hFE e he with h1 | h1
    · exact Reach.mono (hmono e rfl) (hspan e h1)
    · exact (Reach.mono (hmono (e.2.1, e.1, e.2.2) rfl) (hspan (e.2.1, e.1, e.2.2) h1)).symm
  have hcount : ∀ t : Int, (F.filter (fun k => decide (k.2.2 ≤ t))).length
      ≤ (K.filter (fun k => decide (k.2.2 ≤ t))).length := by
    intro t
    apply forest_length_le _ _ (forestList_filter _ F hF)
    intro e he
    rw [List.mem_filter] at he
    exact hjoin e he.1 t (by simpa using he.2)
  have hlen1 : F.length ≤ K.length := by
    apply forest_length_le F K hF
    intro e he
    exact Reach.mono (fun x hx => List.mem_of_mem_filter hx) (hjoin e he e.2.2 le_rfl)
  have hlen2 : K.length ≤ F.length := by
    apply forest_length_le K F hFK
    intro e he
    exact hspanF _ (hE e (hKE e he)).1 _ (hE e (hKE e he)).2
  unfold total_weight
  apply sum_le_of_count_le
  · simp only [List.length_map]; omega
  · intro t
    rw [List.countP_map, List.countP_map, List.countP_eq_length_filter,
      List.countP_eq_length_filter]
    exact hcount t

/-! ## Union-find -/

theorem root_mono (t : UnionFind) (f : Nat) (v r : Nat) (h : UnionFind.root t f v = some r)
    (f2 : Nat) (hf : f ≤ f2) : UnionFind.root t f2 v = some r := by
  induction f generalizing v f2 with
  | zero => simp [UnionFind.root] at h
  | succ f ih =>
    cases f2 with
    | zero => omega
    | succ f2 =>
      simp only [UnionFind.root] at h ⊢
      cases hp : t.parents v with
      | none => rw [hp] at h; simp at h
      | some p =>
        rw [hp] at h
        simp only at h ⊢
        by_cases hpv : p = v
        · simpa [hpv] using h
        · simp only [hpv, if_false] at h ⊢
          exact ih p h f2 (by omega)

theorem root_is_root (t : UnionFind) (f : Nat) (v r : Nat)
    (h : UnionFind.root t f v = some r) : t.parents r = some r := by
  induction f generalizing v with
  | zero => simp [UnionFind.root] at h
  | succ f ih =>
    simp only [UnionFind.root] at h
    cases hp : t.parents v with
    | none => rw [hp] at h; simp at h
    | some p =>
      rw [hp] at h
      simp only at h
      by_cases hpv : p = v
      · rw [if_pos hpv] at h
        have hr : p = r := Option.some.inj h
        rw [← hr, hpv]
        rw [hpv] at hp
        exact hp
      · simp only [hpv, if_false] at h
        exact ih p h

theorem root_exists (t : UnionFind) (V : List Nat) (T : List Edge) (H : Nat)
    (inv : UFInv t V T H) (f : Nat) (v : Nat) (hv : v ∈ V)
    (hf : (H : Int) - t.heights.at v + 1 ≤ f) :
    ∃ r ∈ V, UnionFind.root t f v = some r := by
  induction f generalizing v with
  | zero =>
    have := (inv.bounds v hv).2
    simp at hf
    omega
  | succ f ih =>
    obtain ⟨p, hp⟩ := inv.dom v hv
    have hpV := inv.closed v p hp
    simp only [UnionFind.root, hp]
    by_cases hpv : p = v
    · exact ⟨p, hpV, by simp [hpv]⟩
    · simp only [hpv, if_false]
      have := inv.climb v p hp hpv
      exact ih p hpV (by push_cast at hf ⊢; omega)

theorem root_of_fuel (t : UnionFind) (V : List Nat) (T : List Edge) (H : Nat)
    (inv : UFInv t V T H) (f : Nat) (hf : H ≤ f) (v : Nat) (hv : v ∈ V) :
    ∃ r ∈ V, UnionFind.root t f v = some r ∧ UnionFind.rep t H v = r := by
  have hb := inv.bounds v hv
  obtain ⟨r, hr, hroot⟩ := root_exists t V T H inv H v hv (by omega)
  exact ⟨r, hr, root_mono t H v r hroot f hf, by simp [UnionFind.rep, hroot]⟩

theorem rep_absent (t : UnionFind) (V : List Nat) (T : List Edge) (H : Nat)
    (inv : UFInv t V T H) (x : Nat) (hx : x ∉ V) : UnionFind.rep t H x = x := by
  have hp := inv.absent x hx
  cases H with
  | zero => simp [UnionFind.rep, UnionFind.root]
  | succ H => simp [UnionFind.rep, UnionFind.root, hp]

theorem link_root (t : UnionFind) (c p : Nat) (hcr : t.parents c = some c)
    (hpr : t.parents p = some p) (hne : c ≠ p) (f x r : Nat)
    (h : UnionFind.root t f x = some r) :
    UnionFind.root (UnionFind.link t c p) (f + 1) x = some (if r = c then p else r) := by
  unfold UnionFind.link
  induction f generalizing x with
  | zero => simp [UnionFind.root] at h
  | succ f ih =>
    simp only [UnionFind.root] at h
    cases hq : t.parents x with
    | none => rw [hq] at h; simp at h
    | some q =>
      rw [hq] at h
      simp only at h
      by_cases hqx : q = x
      · rw [if_pos hqx] at h
        have hr : q = r := Option.some.inj h
        by_cases hxc : x = c
        · have hrc : r = c := by rw [← hr, hqx, hxc]
          have hpc : ¬ p = c := fun e => hne e.symm
          simp [UnionFind.root, KeyMap.assign, hxc, hrc, hpc, hpr, hne.symm]
        · have hrc : ¬ r = c := by rw [← hr, hqx]; exact hxc
          simp [UnionFind.root, KeyMap.assign, hxc, hrc, hq, hqx, hr]
          rw [← hr, hqx]
      · rw [if_neg hqx] at h
        have hxc : ¬ x = c := by
          intro e
          rw [e, hcr] at hq
          exact hqx (by rw [← Option.some.inj hq, e])
        have := ih q h
        rw [UnionFind.root]
        simp only [KeyMap.assign, hxc, if_false, hq, hqx]
        exact this

theorem link_inv (t : UnionFind) (V : List Nat) (T : List Edge) (H : Nat)
    (inv : UFInv t V T H) (c p : Nat) (hc : c ∈ V) (hp : p ∈ V)
    (hcr : t.parents c = some c) (hpr : t.parents p = some p) (hne : c ≠ p)
    (hh : t.heights.at c ≤ t.heights.at p) (a b : Nat) (w : Int)
    (hab : (UnionFind.rep t H a = c ∧ UnionFind.rep t H b = p)
      ∨ (UnionFind.rep t H a = p ∧ UnionFind.rep t H b = c)) :
    UFInv (UnionFind.link t c p) V ((a, b, w) :: T) (H + 1) := by
  have hat : ∀ v, KeyMap.at (UnionFind.link t c p).heights v
      = if v = p then t.heights.at p + 1 else t.heights.at v := by
    intro v
    by_cases hvp : v = p <;> simp [UnionFind.link, KeyMap.at, KeyMap.assign, hvp]
  have hrep : ∀ x, UnionFind.rep (UnionFind.link t c p) (H + 1) x
      = if UnionFind.rep t H x = c then p else UnionFind.rep t H x := by
    intro x
    by_cases hx : x ∈ V
    · obtain ⟨r, _, hroot, hr⟩ := root_of_fuel t V T H inv H le_rfl x hx
      have := link_root t c p hcr hpr hne H x r hroot
      rw [hr]
      simp [UnionFind.rep, this]
    · have hxc : ¬ x = c := fun e => hx (e ▸ hc)
      have hnone : t.parents x = none := inv.absent x hx
      rw [rep_absent t V T H inv x hx]
      simp [UnionFind.rep, UnionFind.root, UnionFind.link, KeyMap.assign, hxc, hnone]
  have hpar : (UnionFind.link t c p).parents = t.parents.assign c p := rfl
  constructor
  · intro v hv
    by_cases hvc : v = c
    · exact ⟨p, by simp [hpar, KeyMap.assign, hvc]⟩
    · obtain ⟨q, hq⟩ := inv.dom v hv
      exact ⟨q, by simp [hpar, KeyMap.assign, hvc, hq]⟩
  · intro v hv
    have hvc : ¬ v = c := fun e => hv (e ▸ hc)
    simp [hpar, KeyMap.assign, hvc, inv.absent v hv]
  · intro v q hq
    by_cases hvc : v = c
    · simp only [hpar, KeyMap.assign, hvc, if_true, Option.some.injEq] at hq
      rw [← hq]; exact hp
    · simp only [hpar, KeyMap.assign, hvc, if_false] at hq
      exact inv.closed v q hq
  · intro v hv
    have := inv.bounds v hv
    have hpb := inv.bounds p hp
    simp only [hat]
    by_cases hvp : v = p
    · simp only [hvp, if_true]; push_cast; omega
    · simp only [hvp, if_false]; push_cast; omega
  · intro v q hq hqv
    simp only [hat]
    by_cases hvc : v = c
    · simp only [hpar, KeyMap.assign, hvc, if_true, Option.some.injEq] at hq
      subst hq
      simp only [hvc, hne, if_false, if_true]
      omega
    · simp only [hpar, KeyMap.assign, hvc, if_false] at hq
      have hcl := inv.climb v q hq hqv
      have hvp : ¬ v = p := by
        intro e
        rw [e, hpr] at hq
        exact hqv (by rw [← Option.some.inj hq, e])
      simp only [hvp, if_false]
      by_cases hqp : q = p
      · simp only [hqp, if_true]; rw [hqp] at hcl; omega
      · simp only [hqp, if_false]; exact hcl
  · intro u v
    simp only [hrep]
    constructor
    · intro hr
      induction hr with
      | rel x y hxy =>
        obtain ⟨w2, hw⟩ := hxy
        rcases List.mem_cons.1 hw with heq | hT
        · have hx : x = a := by simpa using congrArg Prod.fst heq
          have hy : y = b := by simpa using congrArg (fun e => e.2.1) heq
          rw [hx, hy]
          rcases hab with ⟨h1, h2⟩ | ⟨h1, h2⟩
          · simp [h1, h2, hne.symm]
          · simp [h1, h2, hne.symm]
        · have := (inv.comp x y).1 (Reach.edge hT)
          rw [this]
      | refl x => rfl
      | symm x y _ ih => exact ih.symm
      | trans x y z _ _ ih1 ih2 => exact ih1.trans ih2
    · intro he
      have hmono : ∀ {x y : Nat}, UnionFind.rep t H x = UnionFind.rep t H y →
          Reach ((a, b, w) :: T) x y := fun hxy =>
        Reach.mono (fun e he => List.mem_cons_of_mem _ he) ((inv.comp _ _).2 hxy)
      have hedge : Reach ((a, b, w) :: T) a b := Reach.edge (List.mem_cons_self _ _)
      have hcp : ∀ {x y : Nat}, UnionFind.rep t H x = c → UnionFind.rep t H y = p →
          Reach ((a, b, w) :: T) x y := by
        intro x y hx hy
        rcases hab with ⟨h1, h2⟩ | ⟨h1, h2⟩
        · exact (hmono (hx.trans h1.symm)).trans (hedge.trans (hmono (h2.trans hy.symm)))
        · exact (hmono (hx.trans h2.symm)).trans (hedge.symm.trans (hmono (h1.trans hy.symm)))
      by_cases hu : UnionFind.rep t H u = c
      · by_cases hv : UnionFind.rep t H v = c
        · exact hmono (hu.trans hv.symm)
        · simp only [hu, hv, if_true, if_false] at he
          exact hcp hu he.symm
      · by_cases hv : UnionFind.rep t H v = c
        · simp only [hu, hv, if_true, if_false] at he
          exact (hcp hv he).symm
        · simp only [hu, hv, if_false] at he
          exact hmono he

theorem join_eq_link (t : UnionFind) (f v1 v2 r1 r2 : Nat)
    (h1 : UnionFind.root t f v1 = some r1) (h2 : UnionFind.root t f v2 = some r2) :
    UnionFind.join t f v1 v2 =
      some (if t.heights.at r1 ≤ t.heights.at r2 then UnionFind.link t r1 r2
            else UnionFind.link t r2 r1) := by
  unfold UnionFind.join
  rw [h1, h2]
  simp only []
  by_cases hh : t.heights.at r1 ≤ t.heights.at r2
  · have e : (t.parents.assign r1 r2) r1 = some r2 := by simp [KeyMap.assign]
    have hm : max (t.heights.at r2) (t.heights.at r2 + 1) = t.heights.at r2 + 1 := by omega
    simp only [hh, if_true, UnionFind.link, e, hm]
  · have e : (t.parents.assign r2 r1) r2 = some r1 := by simp [KeyMap.assign]
    have hm : max (t.heights.at r1) (t.heights.at r1 + 1) = t.heights.at r1 + 1 := by omega
    simp only [hh, if_false, UnionFind.link, e, hm]

theorem join_inv (t : UnionFind) (V : List Nat) (T : List Edge) (H : Nat)
    (inv : UFInv t V T H) (v1 v2 : Nat) (w : Int)
    (hv1 : v1 ∈ V) (hv2 : v2 ∈ V)
    (hne : UnionFind.rep t H v1 ≠ UnionFind.rep t H v2) :
    ∃ t2, UFInv t2 V ((v1, v2, w) :: T) (H + 1)
      ∧ ∀ f, H ≤ f → UnionFind.join t f v1 v2 = some t2 := by
  obtain ⟨r1, hr1V, hroot1, hrep1⟩ := root_of_fuel t V T H inv H le_rfl v1 hv1
  obtain ⟨r2, hr2V, hroot2, hrep2⟩ := root_of_fuel t V T H inv H le_rfl v2 hv2
  rw [hrep1, hrep2] at hne
  have hp1 := root_is_root t H v1 r1 hroot1
  have hp2 := root_is_root t H v2 r2 hroot2
  have hjoin : ∀ f, H ≤ f → UnionFind.join t f v1 v2 =
      some (if t.heights.at r1 ≤ t.heights.at r2 then UnionFind.link t r1 r2
            else UnionFind.link t r2 r1) := fun f hf =>
    join_eq_link t f v1 v2 r1 r2 (root_mono t H v1 r1 hroot1 f hf)
      (root_mono t H v2 r2 hroot2 f hf)
  by_cases hh : t.heights.at r1 ≤ t.heights.at r2
  · simp only [hh, if_true] at hjoin
    exact ⟨_, link_inv t V T H inv r1 r2 hr1V hr2V hp1 hp2 hne hh v1 v2 w
      (Or.inl ⟨hrep1, hrep2⟩), hjoin⟩
  · simp only [hh, if_false] at hjoin
    exact ⟨_, link_inv t V T H inv r2 r1 hr2V hr1V hp2 hp1 hne.symm (by omega) v1 v2 w
      (Or.inr ⟨hrep1, hrep2⟩), hjoin⟩

theorem init_fold_parents (nodes : List Nat) (t : UnionFind) (x : Nat) :
    (nodes.foldl
      (fun t p => { parents := t.parents.insert p p, heights := t.heights.insert p 1 })
      t).parents x
      = if x ∈ nodes then (match t.parents x with
          | some old => some old
          | none => some x) else t.parents x := by
  induction nodes generalizing t with
  | nil => simp
  | cons a nodes ih =>
    rw [List.foldl_cons, ih]
    by_cases hxa : x = a
    · subst hxa
      cases hp : t.parents x <;> by_cases hm : x ∈ nodes <;> simp [KeyMap.insert, hp, hm]
    · have hax : ¬ a = x := fun e => hxa e.symm
      by_cases hm : x ∈ nodes <;> simp [KeyMap.insert, hxa, hax, hm]

theorem init_fold_heights (nodes : List Nat) (t : UnionFind) (x : Nat) :
    (nodes.foldl
      (fun t p => { parents := t.parents.insert p p, heights := t.heights.insert p 1 })
      t).heights x
      = if x ∈ nodes then (match t.heights x with
          | some old => some old
          | none => some 1) else t.heights x := by
  induction nodes generalizing t with
  | nil => simp
  | cons a nodes ih =>
    rw [List.foldl_cons, ih]
    by_cases hxa : x = a
    · subst hxa
      cases hp : t.heights x <;> by_cases hm : x ∈ nodes <;> simp [KeyMap.insert, hp, hm]
    · have hax : ¬ a = x := fun e => hxa e.symm
      by_cases hm : x ∈ nodes <;> simp [KeyMap.insert, hxa, hax, hm]

theorem init_parents (nodes : List Nat) (x : Nat) :
    (UnionFind.init nodes).parents x = if x ∈ nodes then some x else none := by
  unfold UnionFind.init
  rw [init_fold_parents]

theorem init_heights (nodes : List Nat) (x : Nat) :
    (UnionFind.init nodes).heights x = if x ∈ nodes then some 1 else none := by
  unfold UnionFind.init
  rw [init_fold_heights]

theorem init_inv (V : List Nat) : UFInv (UnionFind.init V) V [] 1 := by
  have hrep : ∀ x, UnionFind.rep (UnionFind.init V) 1 x = x := by
    intro x
    by_cases hx : x ∈ V <;> simp [UnionFind.rep, UnionFind.root, init_parents, hx]
  constructor
  · intro v hv
    exact ⟨v, by simp [init_parents, hv]⟩
  · intro v hv
    simp [init_parents, hv]
  · intro v p hp
    rw [init_parents] at hp
    by_cases hv : v ∈ V
    · simp only [hv, if_true, Option.some.injEq] at hp
      rw [← hp]; exact hv
    · simp [hv] at hp
  · intro v hv
    simp [KeyMap.at, init_heights, hv]
  · intro v p hp hpv
    rw [init_parents] at hp
    by_cases hv : v ∈ V
    · simp only [hv, if_true, Option.some.injEq] at hp
      exact absurd hp.symm hpv
    · simp [hv] at hp
  · intro u v
    rw [hrep, hrep]
    constructor
    · intro hr
      rcases hr.endpoints with e | ⟨⟨e, he, _⟩, _⟩
      · exact e
      · exact absurd he (List.not_mem_nil _)
    · intro e
      rw [e]
      exact Reach.refl _ _

/-! ## The loop of Kluskal carries out the greedy scan -/

theorem kluskal_loop_scan (V : List Nat) (es : List Edge) (tree : UnionFind)
    (T : List Edge) (H : Nat) (inv : UFInv tree V T H)
    (hes : ∀ e ∈ es, e.1 ∈ V ∧ e.2.1 ∈ V) :
    ∃ new : List Edge, GreedyScan V.length es T (new.reverse ++ T)
      ∧ (∀ e ∈ new, e ∈ es)
      ∧ ∀ (fuel : Nat) (g : GRAPH), H + es.length ≤ fuel →
          kluskal_loop fuel V.length es tree g T.length = some (new.foldl push_edge g) := by
  induction es generalizing tree T H with
  | nil => exact ⟨[], GreedyScan.done T, by simp, fun _ _ _ => rfl⟩
  | cons e rest ih =>
    obtain ⟨v1, v2, w⟩ := e
    have hv := hes (v1, v2, w) (List.mem_cons_self _ _)
    have hrest : ∀ x ∈ rest, x.1 ∈ V ∧ x.2.1 ∈ V :=
      fun x hx => hes x (List.mem_cons_of_mem _ hx)
    obtain ⟨r1, _, hroot1, hrep1⟩ := root_of_fuel tree V T H inv H le_rfl v1 hv.1
    obtain ⟨r2, _, hroot2, hrep2⟩ := root_of_fuel tree V T H inv H le_rfl v2 hv.2
    by_cases hr : r1 = r2
    · have hreach : Reach T v1 v2 := (inv.comp v1 v2).2 (by rw [hrep1, hrep2, hr])
      obtain ⟨new, hscan, hmem, hloop⟩ := ih tree T H inv hrest
      refine ⟨new, GreedyScan.skip _ _ _ _ hreach hscan,
        fun x hx => List.mem_cons_of_mem _ (hmem x hx), ?_⟩
      intro fuel g hf
      simp only [List.length_cons] at hf
      have h1 := root_mono tree H v1 r1 hroot1 fuel (by omega)
      have h2 := root_mono tree H v2 r2 hroot2 fuel (by omega)
      simp only [kluskal_loop, h1, h2, hr, ne_eq, not_true_eq_false, if_false]
      exact hloop fuel g (by omega)
    · have hnreach : ¬ Reach T v1 v2 := by
        intro h
        have := (inv.comp v1 v2).1 h
        rw [hrep1, hrep2] at this
        exact hr this
      obtain ⟨t2, inv2, hjoin⟩ := join_inv tree V T H inv v1 v2 w hv.1 hv.2
        (by rw [hrep1, hrep2]; exact hr)
      by_cases hstop : T.length + 1 = V.length - 1
      · refine ⟨[(v1, v2, w)], ?_, by simp, ?_⟩
        · exact GreedyScan.stop _ _ _ hnreach hstop
        · intro fuel g hf
          simp only [List.length_cons] at hf
          have h1 := root_mono tree H v1 r1 hroot1 fuel (by omega)
          have h2 := root_mono tree H v2 r2 hroot2 fuel (by omega)
          simp only [kluskal_loop, h1, h2, ne_eq, hr, not_false_eq_true, if_true,
            hjoin fuel (by omega), hstop]
          rfl
      · obtain ⟨new, hscan, hmem, hloop⟩ := ih t2 ((v1, v2, w) :: T) (H + 1) inv2 hrest
        refine ⟨(v1, v2, w) :: new, ?_, ?_, ?_⟩
        · refine GreedyScan.take _ _ _ _ hnreach hstop ?_
          simpa [List.reverse_cons, List.append_assoc] using hscan
        · intro x hx
          rcases List.mem_cons.1 hx with rfl | hx
          · exact List.mem_cons_self _ _
          · exact List.mem_cons_of_mem _ (hmem x hx)
        · intro fuel g hf
          simp only [List.length_cons] at hf
          have h1 := root_mono tree H v1 r1 hroot1 fuel (by omega)
          have h2 := root_mono tree H v2 r2 hroot2 fuel (by omega)
          simp only [kluskal_loop, h1, h2, ne_eq, hr, not_false_eq_true, if_true,
            hjoin fuel (by omega), hstop, if_false]
          exact hloop fuel (push_edge g (v1, v2, w)) (by omega)

/-! ## The sorted edge list -/

theorem collect_edges_mem (graph : GRAPH) (e : Edge) (he : e ∈ collect_edges graph) :
    e ∈ all_edges graph ∧ e.1 < e.2.1 := by
  unfold collect_edges at he
  unfold all_edges
  rw [List.mem_flatMap] at he ⊢
  obtain ⟨p, hp, hep⟩ := he
  rw [List.mem_map] at hep
  obtain ⟨q, hq, rfl⟩ := hep
  rw [List.mem_filter] at hq
  exact ⟨⟨p, hp, List.mem_map.2 ⟨q, hq.1, rfl⟩⟩, by simpa using hq.2⟩

theorem mem_collect_edges (graph : GRAPH) (e : Edge) (he : e ∈ all_edges graph)
    (hlt : e.1 < e.2.1) : e ∈ collect_edges graph := by
  unfold all_edges at he
  unfold collect_edges
  rw [List.mem_flatMap] at he ⊢
  obtain ⟨p, hp, hep⟩ := he
  rw [List.mem_map] at hep
  obtain ⟨q, hq, rfl⟩ := hep
  exact ⟨p, hp, List.mem_map.2 ⟨q, List.mem_filter.2 ⟨hq, by simpa using hlt⟩, rfl⟩⟩

theorem all_edges_fst_mem (graph : GRAPH) (e : Edge) (he : e ∈ all_edges graph) :
    e.1 ∈ nodes_of graph := by
  unfold all_edges at he
  rw [List.mem_flatMap] at he
  obtain ⟨p, hp, hep⟩ := he
  rw [List.mem_map] at hep
  obtain ⟨q, _, rfl⟩ := hep
  exact List.mem_map.2 ⟨p, hp, rfl⟩

theorem insert_by_weight_perm (a : Edge) (l : List Edge) :
    List.Perm (insert_by_weight a l) (a :: l) := by
  induction l with
  | nil => exact List.Perm.refl _
  | cons b l ih =>
    unfold insert_by_weight
    split_ifs
    · exact List.Perm.refl _
    · exact (List.Perm.cons b ih).trans (List.Perm.swap a b l)

theorem insert_by_weight_sorted (a : Edge) (l : List Edge)
    (h : l.Pairwise (fun e f => e.2.2 ≤ f.2.2)) :
    (insert_by_weight a l).Pairwise (fun e f => e.2.2 ≤ f.2.2) := by
  induction l with
  | nil => simp [insert_by_weight]
  | cons b l ih =>
    obtain ⟨hb, hl⟩ := List.pairwise_cons.1 h
    unfold insert_by_weight
    split_ifs with hc
    · refine List.pairwise_cons.2 ⟨?_, h⟩
      intro x hx
      rcases List.mem_cons.1 hx with rfl | hx
      · omega
      · have := hb x hx
        omega
    · refine List.pairwise_cons.2 ⟨?_, ih hl⟩
      intro x hx
      rcases List.mem_cons.1 ((insert_by_weight_perm a l).subset hx) with rfl | hx
      · omega
      · exact hb x hx

theorem stable_sort_fold (l acc : List Edge)
    (h : acc.Pairwise (fun e f => e.2.2 ≤ f.2.2)) :
    List.Perm (l.foldl (fun sorted a => insert_by_weight a sorted) acc) (acc ++ l)
    ∧ (l.foldl (fun sorted a => insert_by_weight a sorted) acc).Pairwise
        (fun e f => e.2.2 ≤ f.2.2) := by
  induction l generalizing acc with
  | nil => simpa using h
  | cons a l ih =>
    rw [List.foldl_cons]
    obtain ⟨hp, hs⟩ := ih (insert_by_weight a acc) (insert_by_weight_sorted a acc h)
    refine ⟨hp.trans ?_, hs⟩
    refine ((insert_by_weight_perm a acc).append_right l).trans ?_
    simpa using (@List.perm_middle _ a acc l).symm

theorem stable_sort_perm (l : List Edge) : List.Perm (stable_sort l) l := by
  have := (stable_sort_fold l [] List.Pairwise.nil).1
  simpa [stable_sort] using this

theorem stable_sort_sorted (l : List Edge) :
    (stable_sort l).Pairwise (fun e f => e.2.2 ≤ f.2.2) :=
  (stable_sort_fold l [] List.Pairwise.nil).2

/-! ## The adjacency mapping that is returned -/

theorem all_edges_cons (p : Nat × List (Nat × Int)) (g : GRAPH) :
    all_edges (p :: g) = p.2.map (fun q => ((p.1, q.1, q.2) : Edge)) ++ all_edges g := by
  simp [all_edges, List.flatMap_cons]

theorem collect_edges_cons (p : Nat × List (Nat × Int)) (g : GRAPH) :
    collect_edges (p :: g)
      = (p.2.filter (fun q => decide (p.1 < q.1))).map (fun q => ((p.1, q.1, q.2) : Edge))
        ++ collect_edges g := by
  simp [collect_edges, List.flatMap_cons]

theorem all_edges_push_back (g : GRAPH) (v : Nat) (q : Nat × Int) :
    List.Perm (all_edges (GRAPH.push_back g v q)) ((v, q.1, q.2) :: all_edges g) := by
  induction g with
  | nil => simp [GRAPH.push_back, all_edges]
  | cons p g ih =>
    obtain ⟨k, vec⟩ := p
    unfold GRAPH.push_back
    split_ifs with h1 h2
    · rw [all_edges_cons]
      simp
    · subst h2
      rw [all_edges_cons, all_edges_cons]
      simp only [List.map_append, List.map_cons, List.map_nil, List.append_assoc,
        List.singleton_append]
      exact List.perm_middle
    · rw [all_edges_cons, all_edges_cons]
      exact (List.Perm.append_left _ ih).trans List.perm_middle

theorem collect_edges_push_back (g : GRAPH) (v : Nat) (q : Nat × Int) :
    List.Perm (collect_edges (GRAPH.push_back g v q))
      ((if v < q.1 then [((v, q.1, q.2) : Edge)] else []) ++ collect_edges g) := by
  induction g with
  | nil =>
    by_cases h : v < q.1 <;> simp [GRAPH.push_back, collect_edges, h]
  | cons p g ih =>
    obtain ⟨k, vec⟩ := p
    unfold GRAPH.push_back
    split_ifs with h1 h2 h3 h4 h5
    · rw [collect_edges_cons]
      simp [h2]
    · rw [collect_edges_cons]
      simp [h2]
    · subst h3
      rw [collect_edges_cons, collect_edges_cons]
      simp only [List.filter_append, List.map_append, List.append_assoc]
      have : List.filter (fun q => decide (v < q.1)) [q] = [q] := by simp [h4]
      rw [this]
      simp only [List.map_cons, List.map_nil, List.singleton_append]
      exact List.perm_middle
    · subst h3
      rw [collect_edges_cons, collect_edges_cons]
      have : List.filter (fun q => decide (v < q.1)) [q] = [] := by simp [h4]
      simp only [List.filter_append, this, List.append_nil, List.nil_append]
      exact List.Perm.refl _
    · rw [collect_edges_cons, collect_edges_cons]
      refine (List.Perm.append_left _ ih).trans ?_
      simp only [h5, if_true, List.singleton_append]
      exact List.perm_middle
    · rw [collect_edges_cons, collect_edges_cons]
      refine (List.Perm.append_left _ ih).trans ?_
      simp only [h5, if_false, List.nil_append]
      exact List.Perm.refl _

theorem nodes_of_push_back (g : GRAPH) (v : Nat) (q : Nat × Int) (x : Nat) :
    x ∈ nodes_of (GRAPH.push_back g v q) ↔ x = v ∨ x ∈ nodes_of g := by
  induction g with
  | nil => simp [GRAPH.push_back, nodes_of]
  | cons p g ih =>
    obtain ⟨k, vec⟩ := p
    unfold GRAPH.push_back
    split_ifs with h1 h2
    · simp [nodes_of]
    · subst h2
      simp [nodes_of]
    · have : nodes_of ((k, vec) :: GRAPH.push_back g v q)
          = k :: nodes_of (GRAPH.push_back g v q) := rfl
      rw [this, List.mem_cons, ih]
      have : nodes_of ((k, vec) :: g) = k :: nodes_of g := rfl
      rw [this, List.mem_cons]
      tauto

theorem all_edges_push_edge (g : GRAPH) (e : Edge) :
    List.Perm (all_edges (push_edge g e)) (e :: (e.2.1, e.1, e.2.2) :: all_edges g) := by
  unfold push_edge
  refine (all_edges_push_back _ _ _).trans ?_
  refine (List.Perm.cons _ (all_edges_push_back _ _ _)).trans ?_
  exact List.Perm.swap _ _ _

theorem collect_edges_push_edge (g : GRAPH) (e : Edge) (he : e.1 < e.2.1) :
    List.Perm (collect_edges (push_edge g e)) (e :: collect_edges g) := by
  unfold push_edge
  refine (collect_edges_push_back _ _ _).trans ?_
  have h1 : ¬ e.2.1 < e.1 := by omega
  simp only [h1, if_false, List.nil_append]
  refine (collect_edges_push_back _ _ _).trans ?_
  simp only [he, if_true, List.singleton_append]
  exact List.Perm.refl _

theorem all_edges_fold (new : List Edge) (g : GRAPH) :
    List.Perm (all_edges (new.foldl push_edge g))
      (new.flatMap (fun e => [e, (e.2.1, e.1, e.2.2)]) ++ all_edges g) := by
  induction new generalizing g with
  | nil => simp
  | cons e new ih =>
    rw [List.foldl_cons]
    refine (ih (push_edge g e)).trans ?_
    refine (List.Perm.append_left _ (all_edges_push_edge g e)).trans ?_
    rw [List.flatMap_cons]
    rw [List.append_assoc]
    exact List.perm_append_comm_assoc (new.flatMap (fun e => [e, (e.2.1, e.1, e.2.2)]))
      [e, (e.2.1, e.1, e.2.2)] (all_edges g)

theorem collect_edges_fold (new : List Edge) (g : GRAPH) (h : ∀ e ∈ new, e.1 < e.2.1) :
    List.Perm (collect_edges (new.foldl push_edge g)) (new ++ collect_edges g) := by
  induction new generalizing g with
  | nil => simp
  | cons e new ih =>
    rw [List.foldl_cons]
    refine (ih (push_edge g e) (fun x hx => h x (List.mem_cons_of_mem _ hx))).trans ?_
    refine (List.Perm.append_left _
      (collect_edges_push_edge g e (h e (List.mem_cons_self _ _)))).trans ?_
    exact List.perm_middle

theorem nodes_of_push_edge (g : GRAPH) (e : Edge) (x : Nat) :
    x ∈ nodes_of (push_edge g e) ↔ x = e.1 ∨ x = e.2.1 ∨ x ∈ nodes_of g := by
  unfold push_edge
  rw [nodes_of_push_back, nodes_of_push_back]
  tauto

theorem nodes_of_fold (new : List Edge) (g : GRAPH) (x : Nat) :
    x ∈ nodes_of (new.foldl push_edge g)
      ↔ (∃ e ∈ new, x = e.1 ∨ x = e.2.1) ∨ x ∈ nodes_of g := by
  induction new generalizing g with
  | nil => simp
  | cons e new ih =>
    rw [List.foldl_cons, ih, nodes_of_push_edge]
    constructor
    · rintro (⟨f, hf, hx⟩ | hx | hx | hx)
      · exact Or.inl ⟨f, List.mem_cons_of_mem _ hf, hx⟩
      · exact Or.inl ⟨e, List.mem_cons_self _ _, Or.inl hx⟩
      · exact Or.inl ⟨e, List.mem_cons_self _ _, Or.inr hx⟩
      · exact Or.inr hx
    · rintro (⟨f, hf, hx⟩ | hx)
      · rcases List.mem_cons.1 hf with rfl | hf
        · rcases hx with hx | hx
          · exact Or.inr (Or.inl hx)
          · exact Or.inr (Or.inr (Or.inl hx))
        · exact Or.inl ⟨f, hf, hx⟩
      · exact Or.inr (Or.inr (Or.inr hx))

/-! ## Kluskal -/

theorem wellFormed_endpoints (graph : GRAPH) (hwf : WellFormedGraph graph) (e : Edge)
    (he : e ∈ all_edges graph) : e.1 ∈ nodes_of graph ∧ e.2.1 ∈ nodes_of graph :=
  ⟨all_edges_fst_mem graph e he, hwf.2.1 e he⟩

/-- The run of `Kluskal` on a well-formed graph: with enough fuel for `root`
it returns the mapping built from the edges `new` taken, in this order, by the
greedy scan of the sorted edge list. -/
theorem Kluskal_run (graph : GRAPH) (hwf : WellFormedGraph graph) :
    ∃ new : List Edge,
      GreedyScan (nodes_of graph).length (stable_sort (collect_edges graph)) [] new.reverse
      ∧ (∀ e ∈ new, e ∈ collect_edges graph)
      ∧ ∀ fuel, (collect_edges graph).length + 1 ≤ fuel →
          Kluskal fuel graph = some (new.foldl push_edge []) := by
  have hmemE : ∀ e, e ∈ stable_sort (collect_edges graph) ↔ e ∈ collect_edges graph :=
    fun e => (stable_sort_perm _).mem_iff
  obtain ⟨new, hscan, hmem, hloop⟩ := kluskal_loop_scan (nodes_of graph)
    (stable_sort (collect_edges graph)) (UnionFind.init (nodes_of graph)) [] 1
    (init_inv _) (fun e he =>
      wellFormed_endpoints graph hwf e (collect_edges_mem graph e ((hmemE e).1 he)).1)
  refine ⟨new, by simpa using hscan, fun e he => (hmemE e).1 (hmem e he), ?_⟩
  intro fuel hf
  have hlen : (stable_sort (collect_edges graph)).length = (collect_edges graph).length :=
    (stable_sort_perm _).length_eq
  unfold Kluskal
  exact hloop fuel [] (by rw [hlen]; omega)

/-- What the edges taken by `Kluskal` satisfy on a well-formed graph: they
form a forest of graph edges, and every edge of the graph has its endpoints
joined by taken edges that are not heavier. -/
theorem Kluskal_forest (graph : GRAPH) (hwf : WellFormedGraph graph) (K : List Edge)
    (hscan : GreedyScan (nodes_of graph).length (stable_sort (collect_edges graph)) [] K) :
    ForestList K ∧ (∀ e ∈ K, e ∈ collect_edges graph)
    ∧ (∀ e ∈ all_edges graph, Reach K e.1 e.2.1) := by
  have hmemE : ∀ e, e ∈ stable_sort (collect_edges graph) ↔ e ∈ collect_edges graph :=
    fun e => (stable_sort_perm _).mem_iff
  obtain ⟨⟨new, hK, hnew⟩, hF, hspan⟩ := greedyScan_invariant (nodes_of graph)
    (stable_sort (collect_edges graph)) [] K hscan
    (fun e he => wellFormed_endpoints graph hwf e (collect_edges_mem graph e ((hmemE e).1 he)).1)
    (by simp) (stable_sort_sorted _) (by simp) trivial
  refine ⟨hF, ?_, ?_⟩
  · intro e he
    rw [hK, List.append_nil] at he
    exact (hmemE e).1 (hnew e he)
  · have hlt : ∀ e ∈ all_edges graph, e.1 < e.2.1 → Reach K e.1 e.2.1 := by
      intro e he hlt
      exact Reach.mono (fun x hx => List.mem_of_mem_filter hx)
        (hspan e ((hmemE e).2 (mem_collect_edges graph e he hlt)))
    intro e he
    rcases Nat.lt_trichotomy e.1 e.2.1 with h | h | h
    · exact hlt e he h
    · rw [h]; exact Reach.refl _ _
    · exact (hlt (e.2.1, e.1, e.2.2) (hwf.2.2 e he) h).symm

theorem acyclic_perm {T U : List Edge} (hp : List.Perm T U) (h : Acyclic T) : Acyclic U :=
  fun e W hW hr => h e W (hp.trans hW) hr

theorem total_weight_perm {T U : List Edge} (hp : List.Perm T U) :
    total_weight T = total_weight U := by
  unfold total_weight
  exact (hp.map _).sum_eq

theorem star_forest (c : Nat) (xs : List Nat) (h : (c :: xs).Nodup) :
    ForestList (xs.map (fun x => ((c, x, 0) : Edge))) := by
  induction xs with
  | nil => trivial
  | cons x xs ih =>
    have hnd := List.nodup_cons.1 h
    have hnd2 := List.nodup_cons.1 hnd.2
    have hcx : c ≠ x := fun e => hnd.1 (e ▸ List.mem_cons_self _ _)
    refine ⟨?_, ih (List.nodup_cons.2 ⟨fun hc => hnd.1 (List.mem_cons_of_mem _ hc), hnd2.2⟩)⟩
    intro hr
    rcases hr.endpoints with e | ⟨_, ⟨f, hf, hx⟩⟩
    · exact hcx e
    · obtain ⟨y, hy, rfl⟩ := List.mem_map.1 hf
      rcases hx with hx | hx
      · exact hcx hx.symm
      · have hxy : x = y := hx
        exact hnd2.1 (hxy ▸ hy)

/-- Edges joining all of `n` distinct nodes number at least `n - 1`. -/
theorem spanning_length_ge (V : List Nat) (hV : V.Nodup) (K : List Edge)
    (hspan : ∀ u ∈ V, ∀ v ∈ V, Reach K u v) : V.length - 1 ≤ K.length := by
  cases V with
  | nil => simp
  | cons c xs =>
    have := forest_length_le _ K (star_forest c xs hV) (by
      intro e he
      obtain ⟨y, hy, rfl⟩ := List.mem_map.1 he
      exact hspan c (List.mem_cons_self _ _) y (List.mem_cons_of_mem _ hy))
    simpa using this

theorem wellFormed_nodup (graph : GRAPH) (hwf : WellFormedGraph graph) :
    (nodes_of graph).Nodup :=
  hwf.1.imp (fun h => Nat.ne_of_lt h)

/-- On a well-formed connected graph the edges taken by `Kluskal` join all
the nodes. -/
theorem Kluskal_spanning (graph : GRAPH) (hwf : WellFormedGraph graph)
    (hconn : ConnectedGraph graph) (K : List Edge)
    (hscan : GreedyScan (nodes_of graph).length (stable_sort (collect_edges graph)) [] K) :
    ∀ u ∈ nodes_of graph, ∀ v ∈ nodes_of graph, Reach K u v := by
  intro u hu v hv
  exact Reach.lift (Kluskal_forest graph hwf K hscan).2.2 (hconn u hu v hv)

theorem triangle_connected : ConnectedGraph triangle := by
  have h1 : ∀ u ∈ nodes_of triangle, Reach (all_edges triangle) 1 u := by
    intro u hu
    simp only [nodes_of, triangle, List.map_cons, List.map_nil, List.mem_cons,
      List.mem_singleton, List.not_mem_nil, or_false] at hu
    rcases hu with rfl | rfl | rfl
    · exact Reach.refl _ _
    · exact Reach.edge (w := 1) (by decide)
    · exact Reach.edge (w := 1) (by decide)
  intro u hu v hv
  exact (h1 u hu).symm.trans (h1 v hv)

theorem single_node_connected : ConnectedGraph single_node := by
  intro u hu v hv
  simp only [nodes_of, single_node, List.map_cons, List.map_nil, List.mem_singleton] at hu hv
  rw [hu, hv]
  exact Reach.refl _ _

/-- C8: on a connected well-formed graph, `Kluskal` (given enough iterations
for `root`) returns a mapping whose edges form a spanning tree of the input:
each is an input edge with its weight, they contain no cycle and join all the
nodes; and their total weight is at most that of every spanning tree of the
input. -/
theorem Kluskal_minimum_spanning_tree (graph : GRAPH) (hwf : WellFormedGraph graph)
    (hconn : ConnectedGraph graph) :
    ∃ out : GRAPH,
      (∀ fuel, (collect_edges graph).length + 1 ≤ fuel → Kluskal fuel graph = some out)
      ∧ IsSpanningTree graph (collect_edges out)
      ∧ ∀ T, IsSpanningTree graph T → total_weight (collect_edges out) ≤ total_weight T := by
  obtain ⟨new, hscan, hmem, hrun⟩ := Kluskal_run graph hwf
  obtain ⟨hF, hKE, hjoin⟩ := Kluskal_forest graph hwf new.reverse hscan
  have hspan := Kluskal_spanning graph hwf hconn new.reverse hscan
  have hperm : List.Perm (collect_edges (new.foldl push_edge [])) new.reverse := by
    have := collect_edges_fold new [] (fun e he => (collect_edges_mem graph e (hmem e he)).2)
    have h2 : collect_edges ([] : GRAPH) = [] := rfl
    rw [h2, List.append_nil] at this
    exact this.trans (List.reverse_perm new).symm
  have hmemE : ∀ e, e ∈ stable_sort (collect_edges graph) ↔ e ∈ collect_edges graph :=
    fun e => (stable_sort_perm _).mem_iff
  refine ⟨new.foldl push_edge [], hrun, ⟨?_, ?_, ?_⟩, ?_⟩
  · intro e he
    exact (collect_edges_mem graph e (hKE e (hperm.mem_iff.1 he))).1
  · exact acyclic_perm hperm.symm (acyclic_of_forestList _ hF)
  · intro u hu v hv
    exact Reach.mono (fun x hx => hperm.mem_iff.2 hx) (hspan u hu v hv)
  · intro T hT
    rw [total_weight_perm hperm]
    refine greedyScan_minimum (nodes_of graph) (stable_sort (collect_edges graph)) new.reverse T
      hscan ?_ (stable_sort_sorted _) (forestList_of_acyclic T hT.2.1) ?_ hT.2.2
    · intro e he
      exact wellFormed_endpoints graph hwf e (collect_edges_mem graph e ((hmemE e).1 he)).1
    · intro e he
      have heg := hT.1 e he
      rcases Nat.lt_trichotomy e.1 e.2.1 with h | h | h
      · exact Or.inl ((hmemE e).2 (mem_collect_edges graph e heg h))
      · exact absurd (h ▸ Reach.refl _ _) (hT.2.1 e _ (List.perm_cons_erase he))
      · exact Or.inr ((hmemE _).2 (mem_collect_edges graph (e.2.1, e.1, e.2.2)
          (hwf.2.2 e heg) h))

/-- Witness for C8: the triangle with unit weights. -/
theorem Kluskal_minimum_spanning_tree_witness :
    WellFormedGraph triangle ∧ ConnectedGraph triangle
    ∧ ∃ out : GRAPH,
      (∀ fuel, (collect_edges triangle).length + 1 ≤ fuel → Kluskal fuel triangle = some out)
      ∧ IsSpanningTree triangle (collect_edges out)
      ∧ ∀ T, IsSpanningTree triangle T → total_weight (collect_edges out) ≤ total_weight T :=
  ⟨by decide, triangle_connected,
    Kluskal_minimum_spanning_tree triangle (by decide) triangle_connected⟩

/-- C9: on a connected well-formed graph, `Kluskal` returns a mapping holding
`|nodes| - 1` undirected edges; its adjacency entries are exactly, for each of
these edges `(v1, v2, w)`, the entry `(v2, w)` under `v1` and the entry
`(v1, w)` under `v2`, hence `2 * (|nodes| - 1)` entries in total. -/
theorem Kluskal_edge_count (graph : GRAPH) (hwf : WellFormedGraph graph)
    (hconn : ConnectedGraph graph) :
    ∃ out : GRAPH,
      (∀ fuel, (collect_edges graph).length + 1 ≤ fuel → Kluskal fuel graph = some out)
      ∧ (collect_edges out).length = (nodes_of graph).length - 1
      ∧ List.Perm (all_edges out)
          ((collect_edges out).flatMap (fun e => [e, (e.2.1, e.1, e.2.2)]))
      ∧ (all_edges out).length = 2 * ((nodes_of graph).length - 1) := by
  obtain ⟨new, hscan, hmem, hrun⟩ := Kluskal_run graph hwf
  obtain ⟨hF, hKE, hjoin⟩ := Kluskal_forest graph hwf new.reverse hscan
  have hspan := Kluskal_spanning graph hwf hconn new.reverse hscan
  have hperm : List.Perm (collect_edges (new.foldl push_edge [])) new := by
    have := collect_edges_fold new [] (fun e he => (collect_edges_mem graph e (hmem e he)).2)
    have h2 : collect_edges ([] : GRAPH) = [] := rfl
    rw [h2, List.append_nil] at this
    exact this
  have hall : List.Perm (all_edges (new.foldl push_edge []))
      (new.flatMap (fun e => [e, (e.2.1, e.1, e.2.2)])) := by
    have := all_edges_fold new []
    have h2 : all_edges ([] : GRAPH) = [] := rfl
    rw [h2, List.append_nil] at this
    exact this
  have hlen : new.length = (nodes_of graph).length - 1 := by
    have h1 := forest_length_le_nodes (nodes_of graph) new.reverse hF (fun e he =>
      wellFormed_endpoints graph hwf e (collect_edges_mem graph e (hKE e he)).1)
    have h2 := spanning_length_ge (nodes_of graph) (wellFormed_nodup graph hwf) new.reverse hspan
    rw [List.length_reverse] at h1 h2
    omega
  have hflat : ∀ l : List Edge,
      (l.flatMap (fun e => [e, (e.2.1, e.1, e.2.2)])).length = 2 * l.length := by
    intro l
    induction l with
    | nil => rfl
    | cons a l ih => rw [List.flatMap_cons, List.length_append, ih]; simp; omega
  refine ⟨new.foldl push_edge [], hrun, ?_, ?_, ?_⟩
  · rw [hperm.length_eq, hlen]
  · exact hall.trans (List.Perm.flatMap_right _ hperm.symm)
  · rw [hall.length_eq, hflat, hlen]

/-- Witness for C9: the triangle with unit weights. -/
theorem Kluskal_edge_count_witness :
    WellFormedGraph triangle ∧ ConnectedGraph triangle
    ∧ ∃ out : GRAPH,
      (∀ fuel, (collect_edges triangle).length + 1 ≤ fuel → Kluskal fuel triangle = some out)
      ∧ (collect_edges out).length = (nodes_of triangle).length - 1
      ∧ List.Perm (all_edges out)
          ((collect_edges out).flatMap (fun e => [e, (e.2.1, e.1, e.2.2)]))
      ∧ (all_edges out).length = 2 * ((nodes_of triangle).length - 1) :=
  ⟨by decide, triangle_connected, Kluskal_edge_count triangle (by decide) triangle_connected⟩

/-- C10, as stated, fails: the graph with the single node 1 is well-formed,
connected and has one node, `Kluskal` returns the empty mapping on it, and
the node 1 is not a key of the result. -/
theorem Kluskal_single_node_dropped :
    WellFormedGraph single_node ∧ ConnectedGraph single_node
    ∧ 1 ≤ (nodes_of single_node).length
    ∧ (∀ fuel, Kluskal fuel single_node = some [])
    ∧ 1 ∈ nodes_of single_node ∧ 1 ∉ nodes_of ([] : GRAPH) :=
  ⟨by decide, single_node_connected, by decide, fun _ => rfl, by decide, by decide⟩

/-- C10, amended: on a connected well-formed graph with two or more nodes,
every key of the input mapping is a key of the mapping returned by `Kluskal`. -/
theorem Kluskal_keeps_nodes (graph : GRAPH) (hwf : WellFormedGraph graph)
    (hconn : ConnectedGraph graph) (h2 : 2 ≤ (nodes_of graph).length) :
    ∃ out : GRAPH,
      (∀ fuel, (collect_edges graph).length + 1 ≤ fuel → Kluskal fuel graph = some out)
      ∧ ∀ v ∈ nodes_of graph, v ∈ nodes_of out := by
  obtain ⟨new, hscan, hmem, hrun⟩ := Kluskal_run graph hwf
  have hspan := Kluskal_spanning graph hwf hconn new.reverse hscan
  refine ⟨new.foldl push_edge [], hrun, ?_⟩
  intro v hv
  have hother : ∃ u ∈ nodes_of graph, u ≠ v := by
    by_contra hcon
    push_neg at hcon
    have hnd := wellFormed_nodup graph hwf
    have hsub : nodes_of graph ⊆ [v] := fun u hu => by simp [hcon u hu]
    have := (List.subperm_of_subset hnd hsub).length_le
    simp at this
    omega
  obtain ⟨u, hu, huv⟩ := hother
  rw [nodes_of_fold]
  left
  rcases (hspan v hv u hu).endpoints with e | ⟨⟨f, hf, hx⟩, _⟩
  · exact absurd e.symm huv
  · exact ⟨f, List.mem_reverse.1 hf, hx⟩

/-- Witness for the amended C10: the triangle with unit weights. -/
theorem Kluskal_keeps_nodes_witness :
    WellFormedGraph triangle ∧ ConnectedGraph triangle ∧ 2 ≤ (nodes_of triangle).length
    ∧ ∃ out : GRAPH,
      (∀ fuel, (collect_edges triangle).length + 1 ≤ fuel → Kluskal fuel triangle = some out)
      ∧ ∀ v ∈ nodes_of triangle, v ∈ nodes_of out :=
  ⟨by decide, triangle_connected, by decide,
    Kluskal_keeps_nodes triangle (by decide) triangle_connected (by decide)⟩

/-! ## The scenario with no progeny of genotype 2 -/

theorem log_emission_lt :
    Real.log ((0.25 + 0.01) / 1.03) < Real.log ((0.5 + 0.01) / 1.03)
    ∧ Real.log ((0 + 0.01) / 1.03) < Real.log ((0.5 + 0.01) / 1.03) := by
  constructor
  · exact Real.log_lt_log (by norm_num) (by norm_num)
  · exact Real.log_lt_log (by norm_num) (by norm_num)

theorem segregation_type_homoHetero (r : VCFHeteroHomoRecord) (h : InRange r)
    (h2 : progeny_count r 2 = 0) (h0 : 1 ≤ progeny_count r 0) (h1 : 1 ≤ progeny_count r 1) :
    segregation_type r = some SEGTYPE.HomoHetero := by
  rw [segregation_type_of_counts r h]
  have e0 : count_triple r 0 = progeny_count r 0 := rfl
  have e1 : count_triple r 1 = progeny_count r 1 := rfl
  have e2 : count_triple r 2 = progeny_count r 2 := rfl
  have hnd : ¬ (count_triple r 0 + count_triple r 1 = 0
      ∨ count_triple r 0 + count_triple r 2 = 0
      ∨ count_triple r 1 + count_triple r 2 = 0) := by
    rw [e0, e1, e2]; omega
  have hn0 : (0 : ℝ) < (progeny_count r 0 : ℝ) := by exact_mod_cast h0
  obtain ⟨hl1, hl2⟩ := log_emission_lt
  have L0 : L_spec (count_triple r) 0 = (progeny_count r 0 : ℝ) * Real.log ((0.5 + 0.01) / 1.03)
      + (progeny_count r 1 : ℝ) * Real.log ((0.5 + 0.01) / 1.03) := by
    simp [L_spec, Fin.sum_univ_three, emission, e0, e1, e2, h2]
  have L1 : L_spec (count_triple r) 1 = (progeny_count r 0 : ℝ) * Real.log ((0.25 + 0.01) / 1.03)
      + (progeny_count r 1 : ℝ) * Real.log ((0.5 + 0.01) / 1.03) := by
    simp [L_spec, Fin.sum_univ_three, emission, e0, e1, e2, h2]
  have L2 : L_spec (count_triple r) 2 = (progeny_count r 0 : ℝ) * Real.log ((0 + 0.01) / 1.03)
      + (progeny_count r 1 : ℝ) * Real.log ((0.5 + 0.01) / 1.03) := by
    simp [L_spec, Fin.sum_univ_three, emission, e0, e1, e2, h2]
  have h01 : ¬ L_spec (count_triple r) 0 < L_spec (count_triple r) 1 := by
    rw [L0, L1]
    have := mul_lt_mul_of_pos_left hl1 hn0
    linarith
  have h02 : ¬ L_spec (count_triple r) 0 < L_spec (count_triple r) 2 := by
    rw [L0, L2]
    have := mul_lt_mul_of_pos_left hl2 hn0
    linarith
  simp only [hnd, if_false, max_element, h01, h02, if_true]

theorem is_Mendelian_segregation_true (r : VCFHeteroHomoRecord)
    (h : is_Mendelian_segregation r = some true) :
    ∃ s, segregation_type r = some s ∧ s ≠ SEGTYPE.None
      ∧ r.mat_int_gt ≠ -1 ∧ r.pat_int_gt ≠ -1 ∧ parents_match s r.mat_int_gt r.pat_int_gt := by
  unfold is_Mendelian_segregation at h
  cases hs : segregation_type r with
  | none => rw [hs] at h; simp at h
  | some s =>
    rw [hs] at h
    simp only [] at h
    by_cases hn : s = SEGTYPE.None
    · simp [hn] at h
    · by_cases hp : r.mat_int_gt = -1 ∨ r.pat_int_gt = -1
      · simp [hn, hp] at h
      · have hp1 : r.mat_int_gt ≠ -1 := fun e => hp (Or.inl e)
        have hp2 : r.pat_int_gt ≠ -1 := fun e => hp (Or.inr e)
        refine ⟨s, rfl, hn, hp1, hp2, ?_⟩
        cases s with
        | None => exact absurd rfl hn
        | HomoHetero => simpa [hp, parents_match] using h
        | HeteroHetero => simpa [hp, parents_match] using h
        | HeteroHomo => simpa [hp, parents_match] using h

theorem is_hetero_and_homo_true (r : VCFHeteroHomoRecord) (is_mat : Bool)
    (h : is_hetero_and_homo r is_mat = some true) :
    is_Mendelian_segregation r = some true
    ∧ (if is_mat = true then r.mat_int_gt = 1 ∧ (r.pat_int_gt = 0 ∨ r.pat_int_gt = 2)
       else (r.mat_int_gt = 0 ∨ r.mat_int_gt = 2) ∧ r.pat_int_gt = 1) := by
  unfold is_hetero_and_homo at h
  cases hm : is_Mendelian_segregation r with
  | none => rw [hm] at h; simp at h
  | some m =>
    rw [hm] at h
    cases m with
    | false => simp at h
    | true =>
      refine ⟨rfl, ?_⟩
      cases is_mat with
      | true => simpa using h
      | false => simpa using h

theorem is_hetero_and_homo_of_Mendelian (r : VCFHeteroHomoRecord) (is_mat : Bool)
    (h : is_Mendelian_segregation r = some true) :
    is_hetero_and_homo r is_mat =
      some (if is_mat = true
        then decide (r.mat_int_gt = 1 ∧ (r.pat_int_gt = 0 ∨ r.pat_int_gt = 2))
        else decide ((r.mat_int_gt = 0 ∨ r.mat_int_gt = 2) ∧ r.pat_int_gt = 1)) := by
  unfold is_hetero_and_homo
  rw [h]
  cases is_mat <;> simp

theorem is_Mendelian_segregation_homoHetero (r : VCFHeteroHomoRecord)
    (hs : segregation_type r = some SEGTYPE.HomoHetero)
    (hm : r.mat_int_gt = 0) (hp : r.pat_int_gt = 1) :
    is_Mendelian_segregation r = some true := by
  unfold is_Mendelian_segregation
  rw [hs]
  simp [hm, hp]

/-- C16: when the progeny counts satisfy n2 = 0, n0 >= 1 and n1 >= 1 the
segregation type is HomoHetero (exact real arithmetic); with mat = 0 and
pat = 1 in addition, `is_Mendelian_segregation` is true,
`is_hetero_and_homo(false)` is true and `is_hetero_and_homo(true)` is false. -/
theorem scenario_homoHetero (r : VCFHeteroHomoRecord) (h : InRange r)
    (h2 : progeny_count r 2 = 0) (h0 : 1 ≤ progeny_count r 0) (h1 : 1 ≤ progeny_count r 1) :
    segregation_type r = some SEGTYPE.HomoHetero
    ∧ (r.mat_int_gt = 0 ∧ r.pat_int_gt = 1 →
        is_Mendelian_segregation r = some true
        ∧ is_hetero_and_homo r false = some true
        ∧ is_hetero_and_homo r true = some false) := by
  have hs := segregation_type_homoHetero r h h2 h0 h1
  refine ⟨hs, ?_⟩
  rintro ⟨hm, hp⟩
  have hM := is_Mendelian_segregation_homoHetero r hs hm hp
  refine ⟨hM, ?_, ?_⟩
  · rw [is_hetero_and_homo_of_Mendelian r false hM]
    simp [hm, hp]
  · rw [is_hetero_and_homo_of_Mendelian r true hM]
    simp [hm, hp]

/-- Witness for C16: the instance of the specification, ten progeny of
genotype 0 and ten of genotype 1, with mat = 0 and pat = 1. -/
theorem scenario_homoHetero_witness :
    InRange ⟨0, 1, List.replicate 10 0 ++ List.replicate 10 1⟩
    ∧ progeny_count ⟨0, 1, List.replicate 10 0 ++ List.replicate 10 1⟩ 0 = 10
    ∧ progeny_count ⟨0, 1, List.replicate 10 0 ++ List.replicate 10 1⟩ 1 = 10
    ∧ progeny_count ⟨0, 1, List.replicate 10 0 ++ List.replicate 10 1⟩ 2 = 0
    ∧ segregation_type ⟨0, 1, List.replicate 10 0 ++ List.replicate 10 1⟩
        = some SEGTYPE.HomoHetero
    ∧ is_Mendelian_segregation ⟨0, 1, List.replicate 10 0 ++ List.replicate 10 1⟩ = some true
    ∧ is_hetero_and_homo ⟨0, 1, List.replicate 10 0 ++ List.replicate 10 1⟩ false = some true
    ∧ is_hetero_and_homo ⟨0, 1, List.replicate 10 0 ++ List.replicate 10 1⟩ true = some false :=
  ⟨by decide, by decide, by decide, by decide,
    (scenario_homoHetero ⟨0, 1, List.replicate 10 0 ++ List.replicate 10 1⟩
      (by decide) (by decide) (by decide) (by decide)).1,
    (scenario_homoHetero ⟨0, 1, List.replicate 10 0 ++ List.replicate 10 1⟩
      (by decide) (by decide) (by decide) (by decide)).2 ⟨rfl, rfl⟩⟩

/-- C20: when `is_hetero_and_homo(is_mat)` is true, the segregation type is
HomoHetero or HeteroHomo, and the integer genotype of the homozygous parent
(pat if `is_mat`, mat otherwise) is 0 exactly for HomoHetero and 2 exactly for
HeteroHomo. -/
theorem hetero_and_homo_type (r : VCFHeteroHomoRecord) (is_mat : Bool)
    (h : is_hetero_and_homo r is_mat = some true) :
    ∃ s, segregation_type r = some s
      ∧ (s = SEGTYPE.HomoHetero ∨ s = SEGTYPE.HeteroHomo)
      ∧ (homo_side r is_mat = 0 ↔ s = SEGTYPE.HomoHetero)
      ∧ (homo_side r is_mat = 2 ↔ s = SEGTYPE.HeteroHomo) := by
  obtain ⟨hM, hrole⟩ := is_hetero_and_homo_true r is_mat h
  obtain ⟨s, hs, hn, _, _, hmatch⟩ := is_Mendelian_segregation_true r hM
  refine ⟨s, hs, ?_⟩
  cases is_mat with
  | true =>
    simp only [if_true] at hrole
    obtain ⟨hm, hp⟩ := hrole
    cases s with
    | None => exact absurd rfl hn
    | HomoHetero =>
      simp only [parents_match] at hmatch
      simp [homo_side]; omega
    | HeteroHetero =>
      simp only [parents_match] at hmatch
      omega
    | HeteroHomo =>
      simp only [parents_match] at hmatch
      simp [homo_side]; omega
  | false =>
    simp only [Bool.false_eq_true, if_false] at hrole
    obtain ⟨hm, hp⟩ := hrole
    cases s with
    | None => exact absurd rfl hn
    | HomoHetero =>
      simp only [parents_match] at hmatch
      simp [homo_side]; omega
    | HeteroHetero =>
      simp only [parents_match] at hmatch
      omega
    | HeteroHomo =>
      simp only [parents_match] at hmatch
      simp [homo_side]; omega

theorem hetero_homo_example :
    is_hetero_and_homo ⟨0, 1, [0, 1]⟩ false = some true := by
  have hs := segregation_type_homoHetero ⟨0, 1, [0, 1]⟩ (by decide) (by decide) (by decide)
    (by decide)
  have hM := is_Mendelian_segregation_homoHetero ⟨0, 1, [0, 1]⟩ hs rfl rfl
  rw [is_hetero_and_homo_of_Mendelian _ false hM]
  simp

/-- Witness for C20: progeny 0, 1 with parents 0 and 1, paternal role. -/
theorem hetero_and_homo_type_witness :
    is_hetero_and_homo ⟨0, 1, [0, 1]⟩ false = some true
    ∧ ∃ s, segregation_type ⟨0, 1, [0, 1]⟩ = some s
      ∧ (s = SEGTYPE.HomoHetero ∨ s = SEGTYPE.HeteroHomo)
      ∧ (homo_side ⟨0, 1, [0, 1]⟩ false = 0 ↔ s = SEGTYPE.HomoHetero)
      ∧ (homo_side ⟨0, 1, [0, 1]⟩ false = 2 ↔ s = SEGTYPE.HeteroHomo) :=
  ⟨hetero_homo_example, hetero_and_homo_type ⟨0, 1, [0, 1]⟩ false hetero_homo_example⟩

/-- C15, as stated, fails: no family-view record makes both
`is_hetero_and_homo(true)` and `is_hetero_and_homo(false)` true, since the
first needs mat = 1 and the second needs mat to be 0 or 2. -/
theorem no_record_in_both_roles :
    ¬ ∃ r : VCFHeteroHomoRecord,
      is_hetero_and_homo r true = some true ∧ is_hetero_and_homo r false = some true := by
  rintro ⟨r, ht, hf⟩
  have h1 := (is_hetero_and_homo_true r true ht).2
  have h2 := (is_hetero_and_homo_true r false hf).2
  simp only [if_true, Bool.false_eq_true, if_false] at h1 h2
  omega

/-- C15, amended: a variant populates at most one bucket of a family: when
`is_hetero_and_homo` is true for one role it returns false for the other. -/
theorem hetero_and_homo_exclusive (r : VCFHeteroHomoRecord) (is_mat : Bool)
    (h : is_hetero_and_homo r is_mat = some true) :
    is_hetero_and_homo r (!is_mat) = some false := by
  obtain ⟨hM, hrole⟩ := is_hetero_and_homo_true r is_mat h
  rw [is_hetero_and_homo_of_Mendelian r (!is_mat) hM]
  cases is_mat with
  | true =>
    simp only [if_true] at hrole
    have : ¬ ((r.mat_int_gt = 0 ∨ r.mat_int_gt = 2) ∧ r.pat_int_gt = 1) := by omega
    simp [this]
  | false =>
    simp only [Bool.false_eq_true, if_false] at hrole
    have : ¬ (r.mat_int_gt = 1 ∧ (r.pat_int_gt = 0 ∨ r.pat_int_gt = 2)) := by omega
    simp [this]

/-- Witness for the amended C15: progeny 0, 1 with parents 0 and 1 is in the
paternal bucket and not in the maternal one. -/
theorem hetero_and_homo_exclusive_witness :
    is_hetero_and_homo ⟨0, 1, [0, 1]⟩ false = some true
    ∧ is_hetero_and_homo ⟨0, 1, [0, 1]⟩ (!false) = some false :=
  ⟨hetero_homo_example, hetero_and_homo_exclusive ⟨0, 1, [0, 1]⟩ false hetero_homo_example⟩

/-! ## The inversion flag of the distance -/

/-- C17, as stated, fails: for `a = [0]`, `b = [1]` and `max_dist = 5` the
flipped side wins (`d_flip = 0 < d_same = 1`) and `distance` returns
`(0, false)`. -/
theorem distance_inverted_counterexample :
    [(0 : Int)].length = [(1 : Int)].length ∧ (0 : Int) ≤ 5
    ∧ d_flip [0] [1] < d_same [0] [1]
    ∧ distance [0] [1] 5 = some (0, false) := by
  decide

/-- C17, amended: for vectors of equal length and `max_dist >= 0`, the second
component of `distance(a, b, max_dist)` is true exactly when
`d_flip <= max_dist < d_same`; so a true flag implies `d_flip < d_same`. -/
theorem distance_inverted_iff (a b : List Int) (max_dist : Int) (hlen : a.length = b.length)
    (hm : 0 ≤ max_dist) :
    ∃ p, distance a b max_dist = some p
      ∧ (p.2 = true ↔ ((d_flip a b : Int) ≤ max_dist ∧ max_dist < (d_same a b : Int)))
      ∧ (p.2 = true → d_flip a b < d_same a b) := by
  unfold distance
  rw [distance_loop_eq a b hlen max_dist 0 0 (by omega)]
  simp only [zero_add]
  by_cases hb : (d_same a b : Int) > max_dist ∧ (d_flip a b : Int) > max_dist
  · rw [if_pos hb]
    refine ⟨_, rfl, ?_, ?_⟩
    · simp only [Bool.false_eq_true, false_iff]; omega
    · simp
  · rw [if_neg hb]
    refine ⟨_, rfl, ?_, ?_⟩
    · simp only [decide_eq_true_eq]; omega
    · simp only [decide_eq_true_eq]; omega

/-- Witness for the amended C17: `[0,1,0,0]` against `[1,0,1,0]` with cutoff 1. -/
theorem distance_inverted_iff_witness :
    [(0 : Int), 1, 0, 0].length = [(1 : Int), 0, 1, 0].length ∧ (0 : Int) ≤ 1
    ∧ ∃ p, distance [0, 1, 0, 0] [1, 0, 1, 0] 1 = some p
      ∧ (p.2 = true ↔ ((d_flip [0, 1, 0, 0] [1, 0, 1, 0] : Int) ≤ 1
          ∧ 1 < (d_same [0, 1, 0, 0] [1, 0, 1, 0] : Int)))
      ∧ (p.2 = true → d_flip [0, 1, 0, 0] [1, 0, 1, 0] < d_same [0, 1, 0, 0] [1, 0, 1, 0]) :=
  ⟨by decide, by decide, distance_inverted_iff [0, 1, 0, 0] [1, 0, 1, 0] 1 (by decide) (by decide)⟩

/-! ## Reachable states of the union-find -/

theorem rep_of_fuel (t : UnionFind) (V : List Nat) (T : List Edge) (H : Nat)
    (inv : UFInv t V T H) (f : Nat) (hf : H ≤ f) (x : Nat) :
    UnionFind.rep t f x = UnionFind.rep t H x := by
  by_cases hx : x ∈ V
  · obtain ⟨r, _, hroot, hrep⟩ := root_of_fuel t V T H inv f hf x hx
    rw [hrep]
    simp [UnionFind.rep, hroot]
  · rw [rep_absent t V T H inv x hx]
    have hp := inv.absent x hx
    cases f with
    | zero => simp [UnionFind.rep, UnionFind.root]
    | succ f => simp [UnionFind.rep, UnionFind.root, hp]

theorem link_inv_same (t : UnionFind) (V : List Nat) (T : List Edge) (H : Nat)
    (inv : UFInv t V T H) (r : Nat) (hr : r ∈ V) (hrr : t.parents r = some r)
    (a b : Nat) (w : Int) (ha : UnionFind.rep t H a = r) (hb : UnionFind.rep t H b = r) :
    UFInv (UnionFind.link t r r) V ((a, b, w) :: T) (H + 1) := by
  have hpar : (UnionFind.link t r r).parents = t.parents := by
    funext x
    by_cases hx : x = r
    · simp [UnionFind.link, KeyMap.assign, hx, hrr]
    · simp [UnionFind.link, KeyMap.assign, hx]
  have hat : ∀ v, KeyMap.at (UnionFind.link t r r).heights v
      = if v = r then t.heights.at r + 1 else t.heights.at v := by
    intro v
    by_cases hvp : v = r <;> simp [UnionFind.link, KeyMap.at, KeyMap.assign, hvp]
  have hroot : ∀ f x, UnionFind.root (UnionFind.link t r r) f x = UnionFind.root t f x := by
    intro f
    induction f with
    | zero => intro x; rfl
    | succ f ih =>
      intro x
      simp only [UnionFind.root, hpar]
      cases t.parents x with
      | none => rfl
      | some p => simp only [ih]
  have hrep : ∀ x, UnionFind.rep (UnionFind.link t r r) (H + 1) x = UnionFind.rep t H x := by
    intro x
    have : UnionFind.rep (UnionFind.link t r r) (H + 1) x = UnionFind.rep t (H + 1) x := by
      simp [UnionFind.rep, hroot]
    rw [this]
    exact rep_of_fuel t V T H inv (H + 1) (by omega) x
  constructor
  · intro v hv
    rw [hpar]; exact inv.dom v hv
  · intro v hv
    rw [hpar]; exact inv.absent v hv
  · intro v q hq
    rw [hpar] at hq; exact inv.closed v q hq
  · intro v hv
    have := inv.bounds v hv
    simp only [hat]
    by_cases hvr : v = r
    · simp only [hvr, if_true]
      have := inv.bounds r hr
      push_cast; omega
    · simp only [hvr, if_false]; push_cast; omega
  · intro v q hq hqv
    rw [hpar] at hq
    have hcl := inv.climb v q hq hqv
    have hvr : ¬ v = r := by
      intro e
      rw [e, hrr] at hq
      exact hqv (by rw [← Option.some.inj hq, e])
    simp only [hat, hvr, if_false]
    by_cases hqr : q = r
    · simp only [hqr, if_true]; rw [hqr] at hcl; omega
    · simp only [hqr, if_false]; exact hcl
  · intro u v
    simp only [hrep]
    rw [← inv.comp u v]
    constructor
    · intro h
      refine Reach.lift ?_ h
      intro e he
      rcases List.mem_cons.1 he with rfl | he
      · exact (inv.comp a b).2 (by rw [ha, hb])
      · exact Reach.edge (w := e.2.2) he
    · exact Reach.mono (fun e he => List.mem_cons_of_mem _ he)

theorem join_some_roots (t : UnionFind) (f v1 v2 : Nat) (t2 : UnionFind)
    (h : UnionFind.join t f v1 v2 = some t2) :
    ∃ r1 r2, UnionFind.root t f v1 = some r1 ∧ UnionFind.root t f v2 = some r2 := by
  unfold UnionFind.join at h
  cases h1 : UnionFind.root t f v1 with
  | none => rw [h1] at h; simp at h
  | some r1 =>
    cases h2 : UnionFind.root t f v2 with
    | none => rw [h1, h2] at h; simp at h
    | some r2 => exact ⟨r1, r2, rfl, rfl⟩

/-- The state after a call `join(v1, v2)` on member nodes, whether their
roots differ or not. -/
theorem join_inv_any (t : UnionFind) (V : List Nat) (T : List Edge) (H : Nat)
    (inv : UFInv t V T H) (v1 v2 : Nat) (hv1 : v1 ∈ V) (hv2 : v2 ∈ V) :
    ∃ t2, UFInv t2 V ((v1, v2, 0) :: T) (H + 1)
      ∧ (∀ f, H ≤ f → UnionFind.join t f v1 v2 = some t2)
      ∧ (∀ f t3, UnionFind.join t f v1 v2 = some t3 → t3 = t2) := by
  obtain ⟨r1, hr1V, hroot1, hrep1⟩ := root_of_fuel t V T H inv H le_rfl v1 hv1
  obtain ⟨r2, hr2V, hroot2, hrep2⟩ := root_of_fuel t V T H inv H le_rfl v2 hv2
  have hp1 := root_is_root t H v1 r1 hroot1
  have hp2 := root_is_root t H v2 r2 hroot2
  have hjoin : ∀ f, H ≤ f → UnionFind.join t f v1 v2 =
      some (if t.heights.at r1 ≤ t.heights.at r2 then UnionFind.link t r1 r2
            else UnionFind.link t r2 r1) := fun f hf =>
    join_eq_link t f v1 v2 r1 r2 (root_mono t H v1 r1 hroot1 f hf)
      (root_mono t H v2 r2 hroot2 f hf)
  have huniq : ∀ f t3, UnionFind.join t f v1 v2 = some t3 →
      t3 = (if t.heights.at r1 ≤ t.heights.at r2 then UnionFind.link t r1 r2
            else UnionFind.link t r2 r1) := by
    intro f t3 h3
    obtain ⟨s1, s2, hs1, hs2⟩ := join_some_roots t f v1 v2 t3 h3
    have e1 : s1 = r1 := by
      have a := root_mono t f v1 s1 hs1 (max f H) (le_max_left _ _)
      have b := root_mono t H v1 r1 hroot1 (max f H) (le_max_right _ _)
      rw [a] at b; exact Option.some.inj b
    have e2 : s2 = r2 := by
      have a := root_mono t f v2 s2 hs2 (max f H) (le_max_left _ _)
      have b := root_mono t H v2 r2 hroot2 (max f H) (le_max_right _ _)
      rw [a] at b; exact Option.some.inj b
    rw [e1] at hs1
    rw [e2] at hs2
    have := join_eq_link t f v1 v2 r1 r2 hs1 hs2
    rw [this] at h3
    exact (Option.some.inj h3).symm
  refine ⟨_, ?_, hjoin, huniq⟩
  by_cases hr : r1 = r2
  · subst hr
    simp only [le_refl, if_true]
    exact link_inv_same t V T H inv r1 hr1V hp1 v1 v2 0 hrep1 hrep2
  · by_cases hh : t.heights.at r1 ≤ t.heights.at r2
    · simp only [hh, if_true]
      exact link_inv t V T H inv r1 r2 hr1V hr2V hp1 hp2 hr hh v1 v2 0
        (Or.inl ⟨hrep1, hrep2⟩)
    · simp only [hh, if_false]
      exact link_inv t V T H inv r2 r1 hr2V hr1V hp2 hp1 (fun e => hr e.symm) (by omega)
        v1 v2 0 (Or.inr ⟨hrep1, hrep2⟩)

theorem reachable_inv (nodes : List Nat) (t : UnionFind) (h : ReachableUF nodes t) :
    ∃ T H, UFInv t nodes T H := by
  induction h with
  | init => exact ⟨[], 1, init_inv nodes⟩
  | join t t2 fuel v1 v2 _ hv1 hv2 hj ih =>
    obtain ⟨T, H, inv⟩ := ih
    obtain ⟨t3, inv3, _, huniq⟩ := join_inv_any t nodes T H inv v1 v2 hv1 hv2
    rw [huniq fuel t2 hj]
    exact ⟨_, _, inv3⟩

theorem ancestor_height (t : UnionFind) (V : List Nat) (T : List Edge) (H : Nat)
    (inv : UFInv t V T H) (k v u : Nat) (h : UnionFind.ancestor t k v = some u) :
    t.heights.at v ≤ t.heights.at u
    ∧ (0 < k → t.parents v ≠ some v → t.heights.at v < t.heights.at u) := by
  induction k generalizing v with
  | zero =>
    simp only [UnionFind.ancestor, Option.some.injEq] at h
    rw [h]
    exact ⟨le_rfl, fun hk => absurd hk (lt_irrefl 0)⟩
  | succ k ih =>
    simp only [UnionFind.ancestor] at h
    cases hp : t.parents v with
    | none => rw [hp] at h; simp at h
    | some p =>
      rw [hp] at h
      have := (ih p h).1
      by_cases hpv : p = v
      · rw [hpv] at this
        exact ⟨this, fun _ hne => absurd (by rw [hpv]) hne⟩
      · have hcl := inv.climb v p hp hpv
        exact ⟨by omega, fun _ _ => by omega⟩

/-- C19: in every state reachable from the constructor by calls of `join`
on member nodes (calls on nodes that already share a root included), following
parent pointers never comes back to a node other than a root, `root(v)`
returns for every member `v`, with a node that is its own parent, and right
after `join(v1, v2)` the roots of `v1` and `v2` are equal. -/
theorem reachable_union_find (nodes : List Nat) (t : UnionFind)
    (h : ReachableUF nodes t) :
    (∀ v k, 0 < k → UnionFind.ancestor t k v = some v → t.parents v = some v)
    ∧ (∃ N, ∀ fuel, N ≤ fuel → ∀ v ∈ nodes,
        ∃ r, UnionFind.root t fuel v = some r ∧ t.parents r = some r)
    ∧ (∀ v1 ∈ nodes, ∀ v2 ∈ nodes, ∃ t2 N,
        (∀ fuel, N ≤ fuel → UnionFind.join t fuel v1 v2 = some t2)
        ∧ (∀ fuel, N ≤ fuel → ∃ r, UnionFind.root t2 fuel v1 = some r
            ∧ UnionFind.root t2 fuel v2 = some r)) := by
  obtain ⟨T, H, inv⟩ := reachable_inv nodes t h
  refine ⟨?_, ⟨H, ?_⟩, ?_⟩
  · intro v k hk hanc
    by_contra hne
    have := (ancestor_height t nodes T H inv k v v hanc).2 hk hne
    omega
  · intro fuel hf v hv
    obtain ⟨r, _, hroot, _⟩ := root_of_fuel t nodes T H inv fuel hf v hv
    exact ⟨r, hroot, root_is_root t fuel v r hroot⟩
  · intro v1 hv1 v2 hv2
    obtain ⟨t2, inv2, hjoin, _⟩ := join_inv_any t nodes T H inv v1 v2 hv1 hv2
    refine ⟨t2, H + 1, fun fuel hf => hjoin fuel (by omega), ?_⟩
    intro fuel hf
    obtain ⟨r1, _, hroot1, hrep1⟩ := root_of_fuel t2 nodes _ (H + 1) inv2 fuel hf v1 hv1
    obtain ⟨r2, _, hroot2, hrep2⟩ := root_of_fuel t2 nodes _ (H + 1) inv2 fuel hf v2 hv2
    have := (inv2.comp v1 v2).1 (Reach.edge (List.mem_cons_self _ _))
    rw [hrep1, hrep2] at this
    exact ⟨r1, hroot1, by rw [this]; exact hroot2⟩

/-- Witness for C19: the state right after the constructor on nodes 1, 2, 3. -/
theorem reachable_union_find_witness :
    ReachableUF [1, 2, 3] (UnionFind.init [1, 2, 3])
    ∧ (∀ v k, 0 < k → UnionFind.ancestor (UnionFind.init [1, 2, 3]) k v = some v →
        (UnionFind.init [1, 2, 3]).parents v = some v)
    ∧ (∃ N, ∀ fuel, N ≤ fuel → ∀ v ∈ [1, 2, 3],
        ∃ r, UnionFind.root (UnionFind.init [1, 2, 3]) fuel v = some r
          ∧ (UnionFind.init [1, 2, 3]).parents r = some r)
    ∧ (∀ v1 ∈ [1, 2, 3], ∀ v2 ∈ [1, 2, 3], ∃ t2 N,
        (∀ fuel, N ≤ fuel → UnionFind.join (UnionFind.init [1, 2, 3]) fuel v1 v2 = some t2)
        ∧ (∀ fuel, N ≤ fuel → ∃ r, UnionFind.root t2 fuel v1 = some r
            ∧ UnionFind.root t2 fuel v2 = some r)) :=
  ⟨ReachableUF.init,
    reachable_union_find [1, 2, 3] (UnionFind.init [1, 2, 3]) ReachableUF.init⟩

/-! ## The union-find selection against the reference greedy scan -/

theorem reach_cons_iff (T : List Edge) (ρ : Nat → Nat)
    (hρ : ∀ u v, Reach T u v ↔ ρ u = ρ v) (a b : Nat) (w : Int) (u v : Nat) :
    Reach ((a, b, w) :: T) u v ↔
      (if ρ u = ρ a then ρ b else ρ u) = (if ρ v = ρ a then ρ b else ρ v) := by
  constructor
  · intro hr
    induction hr with
    | rel x y hxy =>
      obtain ⟨w2, hw⟩ := hxy
      rcases List.mem_cons.1 hw with heq | hT
      · have hx : x = a := by simpa using congrArg Prod.fst heq
        have hy : y = b := by simpa using congrArg (fun e => e.2.1) heq
        rw [hx, hy]
        by_cases hba : ρ b = ρ a <;> simp [hba]
      · have := (hρ x y).1 (Reach.edge hT)
        rw [this]
    | refl x => rfl
    | symm x y _ ih => exact ih.symm
    | trans x y z _ _ ih1 ih2 => exact ih1.trans ih2
  · intro he
    have hmono : ∀ {x y : Nat}, ρ x = ρ y → Reach ((a, b, w) :: T) x y := fun hxy =>
      Reach.mono (fun e he => List.mem_cons_of_mem _ he) ((hρ _ _).2 hxy)
    have hedge : Reach ((a, b, w) :: T) a b := Reach.edge (List.mem_cons_self _ _)
    by_cases hu : ρ u = ρ a
    · by_cases hv : ρ v = ρ a
      · exact hmono (hu.trans hv.symm)
      · simp only [hu, hv, if_true, if_false] at he
        exact (hmono hu).trans (hedge.trans (hmono he))
    · by_cases hv : ρ v = ρ a
      · simp only [hu, hv, if_true, if_false] at he
        exact (hmono he).trans (hedge.symm.trans (hmono hv.symm))
      · simp only [hu, hv, if_false] at he
        exact hmono he

theorem component_label_iff (T : List Edge) (u v : Nat) :
    Reach T u v ↔ component_label T u = component_label T v := by
  induction T generalizing u v with
  | nil =>
    simp only [component_label]
    constructor
    · intro hr
      rcases hr.endpoints with e | ⟨⟨e, he, _⟩, _⟩
      · exact e
      · exact absurd he (List.not_mem_nil _)
    · intro e
      rw [e]
      exact Reach.refl _ _
  | cons e T ih =>
    obtain ⟨a, b, w⟩ := e
    simp only [component_label]
    exact reach_cons_iff T (component_label T) ih a b w u v

/-- The connectivity test of the reference decides whether a walk exists. -/
theorem connected_by_iff (T : List Edge) (u v : Nat) :
    connected_by T u v = true ↔ Reach T u v := by
  rw [component_label_iff]
  simp [connected_by]

theorem reach_reverse (T : List Edge) (u v : Nat) : Reach T.reverse u v ↔ Reach T u v :=
  ⟨Reach.mono (fun _ he => List.mem_reverse.1 he),
   Reach.mono (fun _ he => List.mem_reverse.2 he)⟩

theorem greedyScan_all_joined (n : Nat) (es T K : List Edge) (hscan : GreedyScan n es T K)
    (h : ∀ e ∈ es, Reach T e.1 e.2.1) : K = T := by
  induction hscan with
  | done T => rfl
  | skip e es T K _ _ ih => exact ih (fun x hx => h x (List.mem_cons_of_mem _ hx))
  | stop e es T hr _ => exact absurd (h e (List.mem_cons_self _ _)) hr
  | take e es T K hr _ _ _ => exact absurd (h e (List.mem_cons_self _ _)) hr

theorem full_forest_joins (V : List Nat) (T : List Edge) (hF : ForestList T)
    (hT : ∀ e ∈ T, e.1 ∈ V ∧ e.2.1 ∈ V) (hlen : T.length = V.length - 1)
    (a b : Nat) (ha : a ∈ V) (hb : b ∈ V) : Reach T a b := by
  have hpos : 0 < V.length := List.length_pos_of_mem ha
  exact forest_full_spanning V T hF hT (by omega) a ha b hb

theorem reference_scan_full (n : Nat) (es taken : List Edge) (h : taken.length = n - 1) :
    reference_scan n es taken = taken := by
  cases es with
  | nil => rfl
  | cons e es => simp [reference_scan, h]

/-- The reference scan takes the edges that the relational greedy scan takes,
as long as the edges taken so far form a forest on the nodes. -/
theorem greedyScan_reference (V : List Nat) (es T K : List Edge)
    (hscan : GreedyScan V.length es T K)
    (hes : ∀ e ∈ es, e.1 ∈ V ∧ e.2.1 ∈ V) (hT : ∀ e ∈ T, e.1 ∈ V ∧ e.2.1 ∈ V)
    (hF : ForestList T) :
    reference_scan V.length es T.reverse = K.reverse := by
  induction hscan with
  | done T => rfl
  | skip e es T K hr hrest ih =>
    have hes2 : ∀ x ∈ es, x.1 ∈ V ∧ x.2.1 ∈ V := fun x hx => hes x (List.mem_cons_of_mem _ hx)
    by_cases hfull : T.length = V.length - 1
    · have hK : K = T := greedyScan_all_joined _ es T K hrest (fun x hx =>
        full_forest_joins V T hF hT hfull _ _ (hes2 x hx).1 (hes2 x hx).2)
      rw [hK]
      exact reference_scan_full _ _ _ (by rw [List.length_reverse]; exact hfull)
    · have hc : connected_by T.reverse e.1 e.2.1 = true :=
        (connected_by_iff _ _ _).2 ((reach_reverse T _ _).2 hr)
      rw [reference_scan]
      simp only [List.length_reverse, hfull, if_false, hc, if_true]
      exact ih hes2 hT hF
  | stop e es T hr hlen =>
    have hfull : ¬ T.length = V.length - 1 := by omega
    have hc : ¬ connected_by T.reverse e.1 e.2.1 = true := fun h =>
      hr ((reach_reverse T _ _).1 ((connected_by_iff _ _ _).1 h))
    rw [reference_scan]
    simp only [List.length_reverse, hfull, if_false, hc, List.reverse_cons]
    exact reference_scan_full _ _ _ (by simp; omega)
  | take e es T K hr hlen hrest ih =>
    have he := hes e (List.mem_cons_self _ _)
    have hfull : ¬ T.length = V.length - 1 := fun h =>
      hr (full_forest_joins V T hF hT h _ _ he.1 he.2)
    have hc : ¬ connected_by T.reverse e.1 e.2.1 = true := fun h =>
      hr ((reach_reverse T _ _).1 ((connected_by_iff _ _ _).1 h))
    rw [reference_scan]
    simp only [List.length_reverse, hfull, if_false, hc]
    have := ih (fun x hx => hes x (List.mem_cons_of_mem _ hx))
      (by
        intro x hx
        rcases List.mem_cons.1 hx with rfl | hx
        · exact he
        · exact hT x hx)
      ⟨hr, hF⟩
    rw [List.reverse_cons] at this
    exact this

theorem insert_by_weight_orderedInsert (x a : Edge) (acc : List Edge) :
    insert_by_weight x (List.orderedInsert (fun a b : Edge => a.2.2 ≤ b.2.2) a acc)
      = List.orderedInsert (fun a b : Edge => a.2.2 ≤ b.2.2) a (insert_by_weight x acc) := by
  induction acc with
  | nil =>
    simp only [List.orderedInsert, insert_by_weight]
    by_cases h : x.2.2 < a.2.2
    · have h2 : ¬ a.2.2 ≤ x.2.2 := by omega
      simp [h, h2, List.orderedInsert]
    · have h2 : a.2.2 ≤ x.2.2 := by omega
      simp [h, h2, List.orderedInsert]
  | cons b acc ih =>
    by_cases hab : a.2.2 ≤ b.2.2
    · by_cases hxa : x.2.2 < a.2.2
      · have hxb : x.2.2 < b.2.2 := by omega
        have hax : ¬ a.2.2 ≤ x.2.2 := by omega
        simp [List.orderedInsert, insert_by_weight, hab, hxa, hxb, hax]
      · by_cases hxb : x.2.2 < b.2.2
        · have hax : a.2.2 ≤ x.2.2 := by omega
          simp [List.orderedInsert, insert_by_weight, hab, hxa, hxb, hax]
        · simp [List.orderedInsert, insert_by_weight, hab, hxa, hxb]
    · by_cases hxb : x.2.2 < b.2.2
      · have hax : ¬ a.2.2 ≤ x.2.2 := by omega
        simp [List.orderedInsert, insert_by_weight, hab, hxb, hax]
      · simp [List.orderedInsert, insert_by_weight, hab, hxb, ih]

theorem stable_sort_fold_orderedInsert (l : List Edge) (a : Edge) (acc : List Edge) :
    l.foldl (fun sorted x => insert_by_weight x sorted)
        (List.orderedInsert (fun a b : Edge => a.2.2 ≤ b.2.2) a acc)
      = List.orderedInsert (fun a b : Edge => a.2.2 ≤ b.2.2) a
          (l.foldl (fun sorted x => insert_by_weight x sorted) acc) := by
  induction l generalizing acc with
  | nil => rfl
  | cons x l ih =>
    rw [List.foldl_cons, List.foldl_cons, insert_by_weight_orderedInsert, ih]

/-- The sort of the embedding is the stable insertion sort by weight. -/
theorem stable_sort_eq_insertionSort (l : List Edge) :
    stable_sort l = List.insertionSort (fun a b : Edge => a.2.2 ≤ b.2.2) l := by
  induction l with
  | nil => rfl
  | cons a l ih =>
    rw [List.insertionSort, ← ih]
    unfold stable_sort
    rw [List.foldl_cons]
    have : insert_by_weight a [] = List.orderedInsert (fun a b : Edge => a.2.2 ≤ b.2.2) a [] :=
      rfl
    rw [this, stable_sort_fold_orderedInsert]

theorem collect_edges_eq_reference (graph : GRAPH) :
    collect_edges graph = reference_edges graph := by
  unfold reference_edges
  induction graph with
  | nil => rfl
  | cons p g ih =>
    rw [collect_edges_cons, all_edges_cons, List.filter_append, ih, List.filter_map]
    rfl

/-- The run of `Kluskal` against the reference: the edges it takes, in the
order it takes them, are those of the reference selection. -/
theorem Kluskal_run_reference (graph : GRAPH) (hwf : WellFormedGraph graph) :
    (∀ e ∈ reference_selection graph, e ∈ collect_edges graph)
    ∧ ∀ fuel, (collect_edges graph).length + 1 ≤ fuel →
        Kluskal fuel graph = some ((reference_selection graph).foldl push_edge []) := by
  obtain ⟨new, hscan, hmem, hrun⟩ := Kluskal_run graph hwf
  have hmemE : ∀ e, e ∈ stable_sort (collect_edges graph) ↔ e ∈ collect_edges graph :=
    fun e => (stable_sort_perm _).mem_iff
  have href := greedyScan_reference (nodes_of graph) (stable_sort (collect_edges graph)) []
    new.reverse hscan
    (fun e he => wellFormed_endpoints graph hwf e (collect_edges_mem graph e ((hmemE e).1 he)).1)
    (by simp) trivial
  have hsel : reference_selection graph = new := by
    unfold reference_selection
    rw [← collect_edges_eq_reference, ← stable_sort_eq_insertionSort]
    simpa using href
  rw [hsel]
  exact ⟨hmem, hrun⟩

/-- C18: on a well-formed graph the edges selected by `Kluskal` with its
union-find are exactly those of the reference greedy scan (edges with
`v1 < v2` listed by node key and adjacency order, stably sorted by weight,
an edge taken exactly when its endpoints are not yet connected by the edges
taken, stopping at `|nodes| - 1` edges); on the triangle with unit weights
these are `(1,2)` and `(1,3)`. -/
theorem Kluskal_refines_reference (graph : GRAPH) (hwf : WellFormedGraph graph) :
    (∃ out : GRAPH,
      (∀ fuel, (collect_edges graph).length + 1 ≤ fuel → Kluskal fuel graph = some out)
      ∧ out = (reference_selection graph).foldl push_edge []
      ∧ List.Perm (collect_edges out) (reference_selection graph))
    ∧ reference_selection triangle = [(1, 2, 1), (1, 3, 1)]
    ∧ Kluskal 4 triangle = some [(1, [(2, 1), (3, 1)]), (2, [(1, 1)]), (3, [(1, 1)])] := by
  refine ⟨?_, by decide, by decide⟩
  obtain ⟨hmem, hrun⟩ := Kluskal_run_reference graph hwf
  refine ⟨_, hrun, rfl, ?_⟩
  have := collect_edges_fold (reference_selection graph) []
    (fun e he => (collect_edges_mem graph e (hmem e he)).2)
  have h2 : collect_edges ([] : GRAPH) = [] := rfl
  rw [h2, List.append_nil] at this
  exact this

/-- Witness for C18: the triangle with unit weights. -/
theorem Kluskal_refines_reference_witness :
    WellFormedGraph triangle
    ∧ ∃ out : GRAPH,
      (∀ fuel, (collect_edges triangle).length + 1 ≤ fuel → Kluskal fuel triangle = some out)
      ∧ out = (reference_selection triangle).foldl push_edge []
      ∧ List.Perm (collect_edges out) (reference_selection triangle) :=
  ⟨by decide, (Kluskal_refines_reference triangle (by decide)).1⟩

/-! ## Chromosome splitting -/

theorem read_lt {P : Type} (store : RecordStore P) (p : RecordPtr) (r : FamilyRecord P)
    (h : store.read p = some r) : p < store.cells.length := by
  unfold RecordStore.read at h
  by_contra hlt
  have hnone : store.cells[p]? = none := List.getElem?_eq_none (Nat.le_of_not_lt hlt)
  rw [hnone] at h
  exact absurd h (by simp)

theorem read_append {P : Type} (store : RecordStore P) (xs : List (FamilyRecord P))
    (p : RecordPtr) (h : p < store.cells.length) :
    RecordStore.read { cells := store.cells ++ xs } p = store.read p := by
  unfold RecordStore.read
  exact List.getElem?_append_left h

theorem read_new {P : Type} (store : RecordStore P) (x : FamilyRecord P) :
    RecordStore.read { cells := store.cells ++ [x] } store.cells.length = some x := by
  unfold RecordStore.read
  simp

theorem copy_eq {P : Type} (store : RecordStore P) (p : RecordPtr) (r : FamilyRecord P)
    (h : store.read p = some r) :
    store.copy p = some ({ cells := store.cells ++ [r] }, store.cells.length) := by
  unfold RecordStore.copy
  rw [h]

theorem map_read_valid {P : Type} (store : RecordStore P) (ps : List RecordPtr)
    (ds : List (FamilyRecord P)) (h : ps.map store.read = ds.map some) :
    ∀ p ∈ ps, p < store.cells.length := by
  intro p hp
  have hm : store.read p ∈ ps.map store.read := List.mem_map_of_mem _ hp
  rw [h] at hm
  obtain ⟨d, _, hd⟩ := List.mem_map.1 hm
  exact read_lt store p d hd.symm

theorem map_read_append {P : Type} (store : RecordStore P) (xs : List (FamilyRecord P))
    (ps : List RecordPtr) (h : ∀ p ∈ ps, p < store.cells.length) :
    ps.map (RecordStore.read { cells := store.cells ++ xs }) = ps.map store.read := by
  apply List.map_congr_left
  intro p hp
  exact read_append store xs p (h p hp)

theorem records_view_append {P M : Type} (store : RecordStore P) (xs : List (FamilyRecord P))
    (vcfs : List (VCFHeteroHomo RecordPtr M))
    (h : ∀ v ∈ vcfs, ∀ q ∈ v.records, q < store.cells.length) :
    records_view { cells := store.cells ++ xs } vcfs = records_view store vcfs := by
  unfold records_view
  apply List.map_congr_left
  intro v hv
  exact map_read_append store xs v.records (h v hv)

theorem divide_loop_cons_flush {P M : Type} (chrom : P → String) (header : List (List String))
    (samples : List String) (chr_maps : List M) (p : RecordPtr) (ps : List RecordPtr)
    (store : RecordStore P) (vcfs : List (VCFHeteroHomo RecordPtr M)) (iter : Nat)
    (prev : String) (rs : List RecordPtr) (d : FamilyRecord P) (m : M)
    (hread : store.read p = some d) (hc : chrom d.properties ≠ prev) (hrs : rs ≠ [])
    (hm : chr_maps[iter]? = some m) :
    divide_loop chrom header samples chr_maps (p :: ps) store vcfs iter prev rs
      = divide_loop chrom header samples chr_maps ps { cells := store.cells ++ [d] }
          (vcfs ++ [VCFHeteroHomo.mk header samples rs (m)])
          (iter + 1) (chrom d.properties) [store.cells.length] := by
  rw [divide_loop]
  simp only [hread, copy_eq store p d hread, hm, hc, hrs, ne_eq, not_false_eq_true, and_self,
    if_true, List.nil_append]

theorem divide_loop_cons_keep {P M : Type} (chrom : P → String) (header : List (List String))
    (samples : List String) (chr_maps : List M) (p : RecordPtr) (ps : List RecordPtr)
    (store : RecordStore P) (vcfs : List (VCFHeteroHomo RecordPtr M)) (iter : Nat)
    (prev : String) (rs : List RecordPtr) (d : FamilyRecord P)
    (hread : store.read p = some d) (hc : ¬ (chrom d.properties ≠ prev ∧ rs ≠ [])) :
    divide_loop chrom header samples chr_maps (p :: ps) store vcfs iter prev rs
      = divide_loop chrom header samples chr_maps ps { cells := store.cells ++ [d] }
          vcfs iter (chrom d.properties) (rs ++ [store.cells.length]) := by
  rw [divide_loop]
  have hprev : (if chrom d.properties ≠ prev then chrom d.properties else prev)
      = chrom d.properties := by
    by_cases h : chrom d.properties = prev
    · simp [h]
    · simp [h]
  simp only [hread, copy_eq store p d hread, hc, if_false, hprev]

theorem divide_loop_spec {P M : Type} (chrom : P → String) (header : List (List String))
    (samples : List String) (chr_maps : List M) (ps : List RecordPtr) :
    ∀ (store : RecordStore P) (vcfs : List (VCFHeteroHomo RecordPtr M)) (iter : Nat)
      (prev : String) (rs : List RecordPtr) (ds rsd : List (FamilyRecord P)),
      ps.map store.read = ds.map some → rs.map store.read = rsd.map some →
      (∀ v ∈ vcfs, ∀ q ∈ v.records, q < store.cells.length) →
      iter + (split_runs (fun r : FamilyRecord P => chrom r.properties) ds prev rsd).length
        ≤ chr_maps.length →
      ∃ store2 vcfs2,
        divide_loop chrom header samples chr_maps ps store vcfs iter prev rs
          = some (store2, vcfs2)
        ∧ store2.cells = store.cells ++ ds
        ∧ records_view store2 vcfs2 = records_view store vcfs
            ++ (split_runs (fun r : FamilyRecord P => chrom r.properties) ds prev rsd).map
                 (List.map some)
        ∧ (∀ v ∈ vcfs2, ∀ q ∈ v.records,
            (∃ v0 ∈ vcfs, q ∈ v0.records) ∨ q ∈ rs ∨ store.cells.length ≤ q) := by
  induction ps with
  | nil =>
    intro store vcfs iter prev rs ds rsd hps hrs hvcfs hmaps
    have hds : ds = [] := by
      cases ds with
      | nil => rfl
      | cons d ds => simp at hps
    subst hds
    simp only [split_runs, List.length_singleton] at hmaps
    have hlt : iter < chr_maps.length := by omega
    refine ⟨store, vcfs ++ [VCFHeteroHomo.mk header samples rs (chr_maps[iter])], ?_, by simp, ?_, ?_⟩
    · simp [divide_loop, List.getElem?_eq_getElem hlt]
    · simp [records_view, split_runs, hrs]
    · intro v hv q hq
      rcases List.mem_append.1 hv with hv | hv
      · exact Or.inl ⟨v, hv, hq⟩
      · rw [List.mem_singleton.1 hv] at hq
        exact Or.inr (Or.inl hq)
  | cons p ps ih =>
    intro store vcfs iter prev rs ds rsd hps hrs hvcfs hmaps
    cases ds with
    | nil => simp at hps
    | cons d ds =>
      simp only [List.map_cons, List.cons.injEq] at hps
      obtain ⟨hread, hps2⟩ := hps
      have hpsv := map_read_valid store ps ds hps2
      have hrsv := map_read_valid store rs rsd hrs
      have hlen : rs.length = rsd.length := by
        have := congrArg List.length hrs
        simpa using this
      have hps3 : ps.map (RecordStore.read { cells := store.cells ++ [d] }) = ds.map some := by
        rw [map_read_append store [d] ps hpsv]; exact hps2
      by_cases hc : chrom d.properties ≠ prev ∧ rs ≠ []
      · have hc2 : chrom d.properties ≠ prev ∧ rsd.length ≠ 0 := by
          refine ⟨hc.1, ?_⟩
          rw [← hlen]
          exact fun h => hc.2 (List.length_eq_zero.1 h)
        have hsplit : split_runs (fun r : FamilyRecord P => chrom r.properties) (d :: ds) prev rsd
            = rsd :: split_runs (fun r : FamilyRecord P => chrom r.properties) ds
                (chrom d.properties) [d] := by
          rw [split_runs]; simp only [hc2, ne_eq, not_false_eq_true, and_self, if_true]
        rw [hsplit] at hmaps ⊢
        simp only [List.length_cons] at hmaps
        have hlt : iter < chr_maps.length := by omega
        rw [divide_loop_cons_flush chrom header samples chr_maps p ps store vcfs iter prev rs d
          chr_maps[iter] hread hc.1 hc.2 (List.getElem?_eq_getElem hlt)]
        have hold : ∀ v ∈ vcfs ++ [VCFHeteroHomo.mk header samples rs (chr_maps[iter])],
            ∀ q ∈ v.records, q < (RecordStore.mk (store.cells ++ [d])).cells.length := by
          intro v hv q hq
          show q < (store.cells ++ [d]).length
          rw [List.length_append, List.length_singleton]
          rcases List.mem_append.1 hv with hv | hv
          · exact Nat.lt_add_right 1 (hvcfs v hv q hq)
          · rw [List.mem_singleton.1 hv] at hq
            exact Nat.lt_add_right 1 (hrsv q hq)
        have hnew : [store.cells.length].map (RecordStore.read { cells := store.cells ++ [d] })
            = [d].map some := by simp [read_new]
        have hmaps2 : iter + 1 + (split_runs (fun r : FamilyRecord P => chrom r.properties) ds
            (chrom d.properties) [d]).length ≤ chr_maps.length := by omega
        obtain ⟨store2, vcfs2, hrun, hcells, hview, hfresh⟩ := ih { cells := store.cells ++ [d] }
          (vcfs ++ [VCFHeteroHomo.mk header samples rs (chr_maps[iter])]) (iter + 1)
          (chrom d.properties) [store.cells.length] ds [d] hps3 hnew hold hmaps2
        refine ⟨store2, vcfs2, hrun, ?_, ?_, ?_⟩
        · rw [hcells]; simp
        · rw [hview]
          have hv1 : records_view { cells := store.cells ++ [d] }
              (vcfs ++ [VCFHeteroHomo.mk header samples rs (chr_maps[iter])])
              = records_view store vcfs ++ [rsd.map some] := by
            unfold records_view
            rw [List.map_append]
            congr 1
            · exact records_view_append store [d] vcfs hvcfs
            · simp only [List.map_cons, List.map_nil]
              rw [map_read_append store [d] rs hrsv, hrs]
          rw [hv1]
          simp
        · intro v hv q hq
          rcases hfresh v hv q hq with ⟨v0, hv0, hq0⟩ | hq1 | hq2
          · rcases List.mem_append.1 hv0 with hv0 | hv0
            · exact Or.inl ⟨v0, hv0, hq0⟩
            · rw [List.mem_singleton.1 hv0] at hq0
              exact Or.inr (Or.inl hq0)
          · rw [List.mem_singleton.1 hq1]
            exact Or.inr (Or.inr (le_refl store.cells.length))
          · have hq3 : (store.cells ++ [d]).length ≤ q := hq2
            rw [List.length_append, List.length_singleton] at hq3
            exact Or.inr (Or.inr (Nat.le_of_succ_le hq3))
      · have hc2 : ¬ (chrom d.properties ≠ prev ∧ rsd.length ≠ 0) := by
          intro h
          apply hc
          refine ⟨h.1, ?_⟩
          intro hnil
          rw [hnil] at hlen
          exact h.2 hlen.symm
        have hsplit : split_runs (fun r : FamilyRecord P => chrom r.properties) (d :: ds) prev rsd
            = split_runs (fun r : FamilyRecord P => chrom r.properties) ds
                (chrom d.properties) (rsd ++ [d]) := by
          rw [split_runs]; simp only [hc2, if_false]
        rw [hsplit] at hmaps ⊢
        rw [divide_loop_cons_keep chrom header samples chr_maps p ps store vcfs iter prev rs d
          hread hc]
        have hold : ∀ v ∈ vcfs, ∀ q ∈ v.records,
            q < (RecordStore.mk (store.cells ++ [d])).cells.length := by
          intro v hv q hq
          show q < (store.cells ++ [d]).length
          rw [List.length_append, List.length_singleton]
          exact Nat.lt_add_right 1 (hvcfs v hv q hq)
        have hnew : (rs ++ [store.cells.length]).map
            (RecordStore.read { cells := store.cells ++ [d] }) = (rsd ++ [d]).map some := by
          rw [List.map_append, List.map_append, map_read_append store [d] rs hrsv, hrs]
          simp [read_new]
        obtain ⟨store2, vcfs2, hrun, hcells, hview, hfresh⟩ := ih { cells := store.cells ++ [d] }
          vcfs iter (chrom d.properties) (rs ++ [store.cells.length]) ds (rsd ++ [d]) hps3
          hnew hold hmaps
        refine ⟨store2, vcfs2, hrun, ?_, ?_, ?_⟩
        · rw [hcells]; simp
        · rw [hview, records_view_append store [d] vcfs hvcfs]
        · intro v hv q hq
          rcases hfresh v hv q hq with h0 | hq1 | hq2
          · exact Or.inl h0
          · rcases List.mem_append.1 hq1 with hq1 | hq1
            · exact Or.inr (Or.inl hq1)
            · rw [List.mem_singleton.1 hq1]
              exact Or.inr (Or.inr le_rfl)
          · have hq3 : (store.cells ++ [d]).length ≤ q := hq2
            rw [List.length_append, List.length_singleton] at hq3
            exact Or.inr (Or.inr (Nat.le_of_succ_le hq3))

theorem split_runs_flatten {α : Type} (key : α → String) (xs : List α) (prev : String)
    (rs : List α) : (split_runs key xs prev rs).flatten = rs ++ xs := by
  induction xs generalizing prev rs with
  | nil => simp [split_runs]
  | cons x xs ih =>
    rw [split_runs]
    split_ifs
    · rw [List.flatten_cons, ih]; simp
    · rw [ih]; simp

theorem split_runs_length {α : Type} (key : α → String) (xs : List α) (prev : String)
    (rs : List α) (hrs : rs.length ≠ 0) :
    (split_runs key xs prev rs).length = chromosome_runs (prev :: xs.map key) := by
  induction xs generalizing prev rs with
  | nil => simp [split_runs, chromosome_runs]
  | cons x xs ih =>
    rw [split_runs]
    by_cases hk : key x = prev
    · have hc : ¬ (key x ≠ prev ∧ rs.length ≠ 0) := fun h => h.1 hk
      rw [if_neg hc, ih (key x) (rs ++ [x]) (by simp)]
      simp [chromosome_runs, hk]
    · have hc : key x ≠ prev ∧ rs.length ≠ 0 := ⟨hk, hrs⟩
      rw [if_pos hc, List.length_cons, ih (key x) [x] (by simp)]
      have hk2 : ¬ prev = key x := fun e => hk e.symm
      simp [chromosome_runs, hk2]
      omega

theorem chromosome_runs_pos (c : String) (cs : List String) :
    1 ≤ chromosome_runs (c :: cs) := by
  induction cs generalizing c with
  | nil => simp [chromosome_runs]
  | cons d cs ih =>
    have := ih d
    simp only [chromosome_runs]
    omega

theorem split_runs_length_init {α : Type} (key : α → String) (xs : List α) :
    (split_runs key xs "" []).length = max 1 (chromosome_runs (xs.map key)) := by
  cases xs with
  | nil => simp [split_runs, chromosome_runs]
  | cons x xs =>
    rw [split_runs]
    have hc : ¬ (key x ≠ "" ∧ ([] : List α).length ≠ 0) := fun h => h.2 rfl
    rw [if_neg hc, split_runs_length key xs (key x) ([] ++ [x]) (by simp)]
    have := chromosome_runs_pos (key x) (xs.map key)
    simp only [List.map_cons]
    omega

theorem exists_data {P : Type} (store : RecordStore P) (ps : List RecordPtr)
    (h : ∀ p ∈ ps, p < store.cells.length) :
    ∃ ds : List (FamilyRecord P), ps.map store.read = ds.map some := by
  induction ps with
  | nil => exact ⟨[], rfl⟩
  | cons p ps ih =>
    obtain ⟨ds, hds⟩ := ih (fun q hq => h q (List.mem_cons_of_mem _ hq))
    have hp := h p (List.mem_cons_self _ _)
    refine ⟨store.cells[p] :: ds, ?_⟩
    simp only [List.map_cons, hds]
    congr 1
    exact List.getElem?_eq_getElem hp

theorem record_chroms_eq {P : Type} (chrom : P → String) (store : RecordStore P)
    (ps : List RecordPtr) (ds : List (FamilyRecord P)) (h : ps.map store.read = ds.map some) :
    record_chroms chrom store ps = ds.map (fun r => chrom r.properties) := by
  induction ps generalizing ds with
  | nil =>
    cases ds with
    | nil => rfl
    | cons d ds => simp at h
  | cons p ps ih =>
    cases ds with
    | nil => simp at h
    | cons d ds =>
      simp only [List.map_cons, List.cons.injEq] at h
      have := ih ds h.2
      unfold record_chroms at this ⊢
      simp only [List.filterMap_cons, h.1, Option.map_some', List.map_cons, this]

theorem flatMap_records_map {P M : Type} (store : RecordStore P)
    (vcfs : List (VCFHeteroHomo RecordPtr M)) :
    (vcfs.flatMap (fun v => v.records)).map store.read = (records_view store vcfs).flatten := by
  induction vcfs with
  | nil => rfl
  | cons v vcfs ih =>
    rw [List.flatMap_cons, List.map_append, ih]
    rfl

/-- C11: when the map list has an entry for every chromosome run of the
records (and at least one entry, for the VCF that is always built last),
`divide_into_chromosomes` returns VCFs whose record sequences, concatenated
in output order, equal the input's record sequence record for record; the
objects of the input are left as they are, and every output record is a new
object. -/
theorem divide_into_chromosomes_concat {P M : Type} (chrom : P → String) (chr_maps : List M)
    (store : RecordStore P) (vcf : VCFHeteroHomo RecordPtr M)
    (hvalid : ∀ p ∈ vcf.records, p < store.cells.length)
    (hruns : chromosome_runs (record_chroms chrom store vcf.records) ≤ chr_maps.length)
    (hone : 0 < chr_maps.length) :
    ∃ store2 vcfs, divide_into_chromosomes chrom chr_maps store vcf = some (store2, vcfs)
      ∧ (vcfs.flatMap (fun v => v.records)).map store2.read = vcf.records.map store.read
      ∧ (∀ p, p < store.cells.length → store2.read p = store.read p)
      ∧ (∀ v ∈ vcfs, ∀ q ∈ v.records, store.cells.length ≤ q) := by
  obtain ⟨ds, hds⟩ := exists_data store vcf.records hvalid
  rw [record_chroms_eq chrom store vcf.records ds hds] at hruns
  obtain ⟨store2, vcfs, hrun, hcells, hview, hfresh⟩ :=
    divide_loop_spec chrom vcf.header vcf.samples chr_maps vcf.records store [] 0 "" [] ds []
      hds rfl (by simp) (by
        rw [split_runs_length_init]
        omega)
  refine ⟨store2, vcfs, hrun, ?_, ?_, ?_⟩
  · rw [flatMap_records_map, hview]
    simp only [records_view, List.map_nil, List.nil_append]
    rw [← List.map_flatten, split_runs_flatten, List.nil_append, hds]
  · intro p hp
    have : store2 = { cells := store.cells ++ ds } := by
      cases store2
      simp only at hcells
      rw [hcells]
    rw [this]
    exact read_append store ds p hp
  · intro v hv q hq
    rcases hfresh v hv q hq with ⟨v0, hv0, _⟩ | hq1 | hq2
    · exact absurd hv0 (List.not_mem_nil _)
    · exact absurd hq1 (List.not_mem_nil _)
    · exact hq2

theorem grouped_suffix (l1 l2 : List String) (h : Grouped (l1 ++ l2)) : Grouped l2 := by
  induction l1 with
  | nil => exact h
  | cons c l1 ih => exact ih h.2

theorem mem_first_occurrences (c : String) (l : List String) :
    c ∈ first_occurrences l ↔ c ∈ l := by
  induction l with
  | nil => simp [first_occurrences]
  | cons d l ih =>
    simp only [first_occurrences, List.mem_cons, List.mem_filter, ih, decide_eq_true_eq]
    constructor
    · rintro (h | ⟨h, _⟩)
      · exact Or.inl h
      · exact Or.inr h
    · intro h
      by_cases hcd : c = d
      · exact Or.inl hcd
      · rcases h with h | h
        · exact absurd h hcd
        · exact Or.inr ⟨h, hcd⟩

theorem first_occurrences_const_append (c : String) (rs M : List String) (hrs : rs ≠ [])
    (hall : ∀ y ∈ rs, y = c) (hM : c ∉ M) :
    first_occurrences (rs ++ M) = c :: first_occurrences M := by
  have hfilter : (first_occurrences M).filter (fun d => decide (d ≠ c)) = first_occurrences M := by
    rw [List.filter_eq_self]
    intro d hd
    have : d ∈ M := (mem_first_occurrences d M).1 hd
    simpa using fun e : d = c => hM (e ▸ this)
  induction rs with
  | nil => exact absurd rfl hrs
  | cons r rs ih =>
    have hr : r = c := hall r (List.mem_cons_self _ _)
    subst hr
    by_cases hnil : rs = []
    · subst hnil
      show first_occurrences (r :: M) = r :: first_occurrences M
      rw [first_occurrences, hfilter]
    · have := ih hnil (fun y hy => hall y (List.mem_cons_of_mem _ hy))
      show first_occurrences (r :: (rs ++ M)) = r :: first_occurrences M
      rw [first_occurrences, this, List.filter_cons_of_neg (by simp), hfilter]

theorem not_mem_after_change (l1 : List String) (c d : String) (l2 : List String)
    (h : Grouped (l1 ++ c :: d :: l2)) (hcd : c ≠ d) : c ∉ d :: l2 := by
  have h2 := grouped_suffix l1 _ h
  intro hmem
  have := h2.1 hmem
  simp only [List.head?_cons, Option.some.injEq] at this
  exact hcd this.symm

theorem split_runs_grouped {α : Type} (key : α → String) (xs : List α) :
    ∀ (prev : String) (rs : List α), rs ≠ [] → (∀ y ∈ rs, key y = prev) →
      Grouped ((rs ++ xs).map key) →
      split_runs key xs prev rs = (first_occurrences ((rs ++ xs).map key)).map
        (fun c => (rs ++ xs).filter (fun y => decide (key y = c))) := by
  induction xs with
  | nil =>
    intro prev rs hrs hall _
    have hfo : first_occurrences (rs.map key ++ []) = prev :: first_occurrences [] :=
      first_occurrences_const_append prev (rs.map key) [] (by simpa using hrs)
        (by
          intro y hy
          obtain ⟨z, hz, rfl⟩ := List.mem_map.1 hy
          exact hall z hz)
        (List.not_mem_nil _)
    rw [List.append_nil] at hfo ⊢
    rw [hfo]
    simp only [split_runs, first_occurrences, List.map_cons, List.map_nil, List.cons.injEq,
      and_true]
    symm
    rw [List.filter_eq_self]
    intro y hy
    simpa using hall y hy
  | cons x xs ih =>
    intro prev rs hrs hall hg
    rw [split_runs]
    by_cases hk : key x = prev
    · have hc : ¬ (key x ≠ prev ∧ rs.length ≠ 0) := fun h => h.1 hk
      rw [if_neg hc]
      have := ih (key x) (rs ++ [x]) (by simp)
        (by
          intro y hy
          rcases List.mem_append.1 hy with hy | hy
          · rw [hall y hy, hk]
          · rw [List.mem_singleton.1 hy])
        (by simpa using hg)
      simpa using this
    · have hlen : rs.length ≠ 0 := fun h => hrs (List.length_eq_zero.1 h)
      have hc : key x ≠ prev ∧ rs.length ≠ 0 := ⟨hk, hlen⟩
      rw [if_pos hc]
      have hlast : rs.map key = (rs.map key).dropLast ++ [prev] := by
        have hne : rs.map key ≠ [] := by simpa using hrs
        have h1 := (List.dropLast_append_getLast hne).symm
        have h2 : (rs.map key).getLast hne = prev := by
          have hm := List.getLast_mem hne
          obtain ⟨z, hz, hzk⟩ := List.mem_map.1 hm
          rw [← hzk]; exact hall z hz
        rw [h2] at h1
        exact h1
      have hg2 : Grouped ((rs.map key).dropLast ++ prev :: key x :: xs.map key) := by
        have : (rs ++ x :: xs).map key
            = (rs.map key).dropLast ++ prev :: key x :: xs.map key := by
          rw [List.map_append, List.map_cons]
          conv_lhs => rw [hlast]
          simp
        rw [← this]; exact hg
      have hnot : prev ∉ (x :: xs).map key := by
        have := not_mem_after_change _ prev (key x) (xs.map key) hg2 (fun e => hk e.symm)
        simpa using this
      have hfo : first_occurrences ((rs ++ x :: xs).map key)
          = prev :: first_occurrences ((x :: xs).map key) := by
        rw [List.map_append]
        exact first_occurrences_const_append prev (rs.map key) _ (by simpa using hrs)
          (by
            intro y hy
            obtain ⟨z, hz, rfl⟩ := List.mem_map.1 hy
            exact hall z hz)
          hnot
      have hih := ih (key x) [x] (by simp) (by simp)
        (by
          have := grouped_suffix (rs.map key) ((x :: xs).map key) (by
            rw [← List.map_append]; exact hg)
          simpa using this)
      rw [List.singleton_append] at hih
      rw [hfo, List.map_cons, hih]
      congr 1
      · symm
        rw [List.filter_append]
        have h1 : rs.filter (fun y => decide (key y = prev)) = rs := by
          rw [List.filter_eq_self]
          intro y hy
          simpa using hall y hy
        have h2 : (x :: xs).filter (fun y => decide (key y = prev)) = [] := by
          rw [List.filter_eq_nil_iff]
          intro y hy
          have : key y ≠ prev := fun e => hnot (e ▸ List.mem_map_of_mem key hy)
          simpa using this
        rw [h1, h2, List.append_nil]
      · apply List.map_congr_left
        intro c hc
        have hcm : c ∈ (x :: xs).map key := by
          have := (mem_first_occurrences c _).1 hc
          simpa using this
        have hcp : c ≠ prev := fun e => hnot (e ▸ hcm)
        rw [List.filter_append]
        have h1 : rs.filter (fun y => decide (key y = c)) = [] := by
          rw [List.filter_eq_nil_iff]
          intro y hy
          have : key y ≠ c := by rw [hall y hy]; exact fun e => hcp e.symm
          simpa using this
        rw [h1]
        simp

theorem divide_into_chromosomes_concat_witness :
    (∀ p ∈ scenario_vcf.records, p < scenario_store.cells.length)
    ∧ chromosome_runs (record_chroms id scenario_store scenario_vcf.records) ≤ [1, 2].length
    ∧ 0 < [1, 2].length
    ∧ ∃ store2 vcfs,
        divide_into_chromosomes id [1, 2] scenario_store scenario_vcf = some (store2, vcfs)
      ∧ (vcfs.flatMap (fun v => v.records)).map store2.read
          = scenario_vcf.records.map scenario_store.read
      ∧ (∀ p, p < scenario_store.cells.length → store2.read p = scenario_store.read p)
      ∧ (∀ v ∈ vcfs, ∀ q ∈ v.records, scenario_store.cells.length ≤ q) :=
  ⟨by decide, by decide, by decide,
    divide_into_chromosomes_concat id [1, 2] scenario_store scenario_vcf
      (by decide) (by decide) (by decide)⟩

theorem first_occurrences_nodup (l : List String) : (first_occurrences l).Nodup := by
  induction l with
  | nil => simp [first_occurrences]
  | cons c l ih =>
    rw [first_occurrences, List.nodup_cons]
    refine ⟨?_, ih.filter _⟩
    simp [List.mem_filter]

theorem filter_map_some {P : Type} (chrom : P → String) (c : String)
    (ds : List (FamilyRecord P)) :
    (ds.map some).filter (fun r => decide (r.map (fun x => chrom x.properties) = some c))
      = (ds.filter (fun y => decide (chrom y.properties = c))).map some := by
  induction ds with
  | nil => rfl
  | cons d ds ih =>
    simp only [List.map_cons, List.filter_cons, Option.map_some', Option.some.injEq, ih]
    by_cases h : chrom d.properties = c
    · simp [h]
    · simp [h]

theorem records_on_eq {P : Type} (chrom : P → String) (store : RecordStore P)
    (ps : List RecordPtr) (ds : List (FamilyRecord P)) (h : ps.map store.read = ds.map some)
    (c : String) :
    records_on chrom store ps c
      = (ds.filter (fun y => decide (chrom y.properties = c))).map some := by
  unfold records_on
  rw [h, filter_map_some]

theorem split_runs_init_grouped {α : Type} (key : α → String) (xs : List α) (hne : xs ≠ [])
    (hg : Grouped (xs.map key)) :
    split_runs key xs "" [] = (first_occurrences (xs.map key)).map
      (fun c => xs.filter (fun y => decide (key y = c))) := by
  cases xs with
  | nil => exact absurd rfl hne
  | cons x xs =>
    rw [split_runs]
    have hc : ¬ (key x ≠ "" ∧ ([] : List α).length ≠ 0) := fun h => h.2 rfl
    rw [if_neg hc]
    have := split_runs_grouped key xs (key x) [x] (by simp) (by simp) (by simpa using hg)
    simpa using this

/-- C12: for a non-empty VCF whose records are grouped by chromosome (and a
map list with an entry for every chromosome run),
`divide_into_chromosomes` returns one VCF per distinct chromosome identifier
in order of first occurrence, the VCF of an identifier holding exactly the
records of the input on that chromosome, in input order; no output is
empty. -/
theorem divide_into_chromosomes_grouped {P M : Type} (chrom : P → String) (chr_maps : List M)
    (store : RecordStore P) (vcf : VCFHeteroHomo RecordPtr M)
    (hvalid : ∀ p ∈ vcf.records, p < store.cells.length)
    (hne : vcf.records ≠ [])
    (hgrouped : Grouped (record_chroms chrom store vcf.records))
    (hruns : chromosome_runs (record_chroms chrom store vcf.records) ≤ chr_maps.length) :
    ∃ store2 vcfs, divide_into_chromosomes chrom chr_maps store vcf = some (store2, vcfs)
      ∧ records_view store2 vcfs
          = (first_occurrences (record_chroms chrom store vcf.records)).map
              (records_on chrom store vcf.records)
      ∧ (first_occurrences (record_chroms chrom store vcf.records)).Nodup
      ∧ (∀ c, c ∈ first_occurrences (record_chroms chrom store vcf.records)
            ↔ c ∈ record_chroms chrom store vcf.records)
      ∧ (∀ v ∈ vcfs, v.records ≠ []) := by
  obtain ⟨ds, hds⟩ := exists_data store vcf.records hvalid
  have hchr := record_chroms_eq chrom store vcf.records ds hds
  rw [hchr] at hruns hgrouped ⊢
  have hdne : ds ≠ [] := by
    intro h
    rw [h] at hds
    exact hne (List.map_eq_nil_iff.1 hds)
  obtain ⟨store2, vcfs, hrun, hcells, hview, hfresh⟩ :=
    divide_loop_spec chrom vcf.header vcf.samples chr_maps vcf.records store [] 0 "" [] ds []
      hds rfl (by simp) (by
        rw [split_runs_length_init]
        have : 1 ≤ chromosome_runs (ds.map (fun r => chrom r.properties)) := by
          cases ds with
          | nil => exact absurd rfl hdne
          | cons d ds => exact chromosome_runs_pos _ _
        omega)
  have hview2 : records_view store2 vcfs
      = (first_occurrences (ds.map (fun r => chrom r.properties))).map
          (records_on chrom store vcf.records) := by
    rw [hview, split_runs_init_grouped _ ds hdne hgrouped]
    simp only [records_view, List.map_nil, List.nil_append, List.map_map]
    apply List.map_congr_left
    intro c _
    rw [records_on_eq chrom store vcf.records ds hds c]
    rfl
  refine ⟨store2, vcfs, hrun, hview2, first_occurrences_nodup _,
    fun c => mem_first_occurrences c _, ?_⟩
  intro v hv hnil
  have hmem : v.records.map store2.read ∈ records_view store2 vcfs :=
    List.mem_map.2 ⟨v, hv, rfl⟩
  rw [hview2, hnil] at hmem
  obtain ⟨c, hc, hcz⟩ := List.mem_map.1 hmem
  have hcm := (mem_first_occurrences c _).1 hc
  rw [records_on_eq chrom store vcf.records ds hds c] at hcz
  obtain ⟨d, hd, hdc⟩ := List.mem_map.1 hcm
  have : d ∈ ds.filter (fun y => decide (chrom y.properties = c)) :=
    List.mem_filter.2 ⟨hd, by simpa using hdc⟩
  have hz : ds.filter (fun y => decide (chrom y.properties = c)) = [] := by
    simpa using hcz
  rw [hz] at this
  exact absurd this (List.not_mem_nil _)

theorem divide_into_chromosomes_grouped_witness :
    (∀ p ∈ scenario_vcf.records, p < scenario_store.cells.length)
    ∧ scenario_vcf.records ≠ []
    ∧ Grouped (record_chroms id scenario_store scenario_vcf.records)
    ∧ chromosome_runs (record_chroms id scenario_store scenario_vcf.records) ≤ [1, 2].length
    ∧ ∃ store2 vcfs,
        divide_into_chromosomes id [1, 2] scenario_store scenario_vcf = some (store2, vcfs)
      ∧ records_view store2 vcfs
          = (first_occurrences (record_chroms id scenario_store scenario_vcf.records)).map
              (records_on id scenario_store scenario_vcf.records)
      ∧ (first_occurrences (record_chroms id scenario_store scenario_vcf.records)).Nodup
      ∧ (∀ c, c ∈ first_occurrences (record_chroms id scenario_store scenario_vcf.records)
            ↔ c ∈ record_chroms id scenario_store scenario_vcf.records)
      ∧ (∀ v ∈ vcfs, v.records ≠ []) :=
  ⟨by decide, by decide, by decide, by decide,
    divide_into_chromosomes_grouped id [1, 2] scenario_store scenario_vcf
      (by decide) (by decide) (by decide) (by decide)⟩

theorem divide_into_chromosomes_scenario :
    (divide_into_chromosomes id [1, 2] scenario_store scenario_vcf).map
        (fun r => r.2.map (fun v => (v.records.length, v.genetic_map)))
      = some [(5, 1), (3, 2)]
    ∧ first_occurrences (record_chroms id scenario_store scenario_vcf.records)
      = ["chr1", "chr2"] := by
  constructor
  · decide
  · decide

theorem is_hetero_and_homo_defined (r : VCFHeteroHomoRecord) (h : InRange r) (is_mat : Bool) :
    ∃ b, is_hetero_and_homo r is_mat = some b := by
  obtain ⟨m, hm⟩ := is_Mendelian_segregation_defined r h
  unfold is_hetero_and_homo
  rw [hm]
  cases m with
  | false => exact ⟨_, rfl⟩
  | true =>
    cases is_mat with
    | true => exact ⟨_, rfl⟩
    | false => exact ⟨_, rfl⟩

theorem project_columns_length (orig_samples w : List String) (columns : List Nat) :
    ∀ gts samples, project_columns orig_samples w columns = some (gts, samples) →
      gts.length = columns.length ∧ samples.length = columns.length := by
  induction columns with
  | nil =>
    intro gts samples h
    simp only [project_columns, Option.some.injEq, Prod.mk.injEq] at h
    rw [← h.1, ← h.2]
    exact ⟨rfl, rfl⟩
  | cons c cs ih =>
    intro gts samples h
    rw [project_columns] at h
    by_cases hc : c < 9
    · rw [if_pos hc] at h
      exact absurd h (by simp)
    · rw [if_neg hc] at h
      cases hg : w[c - 9]? with
      | none => rw [hg] at h; simp at h
      | some g =>
        cases hs : orig_samples[c - 9]? with
        | none => rw [hg, hs] at h; simp at h
        | some s =>
          cases hr : project_columns orig_samples w cs with
          | none => rw [hg, hs, hr] at h; simp at h
          | some rest =>
            obtain ⟨gts1, samples1⟩ := rest
            rw [hg, hs, hr] at h
            simp only [Option.some.injEq, Prod.mk.injEq] at h
            obtain ⟨h1, h2⟩ := ih gts1 samples1 hr
            rw [← h.1, ← h.2]
            simp [h1, h2]

theorem project_some {P : Type} (orig_samples : List String) (record : VCFRecord P)
    (columns : List Nat) (nr : FamilyRecord P)
    (h : project orig_samples record columns = some nr) :
    nr.properties = record.properties ∧ nr.samples.length = columns.length
      ∧ project_columns orig_samples record.gts columns = some (nr.gts, nr.samples) := by
  unfold project at h
  cases hp : project_columns orig_samples record.gts columns with
  | none => rw [hp] at h; simp at h
  | some vs =>
    obtain ⟨gts, samples⟩ := vs
    rw [hp] at h
    simp only [Option.some.injEq] at h
    subst h
    exact ⟨rfl, (project_columns_length orig_samples record.gts columns gts samples hp).2, rfl⟩

theorem project_parents {P : Type} (orig_samples : List String) (record : VCFRecord P)
    (columns : List Nat) (nr : FamilyRecord P)
    (h : project orig_samples record columns = some nr) (hlen : 2 ≤ columns.length) :
    ∃ mat pat rest, nr.samples = mat :: pat :: rest
      ∧ parents_of nr = some (mat, pat)
      ∧ family_parents orig_samples columns = some (mat, pat) := by
  obtain ⟨_, _, hp⟩ := project_some orig_samples record columns nr h
  cases columns with
  | nil => simp at hlen
  | cons m cs =>
    cases cs with
    | nil => simp at hlen
    | cons p cs =>
      rw [project_columns] at hp
      by_cases hm : m < 9
      · rw [if_pos hm] at hp; simp at hp
      · rw [if_neg hm, project_columns] at hp
        by_cases hpp : p < 9
        · rw [if_pos hpp] at hp
          cases hg : record.gts[m - 9]? <;> cases hs : orig_samples[m - 9]? <;>
            simp [hg, hs] at hp
        · rw [if_neg hpp] at hp
          cases hg : record.gts[m - 9]? with
          | none => simp [hg] at hp
          | some g =>
            cases hs : orig_samples[m - 9]? with
            | none => simp [hg, hs] at hp
            | some a =>
              cases hg2 : record.gts[p - 9]? with
              | none => simp [hg, hs, hg2] at hp
              | some g2 =>
                cases hs2 : orig_samples[p - 9]? with
                | none => simp [hg, hs, hg2, hs2] at hp
                | some b =>
                  cases hr : project_columns orig_samples record.gts cs with
                  | none => simp [hg, hs, hg2, hs2, hr] at hp
                  | some rest =>
                    obtain ⟨gts1, samples1⟩ := rest
                    simp only [hg, hs, hg2, hs2, hr, Option.some.injEq, Prod.mk.injEq] at hp
                    refine ⟨a, b, samples1, hp.2.symm, ?_, ?_⟩
                    · unfold parents_of
                      rw [← hp.2]
                    · simp [family_parents, hs, hs2]

theorem bucketsAre_getD {R : Type} (sel : Parents × Bool → Option (List R))
    (L : Parents × Bool → List R) (h : BucketsAre sel L) (k : Parents × Bool) :
    (sel k).getD [] = L k := by
  rw [h k]
  by_cases hz : (L k).length = 0
  · rw [if_pos hz, List.length_eq_zero.1 hz]
    rfl
  · rw [if_neg hz]
    rfl

theorem bucketsAre_congr {R : Type} (sel : Parents × Bool → Option (List R))
    (L L2 : Parents × Bool → List R) (h : BucketsAre sel L) (he : ∀ k, L k = L2 k) :
    BucketsAre sel L2 := by
  intro k
  rw [← he k]
  exact h k

theorem push_record_spec {R : Type} (sel : Parents × Bool → Option (List R))
    (L : Parents × Bool → List R) (h : BucketsAre sel L) (key : Parents × Bool) (r : R)
    (b : Bool) :
    BucketsAre (if b = true then push_record sel key r else sel)
      (fun k => L k ++ (if k = key ∧ b = true then [r] else [])) := by
  intro k
  cases b with
  | false =>
    simp only [Bool.false_eq_true, if_false, and_false, List.append_nil]
    exact h k
  | true =>
    simp only [if_true, and_true, push_record]
    by_cases hk : k = key
    · rw [if_pos hk, if_pos hk, bucketsAre_getD sel L h k]
      simp
    · rw [if_neg hk, if_neg hk, List.append_nil]
      exact h k

theorem family_step_spec {P : Type} (get_int_gt : FamilyRecord P → Nat → Int)
    (orig_samples : List String) (record : VCFRecord P)
    (sel : Parents × Bool → Option (List (FamilyRecord P)))
    (L : Parents × Bool → List (FamilyRecord P)) (columns : List Nat)
    (hsel : BucketsAre sel L)
    (hvalid : 10 ≤ columns.length →
      ∃ nr, project orig_samples record columns = some nr ∧ InRange (int_view get_int_gt nr)) :
    ∃ sel2, family_step get_int_gt orig_samples record sel columns = some sel2
      ∧ BucketsAre sel2 (fun k => L k ++ selected get_int_gt orig_samples k record columns) := by
  by_cases hlen : columns.length < 10
  · refine ⟨sel, by simp [family_step, hlen], ?_⟩
    apply bucketsAre_congr sel L _ hsel
    intro k
    simp [selected, hlen]
  · obtain ⟨nr, hnr, hrange⟩ := hvalid (by omega)
    obtain ⟨mat, pat, rest, hsamples, hparents, _⟩ :=
      project_parents orig_samples record columns nr hnr (by omega)
    obtain ⟨b1, hb1⟩ := is_hetero_and_homo_defined _ hrange true
    obtain ⟨b2, hb2⟩ := is_hetero_and_homo_defined _ hrange false
    have h1 := push_record_spec sel L hsel ((mat, pat), true) nr b1
    have h2 := push_record_spec _ _ h1 ((mat, pat), false) nr b2
    refine ⟨_, ?_, bucketsAre_congr _ _ _ h2 ?_⟩
    · unfold family_step
      rw [if_neg hlen]
      simp only [hnr, hsamples, hb1, hb2]
    · intro k
      obtain ⟨p, role⟩ := k
      simp only [selected, if_neg hlen, hnr, hparents, List.append_assoc]
      congr 1
      by_cases hp : p = (mat, pat)
      · subst hp
        cases role <;> cases b1 <;> cases b2 <;> simp [hb1, hb2]
      · have hp2 : ¬ (mat, pat) = p := fun e => hp e.symm
        cases role <;> simp [hp, hp2]

theorem families_loop_spec {P : Type} (get_int_gt : FamilyRecord P → Nat → Int)
    (orig_samples : List String) (record : VCFRecord P) (family_columns : List (List Nat)) :
    ∀ (sel : Parents × Bool → Option (List (FamilyRecord P)))
      (L : Parents × Bool → List (FamilyRecord P)),
      BucketsAre sel L →
      (∀ columns ∈ family_columns, 10 ≤ columns.length →
        ∃ nr, project orig_samples record columns = some nr
          ∧ InRange (int_view get_int_gt nr)) →
      ∃ sel2, families_loop get_int_gt orig_samples record family_columns sel = some sel2
        ∧ BucketsAre sel2 (fun k => L k
            ++ family_columns.flatMap (selected get_int_gt orig_samples k record)) := by
  induction family_columns with
  | nil =>
    intro sel L hsel _
    refine ⟨sel, rfl, bucketsAre_congr sel L _ hsel ?_⟩
    intro k
    simp
  | cons columns rest ih =>
    intro sel L hsel hvalid
    obtain ⟨sel1, hstep, hsel1⟩ := family_step_spec get_int_gt orig_samples record sel L columns
      hsel (hvalid columns (List.mem_cons_self _ _))
    obtain ⟨sel2, hloop, hsel2⟩ := ih sel1 _ hsel1
      (fun c hc => hvalid c (List.mem_cons_of_mem _ hc))
    refine ⟨sel2, ?_, bucketsAre_congr sel2 _ _ hsel2 ?_⟩
    · rw [families_loop, hstep]
      exact hloop
    · intro k
      simp [List.flatMap_cons, List.append_assoc]

theorem stream_loop_spec {P : Type} (get_int_gt : FamilyRecord P → Nat → Int)
    (record_position : VCFRecord P → Int × Int) (orig_samples : List String)
    (family_columns : List (List Nat)) (debug : Bool) (stream : List (VCFRecord P)) :
    ∀ (sel : Parents × Bool → Option (List (FamilyRecord P)))
      (L : Parents × Bool → List (FamilyRecord P)),
      BucketsAre sel L →
      ValidInput get_int_gt record_position orig_samples family_columns debug stream →
      ∃ sel2, stream_loop get_int_gt record_position orig_samples family_columns debug stream sel
          = some sel2
        ∧ BucketsAre sel2 (fun k => L k
            ++ (processed record_position debug stream).flatMap
                 (fun record => family_columns.flatMap
                   (selected get_int_gt orig_samples k record))) := by
  induction stream with
  | nil =>
    intro sel L hsel _
    refine ⟨sel, rfl, bucketsAre_congr sel L _ hsel ?_⟩
    intro k
    simp [processed]
  | cons record rest ih =>
    intro sel L hsel hvalid
    by_cases hbreak : debug = true ∧ (record_position record).1 = 2
    · refine ⟨sel, by rw [stream_loop, if_pos hbreak], bucketsAre_congr sel L _ hsel ?_⟩
      intro k
      have : processed record_position debug (record :: rest) = [] := by
        simp [processed, List.takeWhile_cons, hbreak.1, hbreak.2]
      rw [this]
      simp
    · have hkeep : processed record_position debug (record :: rest)
          = record :: processed record_position debug rest := by
        unfold processed
        rw [List.takeWhile_cons]
        have : (!(debug && decide ((record_position record).1 = 2))) = true := by
          cases debug with
          | false => rfl
          | true =>
            have : ¬ (record_position record).1 = 2 := fun e => hbreak ⟨rfl, e⟩
            simp [this]
        rw [this]
        rfl
      have hvalid1 : ∀ columns ∈ family_columns, 10 ≤ columns.length →
          ∃ nr, project orig_samples record columns = some nr
            ∧ InRange (int_view get_int_gt nr) := by
        intro columns hc hlen
        exact hvalid record (by rw [hkeep]; exact List.mem_cons_self _ _) columns hc hlen
      have hvalid2 : ValidInput get_int_gt record_position orig_samples family_columns debug
          rest := by
        intro r hr columns hc hlen
        exact hvalid r (by rw [hkeep]; exact List.mem_cons_of_mem _ hr) columns hc hlen
      obtain ⟨sel1, hfam, hsel1⟩ := families_loop_spec get_int_gt orig_samples record
        family_columns sel L hsel hvalid1
      obtain ⟨sel2, hloop, hsel2⟩ := ih sel1 _ hsel1 hvalid2
      refine ⟨sel2, ?_, bucketsAre_congr sel2 _ _ hsel2 ?_⟩
      · rw [stream_loop, if_neg hbreak, hfam]
        exact hloop
      · intro k
        rw [hkeep]
        simp [List.flatMap_cons, List.append_assoc]

theorem create_vcfs_spec {P M : Type} (get_int_gt : FamilyRecord P → Nat → Int)
    (record_position : VCFRecord P → Int × Int)
    (select_header : FamilyRecord P → List (List String))
    (stream : List (VCFRecord P)) (orig_samples : List String)
    (family_columns : List (List Nat)) (geno_map : M) (debug : Bool)
    (hvalid : ValidInput get_int_gt record_position orig_samples family_columns debug stream) :
    ∃ vcfs, create_vcfs get_int_gt record_position select_header stream orig_samples
        family_columns geno_map debug = some vcfs
      ∧ (∀ key v, vcfs key = some v →
          v.records = (processed record_position debug stream).flatMap
            (fun record => family_columns.flatMap (selected get_int_gt orig_samples key record))
          ∧ v.genetic_map = geno_map
          ∧ ∃ r0, v.records.head? = some r0 ∧ v.samples = r0.samples
              ∧ v.header = select_header r0)
      ∧ (∀ key, vcfs key = none →
          (processed record_position debug stream).flatMap
            (fun record => family_columns.flatMap (selected get_int_gt orig_samples key record))
            = []) := by
  obtain ⟨sel2, hloop, hsel2⟩ := stream_loop_spec get_int_gt record_position orig_samples
    family_columns debug stream (fun _ => none) (fun _ => []) (by intro k; rfl) hvalid
  refine ⟨_, by unfold create_vcfs; rw [hloop], ?_, ?_⟩
  · intro key v hv
    have hk := hsel2 key
    simp only [List.nil_append] at hk
    simp only [hk] at hv
    split at hv
    · rename_i r0 rs heq
      by_cases hz : ((processed record_position debug stream).flatMap
          (fun record => family_columns.flatMap
            (selected get_int_gt orig_samples key record))).length = 0
      · rw [if_pos hz] at heq
        exact absurd heq (by simp)
      · rw [if_neg hz] at heq
        simp only [Option.some.injEq] at heq hv
        rw [← hv, heq]
        exact ⟨rfl, rfl, r0, rfl, rfl, rfl⟩
    · exact absurd hv (by simp)
  · intro key hv
    have hk := hsel2 key
    simp only [List.nil_append] at hk
    simp only [hk] at hv
    by_cases hz : ((processed record_position debug stream).flatMap
        (fun record => family_columns.flatMap
          (selected get_int_gt orig_samples key record))).length = 0
    · exact List.length_eq_zero.1 hz
    · rw [if_neg hz] at hv
      generalize hL : (processed record_position debug stream).flatMap
        (fun record => family_columns.flatMap
          (selected get_int_gt orig_samples key record)) = Lk at hv hz
      cases Lk with
      | nil => exact absurd rfl hz
      | cons r0 rs => simp at hv

theorem small_projection_hetero_homo :
    project small_samples small_record [9, 10, 11, 12] = some small_projection
    ∧ is_hetero_and_homo (int_view example_int_gt small_projection) false = some true := by
  refine ⟨by decide, ?_⟩
  have hv : int_view example_int_gt small_projection = ⟨0, 1, [0, 1]⟩ := by decide
  rw [hv]
  have hs := segregation_type_homoHetero ⟨0, 1, [0, 1]⟩ (by decide) (by decide) (by decide)
    (by decide)
  have hM := is_Mendelian_segregation_homoHetero ⟨0, 1, [0, 1]⟩ hs rfl rfl
  rw [is_hetero_and_homo_of_Mendelian _ false hM]
  simp

theorem large_projection_hetero_homo (pos : Int) :
    project large_samples (large_record pos) large_columns = some (large_projection pos)
    ∧ InRange (int_view example_int_gt (large_projection pos))
    ∧ parents_of (large_projection pos) = some ("mat", "pat")
    ∧ is_hetero_and_homo (int_view example_int_gt (large_projection pos)) false = some true
    ∧ is_hetero_and_homo (int_view example_int_gt (large_projection pos)) true = some false := by
  have hv : int_view example_int_gt (large_projection pos)
      = ⟨0, 1, [0, 1, 0, 1, 0, 1, 0, 1]⟩ := by
    simp [int_view, large_projection, large_samples, example_int_gt, List.range_succ]
  have hs := segregation_type_homoHetero ⟨0, 1, [0, 1, 0, 1, 0, 1, 0, 1]⟩ (by decide)
    (by decide) (by decide) (by decide)
  have hM := is_Mendelian_segregation_homoHetero ⟨0, 1, [0, 1, 0, 1, 0, 1, 0, 1]⟩ hs rfl rfl
  refine ⟨?_, ?_, rfl, ?_, ?_⟩
  · simp [project, project_columns, large_samples, large_record, large_columns,
      large_projection]
  · rw [hv]; decide
  · rw [hv, is_hetero_and_homo_of_Mendelian _ false hM]
    simp
  · rw [hv, is_hetero_and_homo_of_Mendelian _ true hM]
    simp

/-- C13, as stated, fails twice.  A family of four columns (mother, father and
two progeny) is skipped by the guard `columns.size() < 10U`: the projection
satisfies `is_hetero_and_homo(false)` and no bucket is made.  In debug mode a
record whose position has first component 2 ends the reading: the projection
onto a family of ten columns satisfies `is_hetero_and_homo(false)` and no
bucket is made. -/
theorem create_vcfs_not_appended :
    (project small_samples small_record [9, 10, 11, 12] = some small_projection
      ∧ is_hetero_and_homo (int_view example_int_gt small_projection) false = some true
      ∧ ∃ vcfs, create_vcfs example_int_gt (fun _ => (1, 1)) (fun _ => []) [small_record]
            small_samples [[9, 10, 11, 12]] () false = some vcfs
          ∧ vcfs (("mat", "pat"), false) = none)
    ∧ (project large_samples (large_record 100) large_columns = some (large_projection 100)
      ∧ is_hetero_and_homo (int_view example_int_gt (large_projection 100)) false = some true
      ∧ ∃ vcfs, create_vcfs example_int_gt (fun _ => (2, 1)) (fun _ => []) [large_record 100]
            large_samples [large_columns] () true = some vcfs
          ∧ vcfs (("mat", "pat"), false) = none) := by
  refine ⟨⟨small_projection_hetero_homo.1, small_projection_hetero_homo.2, ?_⟩,
    ⟨(large_projection_hetero_homo 100).1, (large_projection_hetero_homo 100).2.2.2.1, ?_⟩⟩
  · exact ⟨fun _ => none, by simp [create_vcfs, stream_loop, families_loop, family_step], rfl⟩
  · exact ⟨fun _ => none, by simp [create_vcfs, stream_loop], rfl⟩

theorem selected_mem {P : Type} (get_int_gt : FamilyRecord P → Nat → Int)
    (orig_samples : List String) (key : Parents × Bool) (record : VCFRecord P)
    (columns : List Nat) (nr : FamilyRecord P)
    (h : nr ∈ selected get_int_gt orig_samples key record columns) :
    selected get_int_gt orig_samples key record columns = [nr]
      ∧ 10 ≤ columns.length ∧ project orig_samples record columns = some nr
      ∧ parents_of nr = some key.1
      ∧ is_hetero_and_homo (int_view get_int_gt nr) key.2 = some true := by
  unfold selected at h ⊢
  by_cases hlen : columns.length < 10
  · rw [if_pos hlen] at h
    exact absurd h (List.not_mem_nil _)
  · rw [if_neg hlen] at h ⊢
    cases hp : project orig_samples record columns with
    | none =>
      rw [hp] at h
      exact absurd h (List.not_mem_nil _)
    | some nr2 =>
      rw [hp] at h
      simp only [] at h ⊢
      by_cases hc : parents_of nr2 = some key.1
          ∧ is_hetero_and_homo (int_view get_int_gt nr2) key.2 = some true
      · rw [if_pos hc] at h ⊢
        have : nr = nr2 := List.mem_singleton.1 h
        subst this
        exact ⟨rfl, by omega, rfl, hc.1, hc.2⟩
      · rw [if_neg hc] at h
        exact absurd h (List.not_mem_nil _)

theorem selected_of_project {P : Type} (get_int_gt : FamilyRecord P → Nat → Int)
    (orig_samples : List String) (key : Parents × Bool) (record : VCFRecord P)
    (columns : List Nat) (nr : FamilyRecord P) (hlen : 10 ≤ columns.length)
    (hp : project orig_samples record columns = some nr) :
    selected get_int_gt orig_samples key record columns
      = if parents_of nr = some key.1
            ∧ is_hetero_and_homo (int_view get_int_gt nr) key.2 = some true
        then [nr] else [] := by
  unfold selected
  rw [if_neg (by omega), hp]

theorem selected_family_parents {P : Type} (get_int_gt : FamilyRecord P → Nat → Int)
    (orig_samples : List String) (key : Parents × Bool) (record : VCFRecord P)
    (columns : List Nat) (h : selected get_int_gt orig_samples key record columns ≠ []) :
    10 ≤ columns.length ∧ family_parents orig_samples columns = some key.1 := by
  obtain ⟨nr, hnr⟩ := List.exists_mem_of_ne_nil _ h
  obtain ⟨_, hlen, hp, hpar, _⟩ := selected_mem get_int_gt orig_samples key record columns nr hnr
  obtain ⟨mat, pat, rest, _, hpo, hfp⟩ :=
    project_parents orig_samples record columns nr hp (by omega)
  rw [hpo] at hpar
  rw [hfp, hpar]
  exact ⟨hlen, rfl⟩

theorem selected_length_le {P : Type} (get_int_gt : FamilyRecord P → Nat → Int)
    (orig_samples : List String) (key : Parents × Bool) (record : VCFRecord P)
    (columns : List Nat) :
    (selected get_int_gt orig_samples key record columns).length ≤ 1 := by
  by_cases h : selected get_int_gt orig_samples key record columns = []
  · rw [h]; exact Nat.zero_le _
  · obtain ⟨nr, hnr⟩ := List.exists_mem_of_ne_nil _ h
    rw [(selected_mem get_int_gt orig_samples key record columns nr hnr).1]
    exact le_refl _

theorem family_selected_mem {P : Type} (get_int_gt : FamilyRecord P → Nat → Int)
    (orig_samples : List String) (family_columns : List (List Nat)) (key : Parents × Bool)
    (record : VCFRecord P) (nr : FamilyRecord P)
    (h : nr ∈ family_columns.flatMap (selected get_int_gt orig_samples key record)) :
    nr.properties = record.properties
      ∧ ∃ columns ∈ family_columns, project orig_samples record columns = some nr := by
  obtain ⟨columns, hc, hsel⟩ := List.mem_flatMap.1 h
  obtain ⟨_, _, hp, _, _⟩ := selected_mem get_int_gt orig_samples key record columns nr hsel
  exact ⟨(project_some orig_samples record columns nr hp).1, columns, hc, hp⟩

theorem family_selected_length {P : Type} (get_int_gt : FamilyRecord P → Nat → Int)
    (orig_samples : List String) (family_columns : List (List Nat)) (key : Parents × Bool)
    (record : VCFRecord P) (hd : DistinctFamilies orig_samples family_columns) :
    (family_columns.flatMap (selected get_int_gt orig_samples key record)).length ≤ 1 := by
  induction family_columns with
  | nil => simp
  | cons c cs ih =>
    have hcs : DistinctFamilies orig_samples cs := by
      unfold DistinctFamilies at hd ⊢
      rw [List.filter_cons] at hd
      split at hd
      · exact (List.pairwise_cons.1 hd).2
      · exact hd
    rw [List.flatMap_cons, List.length_append]
    by_cases hsel : selected get_int_gt orig_samples key record c = []
    · rw [hsel]
      simpa using ih hcs
    · obtain ⟨hlen, hfp⟩ := selected_family_parents get_int_gt orig_samples key record c hsel
      have hrest : cs.flatMap (selected get_int_gt orig_samples key record) = [] := by
        rw [List.flatMap_eq_nil_iff]
        intro d hdm
        by_contra hne
        obtain ⟨hlen2, hfp2⟩ :=
          selected_family_parents get_int_gt orig_samples key record d hne
        unfold DistinctFamilies at hd
        rw [List.filter_cons, if_pos (by simpa using hlen)] at hd
        have := (List.pairwise_cons.1 hd).1 d (List.mem_filter.2 ⟨hdm, by simpa using hlen2⟩)
        exact this (by rw [hfp, hfp2])
      rw [hrest]
      simpa using selected_length_le get_int_gt orig_samples key record c

theorem forall₂_map_of_forall {α β : Type} (R : α → β → Prop) (f : α → β) (l : List α)
    (h : ∀ x ∈ l, R x (f x)) : List.Forall₂ R l (l.map f) := by
  induction l with
  | nil => exact List.Forall₂.nil
  | cons x l ih =>
    exact List.Forall₂.cons (h x (List.mem_cons_self _ _))
      (ih (fun y hy => h y (List.mem_cons_of_mem _ hy)))

theorem flatten_map_nil {α β : Type} (l : List α) :
    (l.map (fun _ => ([] : List β))).flatten = [] := by
  induction l with
  | nil => rfl
  | cons x l ih => simp

theorem pairwise_flatMap_of_refl {α β γ : Type} (R : γ → γ → Prop) (hrefl : ∀ x, R x x)
    (F : α → List β) (f : α → γ) (g : β → γ) (h : ∀ x, ∀ y ∈ F x, g y = f x) (l : List α)
    (hp : (l.map f).Pairwise R) : ((l.flatMap F).map g).Pairwise R := by
  induction l with
  | nil => simp
  | cons x l ih =>
    rw [List.map_cons, List.pairwise_cons] at hp
    rw [List.flatMap_cons, List.map_append, List.pairwise_append]
    refine ⟨?_, ih hp.2, ?_⟩
    · apply List.pairwise_of_forall_mem_list
      intro a ha b hb
      obtain ⟨y, hy, rfl⟩ := List.mem_map.1 ha
      obtain ⟨z, hz, rfl⟩ := List.mem_map.1 hb
      rw [h x y hy, h x z hz]
      exact hrefl _
    · intro a ha b hb
      obtain ⟨y, hy, rfl⟩ := List.mem_map.1 ha
      obtain ⟨z, hz, rfl⟩ := List.mem_map.1 hb
      obtain ⟨w, hw, hzw⟩ := List.mem_flatMap.1 hz
      rw [h x y hy, h w z hzw]
      exact hp.1 (f w) (List.mem_map_of_mem f hw)

theorem sublist_flatMap_of_length {α β γ : Type} (F : α → List β) (f : α → γ) (g : β → γ)
    (h : ∀ x, ∀ y ∈ F x, g y = f x) (hlen : ∀ x, (F x).length ≤ 1) (l : List α) :
    ((l.flatMap F).map g).Sublist (l.map f) := by
  induction l with
  | nil => simp
  | cons x l ih =>
    rw [List.flatMap_cons, List.map_append, List.map_cons]
    have hx : ((F x).map g).Sublist [f x] := by
      cases hF : F x with
      | nil => simp
      | cons y ys =>
        have hl := hlen x
        rw [hF] at hl
        have hys : ys = [] := by
          cases ys with
          | nil => rfl
          | cons z zs => simp at hl
        subst hys
        have := h x y (by rw [hF]; exact List.mem_cons_self _ _)
        simp [this]
    exact List.Sublist.append hx ih

theorem large_stream_valid (debug : Bool) :
    ValidInput example_int_gt (fun _ => (1, 1)) large_samples [large_columns] debug
      [large_record 100, large_record 200] := by
  intro record hr columns hc _
  have hcol : columns = large_columns := List.mem_singleton.1 hc
  have hrec : record = large_record 100 ∨ record = large_record 200 := by
    have := (List.takeWhile_sublist _).subset hr
    simpa using this
  rw [hcol]
  rcases hrec with h | h
  · rw [h]
    exact ⟨_, (large_projection_hetero_homo 100).1, (large_projection_hetero_homo 100).2.1⟩
  · rw [h]
    exact ⟨_, (large_projection_hetero_homo 200).1, (large_projection_hetero_homo 200).2.1⟩

theorem large_stream_distinct : DistinctFamilies large_samples [large_columns] := by
  unfold DistinctFamilies
  exact (List.pairwise_singleton _ _).sublist (List.filter_sublist _)

/-- C13 (amended): on inputs that `create_vcfs` reads inside its vectors, the
call returns, and the bucket of every key is the concatenation, over the
records that are read in stream order and over the registered families in
registration order, of the list `selected`, which is empty for a family of
fewer than ten columns; for a family of ten or more columns with parents
`parents` the list `selected` of the key `(parents, role)` is the projection
alone when `is_hetero_and_homo(role)` holds for it and is empty otherwise. -/
theorem create_vcfs_buckets {P M : Type} (get_int_gt : FamilyRecord P → Nat → Int)
    (record_position : VCFRecord P → Int × Int)
    (select_header : FamilyRecord P → List (List String))
    (stream : List (VCFRecord P)) (orig_samples : List String)
    (family_columns : List (List Nat)) (geno_map : M) (debug : Bool)
    (hvalid : ValidInput get_int_gt record_position orig_samples family_columns debug stream) :
    ∃ vcfs, create_vcfs get_int_gt record_position select_header stream orig_samples
        family_columns geno_map debug = some vcfs
      ∧ (∀ key, ((vcfs key).map (fun v => v.records)).getD []
          = (processed record_position debug stream).flatMap
              (fun record => family_columns.flatMap
                (selected get_int_gt orig_samples key record)))
      ∧ (∀ record columns, columns.length < 10 →
          ∀ key, selected get_int_gt orig_samples key record columns = [])
      ∧ (∀ record ∈ processed record_position debug stream, ∀ columns ∈ family_columns,
          10 ≤ columns.length →
          ∃ nr parents, project orig_samples record columns = some nr
            ∧ parents_of nr = some parents
            ∧ ∀ role, selected get_int_gt orig_samples (parents, role) record columns
                = if is_hetero_and_homo (int_view get_int_gt nr) role = some true
                  then [nr] else []) := by
  obtain ⟨vcfs, hrun, hsome, hnone⟩ := create_vcfs_spec get_int_gt record_position
    select_header stream orig_samples family_columns geno_map debug hvalid
  refine ⟨vcfs, hrun, ?_, ?_, ?_⟩
  · intro key
    cases hv : vcfs key with
    | none =>
      rw [hnone key hv]
      rfl
    | some v =>
      rw [← (hsome key v hv).1]
      rfl
  · intro record columns hlen key
    unfold selected
    rw [if_pos hlen]
  · intro record hr columns hc hlen
    obtain ⟨nr, hnr, _⟩ := hvalid record hr columns hc hlen
    obtain ⟨mat, pat, rest, _, hpo, _⟩ :=
      project_parents orig_samples record columns nr hnr (by omega)
    refine ⟨nr, (mat, pat), hnr, hpo, ?_⟩
    intro role
    rw [selected_of_project get_int_gt orig_samples _ record columns nr hlen hnr]
    simp [hpo]

/-- Witness for C13: two records at positions 100 and 200 and one family of
ten columns. -/
theorem create_vcfs_buckets_witness :
    ValidInput example_int_gt (fun _ => (1, 1)) large_samples [large_columns] false
      [large_record 100, large_record 200]
    ∧ ∃ vcfs, create_vcfs example_int_gt (fun _ => (1, 1)) (fun _ => [])
        [large_record 100, large_record 200] large_samples [large_columns] () false = some vcfs
      ∧ (∀ key, ((vcfs key).map (fun v => v.records)).getD []
          = (processed (fun _ => (1, 1)) false [large_record 100, large_record 200]).flatMap
              (fun record => [large_columns].flatMap
                (selected example_int_gt large_samples key record)))
      ∧ (∀ (record : VCFRecord (String × Int)) columns, columns.length < 10 →
          ∀ key, selected example_int_gt large_samples key record columns = [])
      ∧ (∀ record ∈ processed (fun _ => (1, 1)) false [large_record 100, large_record 200],
          ∀ columns ∈ [large_columns], 10 ≤ columns.length →
          ∃ nr parents, project large_samples record columns = some nr
            ∧ parents_of nr = some parents
            ∧ ∀ role, selected example_int_gt large_samples (parents, role) record columns
                = if is_hetero_and_homo (int_view example_int_gt nr) role = some true
                  then [nr] else []) :=
  ⟨large_stream_valid false,
    create_vcfs_buckets example_int_gt (fun _ => (1, 1)) (fun _ => [])
      [large_record 100, large_record 200] large_samples [large_columns] () false
      (large_stream_valid false)⟩

theorem large_stream_bucket :
    (processed (fun _ => (1, 1)) false [large_record 100, large_record 200]).flatMap
        (fun record => [large_columns].flatMap
          (selected example_int_gt large_samples (("mat", "pat"), false) record))
      = [large_projection 100, large_projection 200] := by
  have h1 := selected_of_project example_int_gt large_samples (("mat", "pat"), false)
    (large_record 100) large_columns (large_projection 100) (by decide)
    (large_projection_hetero_homo 100).1
  have h2 := selected_of_project example_int_gt large_samples (("mat", "pat"), false)
    (large_record 200) large_columns (large_projection 200) (by decide)
    (large_projection_hetero_homo 200).1
  rw [if_pos ⟨(large_projection_hetero_homo 100).2.2.1,
    (large_projection_hetero_homo 100).2.2.2.1⟩] at h1
  rw [if_pos ⟨(large_projection_hetero_homo 200).2.2.1,
    (large_projection_hetero_homo 200).2.2.2.1⟩] at h2
  simp [processed, h1, h2]

/-- C14: on inputs that `create_vcfs` reads inside its vectors, the records of
every bucket of the returned mapping are listed in stream arrival order: the
bucket is the concatenation of one group per stream record, each group made of
projections of that record onto registered families.  Hence an order of the
fixed columns that holds along the stream holds along the bucket, in
particular ascending positions within each chromosome; when no two families
have the same parents the bucket is a subsequence of the stream. -/
theorem create_vcfs_arrival_order {P M : Type} (get_int_gt : FamilyRecord P → Nat → Int)
    (record_position : VCFRecord P → Int × Int)
    (select_header : FamilyRecord P → List (List String))
    (stream : List (VCFRecord P)) (orig_samples : List String)
    (family_columns : List (List Nat)) (geno_map : M) (debug : Bool)
    (hvalid : ValidInput get_int_gt record_position orig_samples family_columns debug stream) :
    ∃ vcfs, create_vcfs get_int_gt record_position select_header stream orig_samples
        family_columns geno_map debug = some vcfs
      ∧ ∀ key v, vcfs key = some v →
        (∃ groups : List (List (FamilyRecord P)),
          List.Forall₂ (fun record group => ∀ nr ∈ group,
              nr.properties = record.properties
              ∧ ∃ columns ∈ family_columns, project orig_samples record columns = some nr)
            stream groups
          ∧ v.records = groups.flatten)
        ∧ (∀ R : P → P → Prop, (∀ x, R x x) →
            (stream.map (fun r => r.properties)).Pairwise R →
            (v.records.map (fun r => r.properties)).Pairwise R)
        ∧ (∀ (chrom : P → String) (pos : P → Int),
            SortedWithinChromosome chrom pos (stream.map (fun r => r.properties)) →
            SortedWithinChromosome chrom pos (v.records.map (fun r => r.properties)))
        ∧ (DistinctFamilies orig_samples family_columns →
            (v.records.map (fun r => r.properties)).Sublist
              (stream.map (fun r => r.properties))) := by
  obtain ⟨vcfs, hrun, hsome, _⟩ := create_vcfs_spec get_int_gt record_position
    select_header stream orig_samples family_columns geno_map debug hvalid
  refine ⟨vcfs, hrun, ?_⟩
  intro key v hv
  have hrec := (hsome key v hv).1
  have hprops : ∀ record, ∀ nr ∈ family_columns.flatMap
      (selected get_int_gt orig_samples key record), nr.properties = record.properties :=
    fun record nr hnr =>
      (family_selected_mem get_int_gt orig_samples family_columns key record nr hnr).1
  have hsub : (processed record_position debug stream).Sublist stream :=
    List.takeWhile_sublist _
  have hpair : ∀ R : P → P → Prop, (∀ x, R x x) →
      (stream.map (fun r => r.properties)).Pairwise R →
      (v.records.map (fun r => r.properties)).Pairwise R := by
    intro R hrefl hp
    rw [hrec]
    exact pairwise_flatMap_of_refl R hrefl _ (fun r : VCFRecord P => r.properties)
      (fun r : FamilyRecord P => r.properties) hprops _ (hp.sublist (hsub.map _))
  refine ⟨?_, hpair, ?_, ?_⟩
  · refine ⟨(processed record_position debug stream).map
        (fun record => family_columns.flatMap (selected get_int_gt orig_samples key record))
      ++ (stream.dropWhile
            (fun record => !(debug && decide ((record_position record).1 = 2)))).map
          (fun _ => []), ?_, ?_⟩
    · have hsplit : stream = processed record_position debug stream
          ++ stream.dropWhile
              (fun record => !(debug && decide ((record_position record).1 = 2))) :=
        (List.takeWhile_append_dropWhile _ stream).symm
      conv_lhs => rw [hsplit]
      apply List.rel_append
      · apply forall₂_map_of_forall
        intro record _ nr hnr
        exact family_selected_mem get_int_gt orig_samples family_columns key record nr hnr
      · apply forall₂_map_of_forall
        intro record _ nr hnr
        exact absurd hnr (List.not_mem_nil _)
    · rw [List.flatten_append, flatten_map_nil, List.append_nil, hrec]
      rfl
  · intro chrom pos hs
    exact hpair _ (fun x _ => le_refl _) hs
  · intro hd
    rw [hrec]
    exact (sublist_flatMap_of_length _ (fun r : VCFRecord P => r.properties)
      (fun r : FamilyRecord P => r.properties) hprops (fun record => family_selected_length get_int_gt orig_samples family_columns key
        record hd) _).trans (hsub.map _)

/-- Witness for C14: two records at positions 100 and 200 and one family of
ten columns, read in debug mode. -/
theorem create_vcfs_arrival_order_witness :
    ValidInput example_int_gt (fun _ => (1, 1)) large_samples [large_columns] true
      [large_record 100, large_record 200]
    ∧ ∃ vcfs, create_vcfs example_int_gt (fun _ => (1, 1)) (fun _ => [])
        [large_record 100, large_record 200] large_samples [large_columns] () true = some vcfs
      ∧ ∀ key v, vcfs key = some v →
        (∃ groups : List (List (FamilyRecord (String × Int))),
          List.Forall₂ (fun record group => ∀ nr ∈ group,
              nr.properties = record.properties
              ∧ ∃ columns ∈ [large_columns], project large_samples record columns = some nr)
            [large_record 100, large_record 200] groups
          ∧ v.records = groups.flatten)
        ∧ (∀ R : String × Int → String × Int → Prop, (∀ x, R x x) →
            ([large_record 100, large_record 200].map (fun r => r.properties)).Pairwise R →
            (v.records.map (fun r => r.properties)).Pairwise R)
        ∧ (∀ (chrom : String × Int → String) (pos : String × Int → Int),
            SortedWithinChromosome chrom pos
              ([large_record 100, large_record 200].map (fun r => r.properties)) →
            SortedWithinChromosome chrom pos (v.records.map (fun r => r.properties)))
        ∧ (DistinctFamilies large_samples [large_columns] →
            (v.records.map (fun r => r.properties)).Sublist
              ([large_record 100, large_record 200].map (fun r => r.properties))) :=
  ⟨large_stream_valid true,
    create_vcfs_arrival_order example_int_gt (fun _ => (1, 1)) (fun _ => [])
      [large_record 100, large_record 200] large_samples [large_columns] () true
      (large_stream_valid true)⟩

theorem create_vcfs_example :
    ∃ vcfs, create_vcfs example_int_gt (fun _ => (1, 1)) (fun _ => [])
        [large_record 100, large_record 200] large_samples [large_columns] () false = some vcfs
      ∧ (vcfs (("mat", "pat"), false)).map (fun v => v.records)
          = some [large_projection 100, large_projection 200]
      ∧ (vcfs (("mat", "pat"), true)).map (fun v => v.records) = none := by
  obtain ⟨vcfs, hrun, hsome, hnone⟩ := create_vcfs_spec example_int_gt (fun _ => (1, 1))
    (fun _ => []) [large_record 100, large_record 200] large_samples [large_columns] () false
    (large_stream_valid false)
  refine ⟨vcfs, hrun, ?_, ?_⟩
  · cases hv : vcfs (("mat", "pat"), false) with
    | none =>
      have := hnone _ hv
      rw [large_stream_bucket] at this
      exact absurd this (by simp)
    | some v =>
      have := (hsome _ v hv).1
      rw [large_stream_bucket] at this
      simp [this]
  · cases hv : vcfs (("mat", "pat"), true) with
    | none => rfl
    | some v =>
      obtain ⟨hrec, _, r0, hr0, _⟩ := hsome _ v hv
      have h1 := selected_of_project example_int_gt large_samples (("mat", "pat"), true)
        (large_record 100) large_columns (large_projection 100) (by decide)
        (large_projection_hetero_homo 100).1
      have h2 := selected_of_project example_int_gt large_samples (("mat", "pat"), true)
        (large_record 200) large_columns (large_projection 200) (by decide)
        (large_projection_hetero_homo 200).1
      rw [if_neg (by rw [(large_projection_hetero_homo 100).2.2.2.2]; simp)] at h1
      rw [if_neg (by rw [(large_projection_hetero_homo 200).2.2.2.2]; simp)] at h2
      have hnil : v.records = [] := by
        rw [hrec]
        simp [processed, h1, h2]
      rw [hnil] at hr0
      simp at hr0

end Graphite
